import Mathlib

/-! LoopIdiomRecognize (llvm/lib/Transforms/Scalar/LoopIdiomRecognize.cpp)

A shallow embedding of the loop-idiom pass: the instruction graph is an arena of
instructions addressed by stable identifiers, basic blocks are ordered lists of
identifiers, and the collaborators of the pass (ScalarEvolution, TargetData, the
byte-pattern classifier, alias analysis) are records of functions.

Machine integers are natural numbers reduced modulo a power of two where the
source works at a fixed width.  Code that would dereference a null or destroyed
pointer yields `Result.stuck`; loops are driven by a fuel counter and yield
`Result.timeout` when it runs out.
-/

namespace LoopIdiomRecognize

/-! ## Data model -/

abbrev InstId := Nat
abbrev BlockId := Nat
abbrev LoopId := Nat
abbrev TypeId := Nat

/-- An IR value: the result of an instruction, an integer constant, or any other
value that is never destroyed by the pass (argument, global). -/
inductive Value where
  | inst (id : InstId)
  | constInt (bits : Nat) (val : Nat)
  | other (id : Nat)
  deriving DecidableEq

/-- Symbolic expressions of ScalarEvolution, as a tagged variant.  `constant`
carries the width and the unsigned value of its APInt.  `addRecExpr start step
extraOps L` is a recurrence on loop `L` whose operand 0 is `start`, operand 1 is
`step`, and which has `extraOps` further operands (so `getNumOperands` is
`2 + extraOps` and the recurrence is affine when `extraOps = 0`). -/
inductive SCEV where
  | constant (bits : Nat) (val : Nat)
  | unknown (bits : Nat) (v : Value)
  | truncate (op : SCEV) (bits : Nat)
  | zeroExtend (op : SCEV) (bits : Nat)
  | addExpr (lhs rhs : SCEV) (HasNUW HasNSW : Bool)
  | mulExpr (lhs rhs : SCEV) (HasNUW HasNSW : Bool)
  | addRecExpr (start step : SCEV) (extraOps : Nat) (L : LoopId)
  | couldNotCompute
  deriving DecidableEq

/-- The bit width of the type of an expression: `SE->getTypeSizeInBits(S->getType())`. -/
def SCEV.getTypeSizeInBits : SCEV → Nat
  | .constant bits _ => bits
  | .unknown bits _ => bits
  | .truncate _ bits => bits
  | .zeroExtend _ bits => bits
  | .addExpr lhs _ _ _ => lhs.getTypeSizeInBits
  | .mulExpr lhs _ _ _ => lhs.getTypeSizeInBits
  | .addRecExpr start _ _ _ => start.getTypeSizeInBits
  | .couldNotCompute => 0

/-- The value of an expression as an unsigned number of its width, under a
valuation `ρ` of the unknowns and in iteration `iter L` of each loop `L`.
Arithmetic is two's complement: sums and products are reduced modulo
`2 ^ width`.  (For a recurrence only the affine part is evaluated; the pass
rejects every recurrence with `extraOps ≠ 0`.) -/
def SCEV.eval (ρ : Value → Nat) (iter : LoopId → Nat) : SCEV → Nat
  | .constant bits val => val % 2 ^ bits
  | .unknown bits v => ρ v % 2 ^ bits
  | .truncate op bits => op.eval ρ iter % 2 ^ bits
  | .zeroExtend op bits => op.eval ρ iter % 2 ^ bits
  | .addExpr lhs rhs _ _ => (lhs.eval ρ iter + rhs.eval ρ iter) % 2 ^ lhs.getTypeSizeInBits
  | .mulExpr lhs rhs _ _ => (lhs.eval ρ iter * rhs.eval ρ iter) % 2 ^ lhs.getTypeSizeInBits
  | .addRecExpr start step _ L =>
      (start.eval ρ iter + step.eval ρ iter * iter L) % 2 ^ start.getTypeSizeInBits
  | .couldNotCompute => 0

/-- The signed reading of an unsigned `bits`-wide number. -/
def toSigned (bits : Nat) (v : Nat) : Int :=
  if 2 * v < 2 ^ bits then (v : Int) else (v : Int) - (2 : Int) ^ bits

/-- Instruction kinds the pass distinguishes.  `expanded S` is the code the
SCEVExpander materialises for the expression `S`. -/
inductive Opcode where
  | store (isVolatile : Bool)
  | load (isVolatile : Bool)
  | memset
  | terminator
  | expanded (S : SCEV)
  | other (mayHaveSideEffects : Bool)
  deriving DecidableEq

/-- An instruction: its kind, its operand slots (a slot holds `none` after
`setOperand(op, 0)`), and for memory instructions the alignment and the address
space of the pointer operand. -/
structure Instruction where
  opcode : Opcode
  operands : List (Option Value)
  alignment : Nat
  addrSpace : Nat
  deriving DecidableEq

/-- The mutable program state: the arena of live instructions, the ordered
contents of every basic block, the supply of fresh identifiers, and the keys of
ScalarEvolution's value-to-expression cache. -/
structure State where
  insts : List (InstId × Instruction)
  blocks : List (BlockId × List InstId)
  nextId : InstId
  Scalars : List Value
  deriving DecidableEq

/-- A loop descriptor: its blocks, its header and its preheader (if any). -/
structure Loop where
  id : LoopId
  blocks : List BlockId
  header : BlockId
  preheader : Option BlockId

/-- The target description: pointer width and the two size queries on types. -/
structure TargetData where
  PointerSizeInBits : Nat
  getTypeSizeInBits : TypeId → Nat
  getTypeStoreSizeInBits : TypeId → Nat

/-- The queries of ScalarEvolution the pass consumes. -/
structure ScalarEvolution where
  getSCEV : Value → SCEV
  hasLoopInvariantBackedgeTakenCount : LoopId → Bool
  getBackedgeTakenCount : LoopId → SCEV

/-- The analyses available to the pass.  `TD` is `none` when
`getAnalysisIfAvailable<TargetData>()` returns null.  `getModRefInfo I P` is
alias analysis: may instruction `I` read or write the memory `P` points to. -/
structure Analyses where
  SE : ScalarEvolution
  TD : Option TargetData
  getType : Value → TypeId
  isBytewiseValue : Value → Option Value
  getModRefInfo : InstId → Value → Bool

/-- The outcome of running code: a result, a dereference of a null or destroyed
pointer, or exhaustion of the fuel of the model. -/
inductive Result (α : Type) where
  | ok (a : α)
  | stuck
  | timeout
  deriving DecidableEq

/-! ## Primitive graph operations -/

/-- The live instruction with a given identifier. -/
def State.getInst (st : State) (i : InstId) : Option Instruction :=
  st.insts.lookup i

/-- The update `I->setOperand(op, 0)`. -/
def State.zeroOperand (st : State) (i : InstId) (op : Nat) : State :=
  { st with insts := st.insts.map (fun p =>
      if p.1 = i then (p.1, { p.2 with operands := p.2.operands.set op none }) else p) }

/-- The predicate `V->use_empty()`: no operand slot of a live instruction holds `V`. -/
def State.use_empty (st : State) (V : Value) : Bool :=
  st.insts.all (fun p => p.2.operands.all (fun o => decide (o ≠ some V)))

/-- The predicate `I->mayHaveSideEffects()`: the instruction may write to memory
(a store, a volatile load, the fill, or an instruction flagged so). -/
def Opcode.mayHaveSideEffects : Opcode → Bool
  | .store _ => true
  | .load isVolatile => isVolatile
  | .memset => true
  | .terminator => false
  | .expanded _ => false
  | .other b => b

/-- Modelled from the spec: `isInstructionTriviallyDead` (Transforms/Utils/Local.cpp
is not part of the sources): an instruction that has no use left, is not a
terminator and is a pure, side-effect-free computation. -/
def isInstructionTriviallyDead (st : State) (i : InstId) (I : Instruction) : Bool :=
  st.use_empty (.inst i) && decide (I.opcode ≠ .terminator) && !I.opcode.mayHaveSideEffects

/-- Modelled from the spec: `ScalarEvolution::forgetValue` purges the entry of
the symbolic-expression cache keyed by the value. -/
def State.forgetValue (st : State) (V : Value) : State :=
  { st with Scalars := st.Scalars.filter (fun k => decide (k ≠ V)) }

/-- The update `I->eraseFromParent()`: unlink the instruction from its block and
destroy it. -/
def State.eraseFromParent (st : State) (i : InstId) : State :=
  { st with
    insts := st.insts.filter (fun p => decide (p.1 ≠ i))
    blocks := st.blocks.map (fun b => (b.1, b.2.filter (fun j => decide (j ≠ i)))) }

/-- The terminator of a block, `BB->getTerminator()`: its last instruction when
that is a terminator. -/
def State.getTerminator (st : State) (bb : BlockId) : Option InstId :=
  match st.blocks.lookup bb with
  | none => none
  | some l =>
    match l.getLast? with
    | none => none
    | some t =>
      match st.getInst t with
      | some I => if I.opcode = .terminator then some t else none
      | none => none

/-- Insert `x` in a list right before the first occurrence of `pos`. -/
def insertBeforeInList (x pos : InstId) : List InstId → List InstId
  | [] => []
  | y :: ys => if y = pos then x :: y :: ys else y :: insertBeforeInList x pos ys

/-- Create a new instruction and link it in front of instruction `pos`, in the
block that holds `pos`.  Returns the new state and the new identifier. -/
def State.insertBefore (st : State) (pos : InstId) (I : Instruction) : State × InstId :=
  ({ st with
      insts := st.insts ++ [(st.nextId, I)]
      blocks := st.blocks.map (fun b => (b.1, insertBeforeInList st.nextId pos b.2))
      nextId := st.nextId + 1 },
   st.nextId)

/-! ## DeleteDeadInstruction -/

/-- One iteration of the operand loop of `DeleteDeadInstruction` (source lines
103-111), for operand slot `op` of `DeadInst`, with worklist `NowDeadInsts`
(top of the stack first). -/
def zapOperand (st : State) (DeadInst : InstId) (op : Nat) (NowDeadInsts : List InstId) :
    Result (State × List InstId) :=
  match st.getInst DeadInst with
  | none => .stuck
  | some I =>
    match I.operands.get? op with
    | none => .stuck
    | some none => .stuck
    | some (some Op) =>
      let st1 := st.zeroOperand DeadInst op
      match Op with
      | .inst j =>
        match st1.getInst j with
        | none => .stuck
        | some OpI =>
          if !st1.use_empty Op then .ok (st1, NowDeadInsts)
          else if isInstructionTriviallyDead st1 j OpI then .ok (st1, j :: NowDeadInsts)
          else .ok (st1, NowDeadInsts)
      | _ => .ok (st1, NowDeadInsts)

/-- The operand loop of `DeleteDeadInstruction` (source lines 102-112) over the
operand slots `ops`, in order. -/
def zapOperands (DeadInst : InstId) :
    List Nat → State → List InstId → Result (State × List InstId)
  | [], st, wl => .ok (st, wl)
  | op :: ops, st, wl =>
    match zapOperand st DeadInst op wl with
    | .ok (st1, wl1) => zapOperands DeadInst ops st1 wl1
    | .stuck => .stuck
    | .timeout => .timeout

/-- The do-while loop of `DeleteDeadInstruction` (source lines 95-116), entered
with `DeadInst` just popped and `NowDeadInsts` the rest of the worklist. -/
def DeleteDeadInstructionLoop :
    Nat → State → InstId → List InstId → Result State
  | fuel, st, DeadInst, NowDeadInsts =>
    match st.getInst DeadInst with
    | none => .stuck
    | some I =>
      match fuel with
      | 0 => .timeout
      | fuel + 1 =>
        let st1 := st.forgetValue (.inst DeadInst)
        match zapOperands DeadInst (List.range I.operands.length) st1 NowDeadInsts with
        | .ok (st2, wl) =>
          let st3 := st2.eraseFromParent DeadInst
          match wl with
          | [] => .ok st3
          | d :: wl1 => DeleteDeadInstructionLoop fuel st3 d wl1
        | .stuck => .stuck
        | .timeout => .timeout

/-- The function `DeleteDeadInstruction(I, SE)`.  Every iteration of its loop
destroys a live instruction, so the number of live instructions is fuel enough. -/
def DeleteDeadInstruction (st : State) (I : InstId) : Result State :=
  DeleteDeadInstructionLoop st.insts.length st I []

/-! ## The fill transform -/

/-- The constant `SE->getConstant(Ty, V)` of a `bits`-wide integer type. -/
def getConstant (bits : Nat) (V : Nat) : SCEV :=
  .constant bits (V % 2 ^ bits)

/-- The byte-count expression built by `processLoopStoreOfSplatValue` (source
lines 236-247): the trip count brought to pointer width, plus one, times the
store size unless that is one. -/
def NumBytesS (TD : TargetData) (BECount : SCEV) (StoreSize : Nat) : SCEV :=
  let IntPtr := TD.PointerSizeInBits
  let BESize := BECount.getTypeSizeInBits
  let BECount1 :=
    if BESize < TD.PointerSizeInBits then SCEV.zeroExtend BECount IntPtr
    else if BESize > TD.PointerSizeInBits then SCEV.truncate BECount IntPtr
    else BECount
  let NumBytesS := SCEV.addExpr BECount1 (getConstant IntPtr 1) true true
  if StoreSize ≠ 1 then
    SCEV.mulExpr NumBytesS (getConstant IntPtr StoreSize) true true
  else NumBytesS

/-- Modelled from the spec: `SCEVExpander::expandCodeFor(S, Ty, IP)` materialises
the expression as code inserted in front of `IP` and returns the value computed. -/
def expandCodeFor (st : State) (S : SCEV) (addrSpace : Nat) (IP : InstId) : State × Value :=
  let r := st.insertBefore IP
    { opcode := .expanded S, operands := [], alignment := 0, addrSpace := addrSpace }
  (r.1, .inst r.2)

/-- The call `Builder.CreateMemSet(Ptr, Val, Size, Align)` with the builder
positioned in front of `IP`: a call of the memset intrinsic with operands
destination, byte, length, alignment and the volatile flag. -/
def CreateMemSet (st : State) (IP : InstId) (Ptr Val Size : Value) (Align addrSpace : Nat) :
    State × Value :=
  let r := st.insertBefore IP
    { opcode := .memset
      operands := [some Ptr, some Val, some Size, some (.constInt 32 Align),
                   some (.constInt 1 0)]
      alignment := Align, addrSpace := addrSpace }
  (r.1, .inst r.2)

/-- The method `processLoopStoreOfSplatValue` (source lines 204-262).  `start` is
`Ev->getStart()`.  No alias check precedes the rewrite (source lines 213-217). -/
def processLoopStoreOfSplatValue (TD : TargetData) (CurLoop : Loop) (st : State)
    (SI : InstId) (StoreSize : Nat) (SplatValue : Value) (start : SCEV) (BECount : SCEV) :
    Result (Bool × State) :=
  match CurLoop.preheader with
  | none => .stuck
  | some Preheader =>
    match st.getTerminator Preheader, st.getInst SI with
    | some T, some I =>
      let AddrSpace := I.addrSpace
      let e1 := expandCodeFor st start AddrSpace T
      let e2 := expandCodeFor e1.1 (NumBytesS TD BECount StoreSize) 0 T
      let c := CreateMemSet e2.1 T e1.2 SplatValue e2.2 I.alignment AddrSpace
      match DeleteDeadInstruction c.1 SI with
      | .ok st1 => .ok (true, st1)
      | .stuck => .stuck
      | .timeout => .timeout
    | _, _ => .stuck

/-- The method `processLoopStore` (source lines 163-200).  The store `SI` has the
stored value as operand 0 and the pointer as operand 1.  The diagnostic printed
at source line 196 is not part of the state. -/
def processLoopStore (A : Analyses) (TD : TargetData) (CurLoop : Loop) (st : State)
    (SI : InstId) (BECount : SCEV) : Result (Bool × State) :=
  match st.getInst SI with
  | none => .stuck
  | some I =>
    match I.operands with
    | [some StoredVal, some StorePtr] =>
      let SizeInBits := TD.getTypeSizeInBits (A.getType StoredVal)
      if (SizeInBits &&& 7) ≠ 0 ∨ (SizeInBits >>> 32) ≠ 0 ∨
          SizeInBits ≠ TD.getTypeStoreSizeInBits (A.getType StoredVal) then
        .ok (false, st)
      else
        match A.SE.getSCEV StorePtr with
        | .addRecExpr start step extraOps L =>
          if L ≠ CurLoop.id ∨ extraOps ≠ 0 then .ok (false, st)
          else
            let StoreSize := (SizeInBits % 2 ^ 32) >>> 3
            match step with
            | .constant _ Stride =>
              if StoreSize ≠ Stride then .ok (false, st)
              else
                match A.isBytewiseValue StoredVal with
                | some SplatValue =>
                  processLoopStoreOfSplatValue TD CurLoop st SI StoreSize SplatValue start
                    BECount
                | none => .ok (false, st)
            | _ => .ok (false, st)
        | _ => .ok (false, st)
    | _ => .stuck

/-! ## runOnLoop -/

/-- The successor of `cur` in a block, `none` standing for `BB->end()`. -/
def succInList (cur : InstId) : List InstId → Option InstId
  | [] => none
  | x :: xs => if x = cur then xs.head? else succInList cur xs

/-- The iterator `BB->begin()`. -/
def State.blockBegin (st : State) (BB : BlockId) : Option InstId :=
  match st.blocks.lookup BB with
  | none => none
  | some l => l.head?

/-- The scan loop of `runOnLoop` (source lines 143-157).  `I` is the iterator
(`none` is `BB->end()`), `MadeChange` the accumulator.  Besides the result the
model returns the trace of the calls of `processLoopStore`: the store passed and
the value returned, latest call first. -/
def scanLoop (A : Analyses) (TD : TargetData) (CurLoop : Loop) (BECount : SCEV)
    (BB : BlockId) :
    Nat → State → Option InstId → Bool → List (InstId × Bool) →
      Result (Bool × State × List (InstId × Bool))
  | _, st, none, MadeChange, tr => .ok (MadeChange, st, tr)
  | 0, _, some _, _, _ => .timeout
  | fuel + 1, st, some cur, MadeChange, tr =>
    match st.getInst cur, st.blocks.lookup BB with
    | some Cur, some l =>
      let I := succInList cur l
      match Cur.opcode with
      | .store isVolatile =>
        if isVolatile then scanLoop A TD CurLoop BECount BB fuel st I MadeChange tr
        else
          match processLoopStore A TD CurLoop st cur BECount with
          | .ok (false, st1) =>
            scanLoop A TD CurLoop BECount BB fuel st1 I MadeChange ((cur, false) :: tr)
          | .ok (true, st1) =>
            if st1.getInst cur = none then
              scanLoop A TD CurLoop BECount BB fuel st1 (st1.blockBegin BB) true
                ((cur, true) :: tr)
            else
              scanLoop A TD CurLoop BECount BB fuel st1 I true ((cur, true) :: tr)
          | .stuck => .stuck
          | .timeout => .timeout
      | _ => scanLoop A TD CurLoop BECount BB fuel st I MadeChange tr
    | _, _ => .stuck

/-- The method `runOnLoop` (source lines 119-160), with the fuel of its scan
loop as a parameter. -/
def runOnLoop (fuel : Nat) (A : Analyses) (L : Loop) (st : State) :
    Result (Bool × State × List (InstId × Bool)) :=
  if L.blocks.length ≠ 1 then .ok (false, st, [])
  else if !A.SE.hasLoopInvariantBackedgeTakenCount L.id then .ok (false, st, [])
  else
    let BECount := A.SE.getBackedgeTakenCount L.id
    if BECount = .couldNotCompute then .ok (false, st, [])
    else
      match A.TD with
      | none => .ok (false, st, [])
      | some TD =>
        let BB := L.header
        scanLoop A TD L BECount BB fuel st (st.blockBegin BB) false []

/-! ## Semantics of the store loop and of the fill -/

/-- Memory: a byte for every address. -/
abbrev Memory := Nat → Nat

/-- Execute a store of the bytes `bs` at address `addr` on a machine with
`p`-bit addresses. -/
def execStore (p : Nat) : Nat → List Nat → Memory → Memory
  | _, [], m => m
  | addr, b :: bs, m => execStore p (addr + 1) bs (fun a => if a = addr % 2 ^ p then b else m a)

/-- Execute `n` iterations of the store loop, starting with iteration `i`: in
iteration `j` the store writes the `S` bytes of a value whose bytes all equal
`b j`, the value of the splat byte in that iteration, at the address
`base + S * j` of the recurrence. -/
def execLoopFrom (p base S : Nat) (b : Nat → Nat) : Nat → Nat → Memory → Memory
  | _, 0, m => m
  | i, n + 1, m =>
      execLoopFrom p base S b (i + 1) n
        (execStore p ((base + S * i) % 2 ^ p) (List.replicate S (b i)) m)

/-- The addresses the store writes in iteration `i`. -/
def iterRange (p base S i : Nat) : Set Nat :=
  { a | ∃ k, k < S ∧ a = (base + S * i + k) % 2 ^ p }

/-- The addresses a fill of `len` bytes at `base` writes. -/
def fillRange (p base len : Nat) : Set Nat :=
  { a | ∃ j, j < len ∧ a = (base + j) % 2 ^ p }

/-- The fill length in the words of the specification: `(tc' + 1) * storeSize`
in `p`-bit arithmetic, where `tc'` is the `w`-bit trip count `tc` zero-extended
if `w < p`, truncated to `p` bits if `w > p`, and `tc` itself if `w = p`. -/
def specFillLength (p w tc storeSize : Nat) : Nat :=
  let tc' := if w < p then tc else if w > p then tc % 2 ^ p else tc
  ((tc' + 1) * storeSize) % 2 ^ p

/-! ## A concrete loop -/

/-- Modelled from the spec: the byte-pattern classifier `isBytewiseValue`
(Analysis/ValueTracking.cpp is not part of the sources), on integer constants:
a constant of a whole number of bytes whose bytes are all equal yields that
byte; anything else yields none. -/
def isBytewiseValue : Value → Option Value
  | .constInt bits val =>
    if bits % 8 = 0 ∧ 0 < bits ∧
        (List.range (bits / 8)).all (fun k => decide (val / 256 ^ k % 256 = val % 256)) then
      some (.constInt 8 (val % 256))
    else none
  | _ => none

/-- A target with `p`-bit pointers on which type `t` is the `t`-bit integer. -/
def exTD (p : Nat) : TargetData :=
  { PointerSizeInBits := p
    getTypeSizeInBits := fun t => t
    getTypeStoreSizeInBits := fun t => (t + 7) / 8 * 8 }

/-- ScalarEvolution for the example: the address `%2` is the recurrence
`{%p,+,stride}` on loop 0 and the back-edge count of loop 0 is `BECount`. -/
def exSE (p stride : Nat) (BECount : SCEV) : ScalarEvolution :=
  { getSCEV := fun v =>
      if v = .inst 2 then
        .addRecExpr (.unknown p (.other 0)) (.constant p stride) 0 0
      else .unknown p v
    hasLoopInvariantBackedgeTakenCount := fun _ => true
    getBackedgeTakenCount := fun _ => BECount }

/-- The analyses of the example; alias analysis answers that everything may alias. -/
def exA (p stride : Nat) (BECount : SCEV) : Analyses :=
  { SE := exSE p stride BECount
    TD := some (exTD p)
    getType := fun v =>
      match v with
      | .constInt bits _ => bits
      | _ => p
    isBytewiseValue := isBytewiseValue
    getModRefInfo := fun _ _ => true }

/-- The loop of the example: one block, 1, with preheader 0. -/
def exLoop : Loop :=
  { id := 0, blocks := [1], header := 1, preheader := some 0 }

/-- The example program: preheader `[%0 = br]` and loop block
`%1 = phi [0, %4]; %2 = gep %p, %1; %3 = store V, %2; %4 = add %1, 1;
%5 = icmp %4, %n; %6 = br %5`, the store being volatile or not. -/
def exState (isVolatile : Bool) (V : Value) : State :=
  { insts :=
      [(0, { opcode := .terminator, operands := [], alignment := 0, addrSpace := 0 }),
       (1, { opcode := .other false, operands := [some (.constInt 64 0), some (.inst 4)],
             alignment := 0, addrSpace := 0 }),
       (2, { opcode := .other false, operands := [some (.other 0), some (.inst 1)],
             alignment := 0, addrSpace := 0 }),
       (3, { opcode := .store isVolatile, operands := [some V, some (.inst 2)],
             alignment := 1, addrSpace := 0 }),
       (4, { opcode := .other false, operands := [some (.inst 1), some (.constInt 64 1)],
             alignment := 0, addrSpace := 0 }),
       (5, { opcode := .other false, operands := [some (.inst 4), some (.other 1)],
             alignment := 0, addrSpace := 0 }),
       (6, { opcode := .terminator, operands := [some (.inst 5)],
             alignment := 0, addrSpace := 0 })]
    blocks := [(0, [0]), (1, [1, 2, 3, 4, 5, 6])]
    nextId := 7
    Scalars := [.inst 2, .inst 1] }

/-- The example program after the store `%3` has been turned into a fill: the
preheader holds the materialised base `%7`, the materialised length `%8` and the
fill `%9`; the store and its address computation `%2` are gone. -/
def exRewritten (p : Nat) (V : Value) (len : SCEV) : State :=
  { insts :=
      [(0, { opcode := .terminator, operands := [], alignment := 0, addrSpace := 0 }),
       (1, { opcode := .other false, operands := [some (.constInt 64 0), some (.inst 4)],
             alignment := 0, addrSpace := 0 }),
       (4, { opcode := .other false, operands := [some (.inst 1), some (.constInt 64 1)],
             alignment := 0, addrSpace := 0 }),
       (5, { opcode := .other false, operands := [some (.inst 4), some (.other 1)],
             alignment := 0, addrSpace := 0 }),
       (6, { opcode := .terminator, operands := [some (.inst 5)],
             alignment := 0, addrSpace := 0 }),
       (7, { opcode := .expanded (.unknown p (.other 0)), operands := [],
             alignment := 0, addrSpace := 0 }),
       (8, { opcode := .expanded len, operands := [], alignment := 0, addrSpace := 0 }),
       (9, { opcode := .memset,
             operands := [some (.inst 7), some V, some (.inst 8), some (.constInt 32 1),
                          some (.constInt 1 0)],
             alignment := 1, addrSpace := 0 })]
    blocks := [(0, [7, 8, 9, 0]), (1, [1, 4, 5, 6])]
    nextId := 10
    Scalars := [.inst 1] }

/-- A variant of the example program in which the loop reads the location it
stores to: `%7 = load %2` precedes the store and the call `%8 = use(%7)`
consumes the value loaded. -/
def exStateAlias (V : Value) : State :=
  { insts :=
      [(0, { opcode := .terminator, operands := [], alignment := 0, addrSpace := 0 }),
       (1, { opcode := .other false, operands := [some (.constInt 64 0), some (.inst 4)],
             alignment := 0, addrSpace := 0 }),
       (2, { opcode := .other false, operands := [some (.other 0), some (.inst 1)],
             alignment := 0, addrSpace := 0 }),
       (3, { opcode := .store false, operands := [some V, some (.inst 2)],
             alignment := 1, addrSpace := 0 }),
       (4, { opcode := .other false, operands := [some (.inst 1), some (.constInt 64 1)],
             alignment := 0, addrSpace := 0 }),
       (5, { opcode := .other false, operands := [some (.inst 4), some (.other 1)],
             alignment := 0, addrSpace := 0 }),
       (6, { opcode := .terminator, operands := [some (.inst 5)],
             alignment := 0, addrSpace := 0 }),
       (7, { opcode := .load false, operands := [some (.inst 2)],
             alignment := 1, addrSpace := 0 }),
       (8, { opcode := .other true, operands := [some (.inst 7)],
             alignment := 0, addrSpace := 0 })]
    blocks := [(0, [0]), (1, [1, 2, 7, 3, 8, 4, 5, 6])]
    nextId := 9
    Scalars := [.inst 2, .inst 1] }

/-- The variant after the rewrite: the fill `%11` is in the preheader, the store
is gone, and the load `%7` of the filled location is still in the loop. -/
def exStateAliasRewritten (p : Nat) (V : Value) (len : SCEV) : State :=
  { insts :=
      [(0, { opcode := .terminator, operands := [], alignment := 0, addrSpace := 0 }),
       (1, { opcode := .other false, operands := [some (.constInt 64 0), some (.inst 4)],
             alignment := 0, addrSpace := 0 }),
       (2, { opcode := .other false, operands := [some (.other 0), some (.inst 1)],
             alignment := 0, addrSpace := 0 }),
       (4, { opcode := .other false, operands := [some (.inst 1), some (.constInt 64 1)],
             alignment := 0, addrSpace := 0 }),
       (5, { opcode := .other false, operands := [some (.inst 4), some (.other 1)],
             alignment := 0, addrSpace := 0 }),
       (6, { opcode := .terminator, operands := [some (.inst 5)],
             alignment := 0, addrSpace := 0 }),
       (7, { opcode := .load false, operands := [some (.inst 2)],
             alignment := 1, addrSpace := 0 }),
       (8, { opcode := .other true, operands := [some (.inst 7)],
             alignment := 0, addrSpace := 0 }),
       (9, { opcode := .expanded (.unknown p (.other 0)), operands := [],
             alignment := 0, addrSpace := 0 }),
       (10, { opcode := .expanded len, operands := [], alignment := 0, addrSpace := 0 }),
       (11, { opcode := .memset,
              operands := [some (.inst 9), some V, some (.inst 10), some (.constInt 32 1),
                           some (.constInt 1 0)],
              alignment := 1, addrSpace := 0 })]
    blocks := [(0, [9, 10, 11, 0]), (1, [1, 2, 7, 8, 4, 5, 6])]
    nextId := 12
    Scalars := [.inst 2, .inst 1] }

/-- A variant of the example program with a second, volatile store in the loop:
`%7 = gep %q, %1; %8 = store volatile 0x55, %7`. -/
def exStateTwoStores (V : Value) : State :=
  { insts :=
      [(0, { opcode := .terminator, operands := [], alignment := 0, addrSpace := 0 }),
       (1, { opcode := .other false, operands := [some (.constInt 64 0), some (.inst 4)],
             alignment := 0, addrSpace := 0 }),
       (2, { opcode := .other false, operands := [some (.other 0), some (.inst 1)],
             alignment := 0, addrSpace := 0 }),
       (3, { opcode := .store false, operands := [some V, some (.inst 2)],
             alignment := 1, addrSpace := 0 }),
       (4, { opcode := .other false, operands := [some (.inst 1), some (.constInt 64 1)],
             alignment := 0, addrSpace := 0 }),
       (5, { opcode := .other false, operands := [some (.inst 4), some (.other 1)],
             alignment := 0, addrSpace := 0 }),
       (6, { opcode := .terminator, operands := [some (.inst 5)],
             alignment := 0, addrSpace := 0 }),
       (7, { opcode := .other false, operands := [some (.other 2), some (.inst 1)],
             alignment := 0, addrSpace := 0 }),
       (8, { opcode := .store true, operands := [some (.constInt 8 0x55), some (.inst 7)],
             alignment := 1, addrSpace := 0 })]
    blocks := [(0, [0]), (1, [1, 2, 3, 7, 8, 4, 5, 6])]
    nextId := 9
    Scalars := [.inst 2, .inst 1] }

/-- The variant with two stores after `runOnLoop`: the first store has become
the fill `%11`, the volatile store `%8` is where it was. -/
def exStateTwoStoresRewritten (p : Nat) (V : Value) (len : SCEV) : State :=
  { insts :=
      [(0, { opcode := .terminator, operands := [], alignment := 0, addrSpace := 0 }),
       (1, { opcode := .other false, operands := [some (.constInt 64 0), some (.inst 4)],
             alignment := 0, addrSpace := 0 }),
       (4, { opcode := .other false, operands := [some (.inst 1), some (.constInt 64 1)],
             alignment := 0, addrSpace := 0 }),
       (5, { opcode := .other false, operands := [some (.inst 4), some (.other 1)],
             alignment := 0, addrSpace := 0 }),
       (6, { opcode := .terminator, operands := [some (.inst 5)],
             alignment := 0, addrSpace := 0 }),
       (7, { opcode := .other false, operands := [some (.other 2), some (.inst 1)],
             alignment := 0, addrSpace := 0 }),
       (8, { opcode := .store true, operands := [some (.constInt 8 0x55), some (.inst 7)],
             alignment := 1, addrSpace := 0 }),
       (9, { opcode := .expanded (.unknown p (.other 0)), operands := [],
             alignment := 0, addrSpace := 0 }),
       (10, { opcode := .expanded len, operands := [], alignment := 0, addrSpace := 0 }),
       (11, { opcode := .memset,
              operands := [some (.inst 9), some V, some (.inst 10), some (.constInt 32 1),
                           some (.constInt 1 0)],
              alignment := 1, addrSpace := 0 })]
    blocks := [(0, [9, 10, 11, 0]), (1, [1, 7, 8, 4, 5, 6])]
    nextId := 12
    Scalars := [.inst 1] }

/-- The trip count `%n - 1` of the example, a 64-bit expression. -/
def exBECount : SCEV :=
  .addExpr (.unknown 64 (.other 1)) (.constant 64 (2 ^ 64 - 1)) false false

/-- The state `processLoopStoreOfSplatValue` reaches right before it deletes the
store `I`: the base, the length and the fill have been inserted in front of the
terminator `T` of the preheader. -/
def withFill (TD : TargetData) (st : State) (T : InstId) (I : Instruction) (StoreSize : Nat)
    (SplatValue : Value) (start BECount : SCEV) : State :=
  (CreateMemSet
    (expandCodeFor (expandCodeFor st start I.addrSpace T).1
      (NumBytesS TD BECount StoreSize) 0 T).1 T
    (expandCodeFor st start I.addrSpace T).2 SplatValue
    (expandCodeFor (expandCodeFor st start I.addrSpace T).1
      (NumBytesS TD BECount StoreSize) 0 T).2 I.alignment I.addrSpace).1

/-- The code the expander creates for the base address `start`. -/
def baseInst (start : SCEV) (addrSpace : Nat) : Instruction :=
  { opcode := .expanded start, operands := [], alignment := 0, addrSpace := addrSpace }

/-- The code the expander creates for the byte count `len`. -/
def lengthInst (len : SCEV) : Instruction :=
  { opcode := .expanded len, operands := [], alignment := 0, addrSpace := 0 }

/-- The fill created by a rewrite of the store `I` in state `st`: destination
`%nextId`, byte `SplatValue`, length `%(nextId + 1)`, alignment and address
space of `I`. -/
def fillInst (st : State) (I : Instruction) (SplatValue : Value) : Instruction :=
  { opcode := .memset
    operands := [some (.inst st.nextId), some SplatValue, some (.inst (st.nextId + 1)),
                 some (.constInt 32 I.alignment), some (.constInt 1 0)]
    alignment := I.alignment, addrSpace := I.addrSpace }

/-- The three instructions a rewrite of the store `I` creates: the materialised
base, the materialised length, and the fill that uses both. -/
def fillInsts (TD : TargetData) (st : State) (I : Instruction) (StoreSize : Nat)
    (SplatValue : Value) (start BECount : SCEV) : List (InstId × Instruction) :=
  [(st.nextId, baseInst start I.addrSpace),
   (st.nextId + 1, lengthInst (NumBytesS TD BECount StoreSize)),
   (st.nextId + 2, fillInst st I SplatValue)]

/-! ## Invariants used in the proofs -/

/-- Every instruction of `keep` is live in `st` and is exactly as recorded. -/
def Intact (keep : List (InstId × Instruction)) (st : State) : Prop :=
  ∀ p ∈ keep, st.getInst p.1 = some p.2

/-- No instruction of `keep` is trivially dead in a state in which `keep` is intact. -/
def NeverDead (keep : List (InstId × Instruction)) : Prop :=
  ∀ st, Intact keep st → ∀ p ∈ keep, isInstructionTriviallyDead st p.1 p.2 = false

/-- Every block of `st` is still a block of `st1` and holds every instruction of
`keep` it held before. -/
def BlocksKeep (keep : List (InstId × Instruction)) (st st1 : State) : Prop :=
  ∀ bb l, st.blocks.lookup bb = some l →
    ∃ l1, st1.blocks.lookup bb = some l1 ∧ ∀ p ∈ keep, p.1 ∈ l → p.1 ∈ l1

/-- Identifiers are fresh: every live instruction has an identifier below `nextId`. -/
def FreshIds (st : State) : Prop :=
  ∀ p ∈ st.insts, p.1 < st.nextId

/-! ## Further examples -/

/-- Remove the instructions `dead` from the state: from the arena, from every
block, and from the symbolic-expression cache. -/
def State.eraseAll (st : State) (dead : List InstId) : State :=
  { insts := st.insts.filter (fun p => decide (p.1 ∉ dead))
    blocks := st.blocks.map (fun b => (b.1, b.2.filter (fun j => decide (j ∉ dead))))
    nextId := st.nextId
    Scalars := st.Scalars.filter (fun k => decide (∀ d ∈ dead, k ≠ Value.inst d)) }

/-- The do-while loop of `DeleteDeadInstruction` (source lines 95-116) with two
ghost logs: `pushed` collects every instruction placed on the worklist and
`erased` every instruction erased, latest first.  The instructions pushed in an
iteration are the ones the operand loop has put on top of the worklist. -/
def DeleteDeadInstructionLoopLog :
    Nat → State → InstId → List InstId → List InstId → List InstId →
      Result (State × List InstId × List InstId)
  | fuel, st, DeadInst, NowDeadInsts, pushed, erased =>
    match st.getInst DeadInst with
    | none => .stuck
    | some I =>
      match fuel with
      | 0 => .timeout
      | fuel + 1 =>
        let st1 := st.forgetValue (.inst DeadInst)
        match zapOperands DeadInst (List.range I.operands.length) st1 NowDeadInsts with
        | .ok (st2, wl) =>
          let st3 := st2.eraseFromParent DeadInst
          let pushed1 := wl.take (wl.length - NowDeadInsts.length) ++ pushed
          match wl with
          | [] => .ok (st3, pushed1, DeadInst :: erased)
          | d :: wl1 =>
            DeleteDeadInstructionLoopLog fuel st3 d wl1 pushed1 (DeadInst :: erased)
        | .stuck => .stuck
        | .timeout => .timeout

/-- The function `DeleteDeadInstruction(I, SE)` with the two logs; the root is
the first instruction pushed (source line 92). -/
def DeleteDeadInstructionLog (st : State) (I : InstId) :
    Result (State × List InstId × List InstId) :=
  DeleteDeadInstructionLoopLog st.insts.length st I [] [I] []

/-- The operations of the cascade on the graph and on the cache. -/
inductive CascadeEvent where
  | forgetValue (d : InstId)
  | setOperand (d : InstId) (op : Nat)
  | eraseFromParent (d : InstId)
deriving DecidableEq

/-- The do-while loop of `DeleteDeadInstruction` (source lines 95-116) with the
ghost log of the operations it performs, in the order in which the source
performs them: `SE.forgetValue(DeadInst)` (line 100), `setOperand(op, 0)` for
each operand slot (line 104), `DeadInst->eraseFromParent()` (line 114). -/
def DeleteDeadInstructionLoopEvents :
    Nat → State → InstId → List InstId → List CascadeEvent →
      Result (State × List CascadeEvent)
  | fuel, st, DeadInst, NowDeadInsts, ev =>
    match st.getInst DeadInst with
    | none => .stuck
    | some I =>
      match fuel with
      | 0 => .timeout
      | fuel + 1 =>
        let st1 := st.forgetValue (.inst DeadInst)
        let ev1 := ev ++ [.forgetValue DeadInst]
        match zapOperands DeadInst (List.range I.operands.length) st1 NowDeadInsts with
        | .ok (st2, wl) =>
          let ev2 := ev1 ++ (List.range I.operands.length).map (.setOperand DeadInst)
          let st3 := st2.eraseFromParent DeadInst
          let ev3 := ev2 ++ [.eraseFromParent DeadInst]
          match wl with
          | [] => .ok (st3, ev3)
          | d :: wl1 => DeleteDeadInstructionLoopEvents fuel st3 d wl1 ev3
        | .stuck => .stuck
        | .timeout => .timeout

/-- The function `DeleteDeadInstruction(I, SE)` with the log of its operations. -/
def DeleteDeadInstructionEvents (st : State) (I : InstId) :
    Result (State × List CascadeEvent) :=
  DeleteDeadInstructionLoopEvents st.insts.length st I [] []

/-- Forget the log of operations of a run. -/
def dropEvents : Result (State × List CascadeEvent) → Result State
  | .ok (st, _) => .ok st
  | .stuck => .stuck
  | .timeout => .timeout

/-- The instructions erased according to a log of operations, in order. -/
def erasedOf : List CascadeEvent → List InstId
  | [] => []
  | .eraseFromParent d :: es => d :: erasedOf es
  | _ :: es => erasedOf es

/-- Forget the logs of a logged run. -/
def dropLog : Result (State × List InstId × List InstId) → Result State
  | .ok (st, _, _) => .ok st
  | .stuck => .stuck
  | .timeout => .timeout

/-- The operand slot `o` is set and, when it holds an instruction, that
instruction is live. -/
def ProperOperand (st : State) (o : Option Value) : Prop :=
  ∃ V, o = some V ∧ ∀ j, V = Value.inst j → (st.getInst j).isSome

/-- Every operand slot of every live instruction is set and refers to a live
instruction or to a value that is not an instruction. -/
def OperandsLive (st : State) : Prop :=
  ∀ p ∈ st.insts, ∀ o ∈ p.2.operands, ProperOperand st o

/-- The opcode is that of a pure computation: no side effect, not a terminator. -/
def Opcode.isPure (oc : Opcode) : Prop :=
  oc.mayHaveSideEffects = false ∧ oc ≠ .terminator

/-- The invariant of the worklist loop at the head of an iteration: the operands
of all live instructions are proper, and the current instruction and the
instructions on the worklist are live, distinct, and without a use. -/
def CascadeInv (st : State) (d : InstId) (wl : List InstId) : Prop :=
  OperandsLive st ∧
  (∀ x ∈ d :: wl, (st.getInst x).isSome ∧ st.use_empty (.inst x) = true) ∧
  (d :: wl).Nodup

/-- The invariant of the operand loop while it works on `d` with the slots `ops`
still to do: all other instructions have proper operands, the slots still to do
are proper, and the current instruction and the worklist are as in `CascadeInv`. -/
def ZapInv (st : State) (d : InstId) (ops : List Nat) (wl : List InstId) : Prop :=
  (∀ p ∈ st.insts, p.1 ≠ d → ∀ o ∈ p.2.operands, ProperOperand st o) ∧
  (∃ I, st.getInst d = some I ∧
    ∀ i ∈ ops, ∃ o, I.operands.get? i = some o ∧ ProperOperand st o) ∧
  (∀ x ∈ d :: wl, (st.getInst x).isSome ∧ st.use_empty (.inst x) = true) ∧
  (d :: wl).Nodup ∧ ops.Nodup

/-- A decision procedure for `ProperOperand`. -/
def properOperandB (st : State) : Option Value → Bool
  | some (.inst j) => (st.getInst j).isSome
  | some _ => true
  | none => false

/-- A decision procedure for `OperandsLive`. -/
def operandsLiveB (st : State) : Bool :=
  st.insts.all (fun p => p.2.operands.all (properOperandB st))

/-- A program whose dead computation shares operands: `%1 = f(%a)`,
`%5 = g(%1)`, `%2 = add %1, %1`, `%3 = store %5, %2`; `%1` is used by `%5` and
twice by `%2`. -/
def exStateShared : State :=
  { insts :=
      [(0, { opcode := .terminator, operands := [], alignment := 0, addrSpace := 0 }),
       (1, { opcode := .other false, operands := [some (.other 0)],
             alignment := 0, addrSpace := 0 }),
       (2, { opcode := .other false, operands := [some (.inst 1), some (.inst 1)],
             alignment := 0, addrSpace := 0 }),
       (3, { opcode := .store false, operands := [some (.inst 5), some (.inst 2)],
             alignment := 1, addrSpace := 0 }),
       (5, { opcode := .other false, operands := [some (.inst 1)],
             alignment := 0, addrSpace := 0 }),
       (6, { opcode := .terminator, operands := [], alignment := 0, addrSpace := 0 })]
    blocks := [(0, [0]), (1, [1, 5, 2, 3, 6])]
    nextId := 7
    Scalars := [.inst 2, .inst 1, .inst 3] }

/-- The program with shared operands after the store `%3` and all that fed it
have been deleted. -/
def exStateSharedDeleted : State :=
  { insts :=
      [(0, { opcode := .terminator, operands := [], alignment := 0, addrSpace := 0 }),
       (6, { opcode := .terminator, operands := [], alignment := 0, addrSpace := 0 })]
    blocks := [(0, [0]), (1, [6])]
    nextId := 7
    Scalars := [] }

/-- A program that stores a byte computed in the loop, `%7 = trunc %1`, with the
fill for the store `%3` already inserted in the preheader: the fill `%10` uses
`%7` as its byte. -/
def exStateVarFilled : State :=
  { insts :=
      [(0, { opcode := .terminator, operands := [], alignment := 0, addrSpace := 0 }),
       (1, { opcode := .other false, operands := [some (.constInt 64 0), some (.inst 4)],
             alignment := 0, addrSpace := 0 }),
       (2, { opcode := .other false, operands := [some (.other 0), some (.inst 1)],
             alignment := 0, addrSpace := 0 }),
       (3, { opcode := .store false, operands := [some (.inst 7), some (.inst 2)],
             alignment := 1, addrSpace := 0 }),
       (4, { opcode := .other false, operands := [some (.inst 1), some (.constInt 64 1)],
             alignment := 0, addrSpace := 0 }),
       (5, { opcode := .other false, operands := [some (.inst 4), some (.other 1)],
             alignment := 0, addrSpace := 0 }),
       (6, { opcode := .terminator, operands := [some (.inst 5)],
             alignment := 0, addrSpace := 0 }),
       (7, { opcode := .other false, operands := [some (.inst 1)],
             alignment := 0, addrSpace := 0 }),
       (8, { opcode := .expanded (.unknown 64 (.other 0)), operands := [],
             alignment := 0, addrSpace := 0 }),
       (9, { opcode := .expanded (NumBytesS (exTD 64) exBECount 1), operands := [],
             alignment := 0, addrSpace := 0 }),
       (10, { opcode := .memset,
              operands := [some (.inst 8), some (.inst 7), some (.inst 9),
                           some (.constInt 32 1), some (.constInt 1 0)],
              alignment := 1, addrSpace := 0 })]
    blocks := [(0, [8, 9, 10, 0]), (1, [1, 2, 7, 3, 4, 5, 6])]
    nextId := 11
    Scalars := [.inst 2, .inst 1] }

/-- The program that stores a loop-computed byte after the deletion of the store:
the store `%3` and its address `%2` are gone, the byte `%7` is kept for the fill. -/
def exStateVarRewritten : State :=
  { insts :=
      [(0, { opcode := .terminator, operands := [], alignment := 0, addrSpace := 0 }),
       (1, { opcode := .other false, operands := [some (.constInt 64 0), some (.inst 4)],
             alignment := 0, addrSpace := 0 }),
       (4, { opcode := .other false, operands := [some (.inst 1), some (.constInt 64 1)],
             alignment := 0, addrSpace := 0 }),
       (5, { opcode := .other false, operands := [some (.inst 4), some (.other 1)],
             alignment := 0, addrSpace := 0 }),
       (6, { opcode := .terminator, operands := [some (.inst 5)],
             alignment := 0, addrSpace := 0 }),
       (7, { opcode := .other false, operands := [some (.inst 1)],
             alignment := 0, addrSpace := 0 }),
       (8, { opcode := .expanded (.unknown 64 (.other 0)), operands := [],
             alignment := 0, addrSpace := 0 }),
       (9, { opcode := .expanded (NumBytesS (exTD 64) exBECount 1), operands := [],
             alignment := 0, addrSpace := 0 }),
       (10, { opcode := .memset,
              operands := [some (.inst 8), some (.inst 7), some (.inst 9),
                           some (.constInt 32 1), some (.constInt 1 0)],
              alignment := 1, addrSpace := 0 })]
    blocks := [(0, [8, 9, 10, 0]), (1, [1, 7, 4, 5, 6])]
    nextId := 11
    Scalars := [.inst 1] }

/-! ## The classifier conditions and the scan -/

/-- The classifier conditions of the specification for the store `SI`: the
stored width is a multiple of 8 bits, does not exceed a 32-bit magnitude and
equals the in-memory store width; the address is an affine recurrence on the
current loop; its constant stride equals the store size in bytes; and the stored
value is a splat value. -/
def satisfiesClassifier (A : Analyses) (TD : TargetData) (CurLoop : Loop) (st : State)
    (SI : InstId) : Bool :=
  match st.getInst SI with
  | none => false
  | some I =>
    match I.operands with
    | [some StoredVal, some StorePtr] =>
      decide (TD.getTypeSizeInBits (A.getType StoredVal) % 8 = 0) &&
      decide (TD.getTypeSizeInBits (A.getType StoredVal) < 2 ^ 32) &&
      decide (TD.getTypeSizeInBits (A.getType StoredVal) =
        TD.getTypeStoreSizeInBits (A.getType StoredVal)) &&
      (match A.SE.getSCEV StorePtr with
        | .addRecExpr _ step extraOps L =>
          decide (L = CurLoop.id) && decide (extraOps = 0) &&
          (match step with
            | .constant _ Stride =>
              decide (TD.getTypeSizeInBits (A.getType StoredVal) / 8 = Stride)
            | _ => false)
        | _ => false) &&
      (A.isBytewiseValue StoredVal).isSome
    | _ => false

/-- The instruction `x` is a live non-volatile store. -/
def isSimpleStore (st : State) (x : InstId) : Bool :=
  match st.getInst x with
  | some J => decide (J.opcode = .store false)
  | none => false

/-- Fuel that suffices for the scan of a block of at most `L` instructions of
which at most `s` are non-volatile stores, on top of the fuel for the current
pass: each rewrite restarts the scan on a block that has grown by at most three
instructions and has lost a store. -/
def scanFuel : Nat → Nat → Nat
  | 0, _ => 0
  | s + 1, L => (L + 3) + scanFuel s (L + 3)

/-- ScalarEvolution for the program with two fillable stores: the addresses `%2`
and `%7` are the recurrences `{%p,+,1}` and `{%q,+,1}` on loop 0. -/
def exSETwo (BECount : SCEV) : ScalarEvolution :=
  { getSCEV := fun v =>
      if v = .inst 2 then
        .addRecExpr (.unknown 64 (.other 0)) (.constant 64 1) 0 0
      else if v = .inst 7 then
        .addRecExpr (.unknown 64 (.other 2)) (.constant 64 1) 0 0
      else .unknown 64 v
    hasLoopInvariantBackedgeTakenCount := fun _ => true
    getBackedgeTakenCount := fun _ => BECount }

/-- The analyses for the program with two fillable stores. -/
def exATwo (BECount : SCEV) : Analyses :=
  { SE := exSETwo BECount
    TD := some (exTD 64)
    getType := fun v =>
      match v with
      | .constInt bits _ => bits
      | _ => 64
    isBytewiseValue := isBytewiseValue
    getModRefInfo := fun _ _ => true }

/-- A program with two fillable stores in the loop: `%3 = store 0xAA, %2` and
`%8 = store 0x55, %7`, with `%2 = gep %p, %1` and `%7 = gep %q, %1`. -/
def exStateTwoFills : State :=
  { insts :=
      [(0, { opcode := .terminator, operands := [], alignment := 0, addrSpace := 0 }),
       (1, { opcode := .other false, operands := [some (.constInt 64 0), some (.inst 4)],
             alignment := 0, addrSpace := 0 }),
       (2, { opcode := .other false, operands := [some (.other 0), some (.inst 1)],
             alignment := 0, addrSpace := 0 }),
       (3, { opcode := .store false, operands := [some (.constInt 8 0xAA), some (.inst 2)],
             alignment := 1, addrSpace := 0 }),
       (4, { opcode := .other false, operands := [some (.inst 1), some (.constInt 64 1)],
             alignment := 0, addrSpace := 0 }),
       (5, { opcode := .other false, operands := [some (.inst 4), some (.other 1)],
             alignment := 0, addrSpace := 0 }),
       (6, { opcode := .terminator, operands := [some (.inst 5)],
             alignment := 0, addrSpace := 0 }),
       (7, { opcode := .other false, operands := [some (.other 2), some (.inst 1)],
             alignment := 0, addrSpace := 0 }),
       (8, { opcode := .store false, operands := [some (.constInt 8 0x55), some (.inst 7)],
             alignment := 1, addrSpace := 0 })]
    blocks := [(0, [0]), (1, [1, 2, 3, 7, 8, 4, 5, 6])]
    nextId := 9
    Scalars := [.inst 2, .inst 1] }

/-- The program with two fillable stores after `runOnLoop`: both stores have
become fills in the preheader, `%11` and `%14`, and both address computations
are gone. -/
def exStateTwoFillsRewritten : State :=
  { insts :=
      [(0, { opcode := .terminator, operands := [], alignment := 0, addrSpace := 0 }),
       (1, { opcode := .other false, operands := [some (.constInt 64 0), some (.inst 4)],
             alignment := 0, addrSpace := 0 }),
       (4, { opcode := .other false, operands := [some (.inst 1), some (.constInt 64 1)],
             alignment := 0, addrSpace := 0 }),
       (5, { opcode := .other false, operands := [some (.inst 4), some (.other 1)],
             alignment := 0, addrSpace := 0 }),
       (6, { opcode := .terminator, operands := [some (.inst 5)],
             alignment := 0, addrSpace := 0 }),
       (9, { opcode := .expanded (.unknown 64 (.other 0)), operands := [],
             alignment := 0, addrSpace := 0 }),
       (10, { opcode := .expanded (NumBytesS (exTD 64) exBECount 1), operands := [],
              alignment := 0, addrSpace := 0 }),
       (11, { opcode := .memset,
              operands := [some (.inst 9), some (.constInt 8 0xAA), some (.inst 10),
                           some (.constInt 32 1), some (.constInt 1 0)],
              alignment := 1, addrSpace := 0 }),
       (12, { opcode := .expanded (.unknown 64 (.other 2)), operands := [],
              alignment := 0, addrSpace := 0 }),
       (13, { opcode := .expanded (NumBytesS (exTD 64) exBECount 1), operands := [],
              alignment := 0, addrSpace := 0 }),
       (14, { opcode := .memset,
              operands := [some (.inst 12), some (.constInt 8 0x55), some (.inst 13),
                           some (.constInt 32 1), some (.constInt 1 0)],
              alignment := 1, addrSpace := 0 })]
    blocks := [(0, [9, 10, 11, 12, 13, 14, 0]), (1, [1, 4, 5, 6])]
    nextId := 15
    Scalars := [.inst 1] }

/-- The operand list has the shape of a store's: the value stored and the pointer. -/
def isStoreShape : List (Option Value) → Bool
  | [some _, some _] => true
  | _ => false

/-- Well-formedness of the graph for the scan of block `BB`, whose instructions
are `l`: identifiers are fresh, operands are proper, the block is without
duplicates and its instructions are live, every non-volatile store has no use
and has a value and a pointer, the preheader of the loop has a terminator, and
the classifier answers the value itself or a value that is not an instruction. -/
def ScanWF (A : Analyses) (CurLoop : Loop) (st : State) (BB : BlockId) (l : List InstId) :
    Prop :=
  FreshIds st ∧ OperandsLive st ∧
  st.blocks.lookup BB = some l ∧ l.Nodup ∧ (∀ x ∈ l, (st.getInst x).isSome) ∧
  (∀ p ∈ st.insts, p.2.opcode = .store false →
    st.use_empty (.inst p.1) = true ∧ isStoreShape p.2.operands = true) ∧
  (∃ Preheader T, CurLoop.preheader = some Preheader ∧ st.getTerminator Preheader = some T) ∧
  (∀ V S, A.isBytewiseValue V = some S → S = V ∨ ∀ j, S ≠ Value.inst j)

/-! ## The checks of processLoopStore -/

theorem and_seven_ne_zero_iff (n : Nat) : (n &&& 7) ≠ 0 ↔ n % 8 ≠ 0 := by
  have h : n &&& 7 = n % 8 := by
    have := Nat.and_pow_two_sub_one_eq_mod n 3
    simpa using this
  rw [h]

theorem shiftRight_32_ne_zero_iff (n : Nat) : (n >>> 32) ≠ 0 ↔ 2 ^ 32 ≤ n := by
  rw [Nat.shiftRight_eq_div_pow]
  constructor
  · intro h
    by_contra hlt
    exact h (Nat.div_eq_of_lt (by omega))
  · intro h h0
    have := Nat.div_pos h (by norm_num : 0 < 2 ^ 32)
    omega

/-- The size check of `processLoopStore` (source lines 171-172) in arithmetic terms. -/
theorem sizeCheck_iff (n m : Nat) :
    ((n &&& 7) ≠ 0 ∨ (n >>> 32) ≠ 0 ∨ n ≠ m) ↔ (n % 8 ≠ 0 ∨ 2 ^ 32 ≤ n ∨ n ≠ m) := by
  rw [and_seven_ne_zero_iff, shiftRight_32_ne_zero_iff]

/-- Past the size check, `StoreSize` is the size in bytes. -/
theorem storeSize_eq (n : Nat) (h : n < 2 ^ 32) : (n % 2 ^ 32) >>> 3 = n / 8 := by
  rw [Nat.mod_eq_of_lt h, Nat.shiftRight_eq_div_pow]

/-- C4: a store whose stored-value width is not a multiple of 8, or is at least
2^32, or differs from the in-memory store width, makes `processLoopStore` return
false with the state unchanged, whatever the address and the stored value. -/
theorem C4_bad_width_rejected (A : Analyses) (TD : TargetData) (CurLoop : Loop) (st : State)
    (SI : InstId) (BECount : SCEV) (I : Instruction) (StoredVal StorePtr : Value)
    (hSI : st.getInst SI = some I)
    (hops : I.operands = [some StoredVal, some StorePtr])
    (hbad : TD.getTypeSizeInBits (A.getType StoredVal) % 8 ≠ 0 ∨
      2 ^ 32 ≤ TD.getTypeSizeInBits (A.getType StoredVal) ∨
      TD.getTypeSizeInBits (A.getType StoredVal) ≠
        TD.getTypeStoreSizeInBits (A.getType StoredVal)) :
    processLoopStore A TD CurLoop st SI BECount = .ok (false, st) := by
  have hchk := (sizeCheck_iff _ _).mpr hbad
  unfold processLoopStore
  simp only [hSI, hops]
  rw [if_pos hchk]

theorem C4_bad_width_rejected_witness :
    processLoopStore (exA 64 1 exBECount) (exTD 64) exLoop (exState false (.constInt 3 5)) 3
      exBECount = .ok (false, exState false (.constInt 3 5)) :=
  C4_bad_width_rejected (exA 64 1 exBECount) (exTD 64) exLoop (exState false (.constInt 3 5)) 3
    exBECount _ (.constInt 3 5) (.inst 2) rfl rfl (by decide)

/-- C5: a store whose address expression is not a recurrence, or is a recurrence
on another loop, or is not affine, or has a non-constant stride, makes
`processLoopStore` return false with the state unchanged. -/
theorem C5_non_affine_address_rejected (A : Analyses) (TD : TargetData) (CurLoop : Loop)
    (st : State) (SI : InstId) (BECount : SCEV) (I : Instruction) (StoredVal StorePtr : Value)
    (hSI : st.getInst SI = some I)
    (hops : I.operands = [some StoredVal, some StorePtr])
    (hbad : (∀ start step extraOps L,
          A.SE.getSCEV StorePtr ≠ .addRecExpr start step extraOps L) ∨
      (∃ start step extraOps L, A.SE.getSCEV StorePtr = .addRecExpr start step extraOps L ∧
          (L ≠ CurLoop.id ∨ extraOps ≠ 0 ∨ ∀ bits val, step ≠ .constant bits val))) :
    processLoopStore A TD CurLoop st SI BECount = .ok (false, st) := by
  unfold processLoopStore
  simp only [hSI, hops]
  split
  · rfl
  · rcases hbad with hno | ⟨start, step, extraOps, L, hev, hcase⟩
    · split
      · next s1 s2 e1 L1 heq => exact absurd heq (hno s1 s2 e1 L1)
      · rfl
    · rw [hev]
      simp only
      split
      · rfl
      · next hok =>
        rcases hcase with hL | hx | hstep
        · exact absurd (Or.inl hL) hok
        · exact absurd (Or.inr hx) hok
        · split
          · next bits val => exact absurd rfl (hstep bits val)
          · rfl

theorem C5_non_affine_address_rejected_witness :
    processLoopStore (exA 64 1 exBECount) (exTD 64) { exLoop with id := 5 }
      (exState false (.constInt 8 0xAA)) 3 exBECount
      = .ok (false, exState false (.constInt 8 0xAA)) :=
  C5_non_affine_address_rejected (exA 64 1 exBECount) (exTD 64) { exLoop with id := 5 }
    (exState false (.constInt 8 0xAA)) 3 exBECount _ (.constInt 8 0xAA) (.inst 2) rfl rfl
    (Or.inr ⟨.unknown 64 (.other 0), .constant 64 1, 0, 0, rfl, Or.inl (by decide)⟩)

/-- A store that passes every check of `processLoopStore` is handed to the
transform. -/
theorem processLoopStore_accept (A : Analyses) (TD : TargetData) (CurLoop : Loop)
    (st : State) (SI : InstId) (BECount : SCEV) (I : Instruction)
    (StoredVal StorePtr SplatValue : Value) (start : SCEV) (bits : Nat)
    (hSI : st.getInst SI = some I)
    (hops : I.operands = [some StoredVal, some StorePtr])
    (h8 : TD.getTypeSizeInBits (A.getType StoredVal) % 8 = 0)
    (hlt : TD.getTypeSizeInBits (A.getType StoredVal) < 2 ^ 32)
    (heq : TD.getTypeSizeInBits (A.getType StoredVal) =
      TD.getTypeStoreSizeInBits (A.getType StoredVal))
    (hev : A.SE.getSCEV StorePtr =
      .addRecExpr start (.constant bits (TD.getTypeSizeInBits (A.getType StoredVal) / 8)) 0
        CurLoop.id)
    (hsplat : A.isBytewiseValue StoredVal = some SplatValue) :
    processLoopStore A TD CurLoop st SI BECount =
      processLoopStoreOfSplatValue TD CurLoop st SI
        (TD.getTypeSizeInBits (A.getType StoredVal) / 8) SplatValue start BECount := by
  have hok : ¬((TD.getTypeSizeInBits (A.getType StoredVal) &&& 7) ≠ 0 ∨
      (TD.getTypeSizeInBits (A.getType StoredVal) >>> 32) ≠ 0 ∨
      TD.getTypeSizeInBits (A.getType StoredVal) ≠
        TD.getTypeStoreSizeInBits (A.getType StoredVal)) := by
    rw [sizeCheck_iff]
    rintro (hc | hc | hc)
    · exact hc h8
    · exact absurd hlt (Nat.not_lt.mpr hc)
    · exact hc heq
  unfold processLoopStore
  simp only [hSI, hops, hev, hsplat]
  rw [if_neg hok, if_neg (by simp), storeSize_eq _ hlt, if_neg (by simp)]

/-- The classifier of the examples answers the byte 0 for a zero constant of a
whole number of bytes. -/
theorem isBytewiseValue_zero (bits : Nat) (h8 : bits % 8 = 0) (hpos : 0 < bits) :
    isBytewiseValue (.constInt bits 0) = some (.constInt 8 0) := by
  have hall : ((List.range (bits / 8)).all
      (fun k => decide ((0 : Nat) / 256 ^ k % 256 = 0 % 256))) = true := by simp
  show (if bits % 8 = 0 ∧ 0 < bits ∧ ((List.range (bits / 8)).all
      (fun k => decide ((0 : Nat) / 256 ^ k % 256 = 0 % 256))) = true then
        some (Value.constInt 8 (0 % 256)) else none) = some (Value.constInt 8 0)
  rw [if_pos ⟨h8, hpos, hall⟩]

/-- C3, counterexample: on a target with 16-bit pointers the store of a zero
value of 65535 bytes whose address recurrence has the 16-bit stride `0xFFFF`,
that is -1, is rewritten: the code compares the size with the unsigned value of
the stride constant, 65535. -/
theorem C3_counterexample :
    processLoopStore (exA 16 65535 (.constant 16 1)) (exTD 16) exLoop
        (exState false (.constInt 524280 0)) 3 (.constant 16 1)
      = .ok (true, exRewritten 16 (.constInt 8 0)
          (NumBytesS (exTD 16) (.constant 16 1) 65535)) ∧
    (exA 16 65535 (.constant 16 1)).SE.getSCEV (.inst 2)
      = .addRecExpr (.unknown 16 (.other 0)) (.constant 16 65535) 0 exLoop.id ∧
    toSigned 16 65535 = -1 ∧
    (exTD 16).getTypeSizeInBits ((exA 16 65535 (.constant 16 1)).getType (.constInt 524280 0))
      / 8 = 65535 := by
  refine ⟨?_, rfl, by decide, by decide⟩
  have h8 : (524280 : Nat) % 8 = 0 := by decide
  have hpos : 0 < (524280 : Nat) := by decide
  have hcl : (exA 16 65535 (.constant 16 1)).isBytewiseValue = isBytewiseValue := rfl
  have hsplat : (exA 16 65535 (.constant 16 1)).isBytewiseValue (.constInt 524280 0)
      = some (.constInt 8 0) := by
    rw [hcl]
    exact isBytewiseValue_zero 524280 h8 hpos
  have hI : (exState false (.constInt 524280 0)).getInst 3 =
      some { opcode := .store false, operands := [some (.constInt 524280 0), some (.inst 2)],
             alignment := 1, addrSpace := 0 } := rfl
  have hacc := processLoopStore_accept (exA 16 65535 (.constant 16 1)) (exTD 16) exLoop
    (exState false (.constInt 524280 0)) 3 (.constant 16 1) _ (.constInt 524280 0) (.inst 2)
    (.constInt 8 0) (.unknown 16 (.other 0)) 16 hI rfl (by decide) (by decide) (by decide) rfl
    hsplat
  have hrun : processLoopStoreOfSplatValue (exTD 16) exLoop (exState false (.constInt 524280 0))
      3 65535 (.constInt 8 0) (.unknown 16 (.other 0)) (.constant 16 1)
      = .ok (true, exRewritten 16 (.constInt 8 0)
          (NumBytesS (exTD 16) (.constant 16 1) 65535)) := by decide
  exact hacc.trans hrun

/-- C3, amended: a store whose address recurrence has a constant stride that
differs, as the unsigned value of its constant, from the size of the store in
bytes makes `processLoopStore` return false with the state unchanged.  This
covers a 4-byte store at stride 8 and, for a constant of at least 30 bits, every
stride whose signed reading is negative. -/
theorem C3_stride_mismatch_rejected (A : Analyses) (TD : TargetData) (CurLoop : Loop)
    (st : State) (SI : InstId) (BECount : SCEV) (I : Instruction) (StoredVal StorePtr : Value)
    (start : SCEV) (bits Stride extraOps : Nat) (L : LoopId)
    (hSI : st.getInst SI = some I)
    (hops : I.operands = [some StoredVal, some StorePtr])
    (hev : A.SE.getSCEV StorePtr = .addRecExpr start (.constant bits Stride) extraOps L)
    (hne : Stride ≠ TD.getTypeSizeInBits (A.getType StoredVal) / 8 ∨
      (30 ≤ bits ∧ Stride < 2 ^ bits ∧ toSigned bits Stride < 0)) :
    processLoopStore A TD CurLoop st SI BECount = .ok (false, st) := by
  unfold processLoopStore
  simp only [hSI, hops, hev]
  split
  · rfl
  · next hok =>
    have hok' := (not_congr (sizeCheck_iff _ _)).mp hok
    have hlt : TD.getTypeSizeInBits (A.getType StoredVal) < 2 ^ 32 := by
      by_contra h
      exact hok' (Or.inr (Or.inl (by omega)))
    split
    · rfl
    · have hne' : Stride ≠ TD.getTypeSizeInBits (A.getType StoredVal) / 8 := by
        rcases hne with h | ⟨hb, hlt2, hneg⟩
        · exact h
        · unfold toSigned at hneg
          have h29 : (2 : Nat) ^ 30 ≤ 2 ^ bits := Nat.pow_le_pow_right (by norm_num) hb
          split at hneg
          · omega
          · next hge =>
            have : 2 ^ 30 ≤ 2 * Stride := by omega
            have h32 : (2 : Nat) ^ 32 = 4294967296 := by norm_num
            have h30 : (2 : Nat) ^ 30 = 1073741824 := by norm_num
            omega
      rw [storeSize_eq _ hlt, if_pos (Ne.symm hne')]

theorem C3_stride_mismatch_rejected_witness :
    processLoopStore (exA 64 8 exBECount) (exTD 64) exLoop (exState false (.constInt 32 0)) 3
      exBECount = .ok (false, exState false (.constInt 32 0)) :=
  C3_stride_mismatch_rejected (exA 64 8 exBECount) (exTD 64) exLoop
    (exState false (.constInt 32 0)) 3 exBECount _ (.constInt 32 0) (.inst 2)
    (.unknown 64 (.other 0)) 64 8 0 0 rfl rfl rfl (Or.inl (by decide))

/-- C6: a store whose stored value is not a bytewise splat (the classifier
yields none) makes `processLoopStore` return false with the state unchanged: no
fill is inserted and nothing is deleted, also when the width and stride checks
pass. -/
theorem C6_non_splat_value_rejected (A : Analyses) (TD : TargetData) (CurLoop : Loop)
    (st : State) (SI : InstId) (BECount : SCEV) (I : Instruction) (StoredVal StorePtr : Value)
    (hSI : st.getInst SI = some I)
    (hops : I.operands = [some StoredVal, some StorePtr])
    (hsplat : A.isBytewiseValue StoredVal = none) :
    processLoopStore A TD CurLoop st SI BECount = .ok (false, st) := by
  unfold processLoopStore
  simp only [hSI, hops, hsplat]
  repeat' split
  all_goals rfl

theorem C6_non_splat_value_rejected_witness :
    processLoopStore (exA 64 4 exBECount) (exTD 64) exLoop
      (exState false (.constInt 32 0x01020304)) 3 exBECount
      = .ok (false, exState false (.constInt 32 0x01020304)) :=
  C6_non_splat_value_rejected (exA 64 4 exBECount) (exTD 64) exLoop
    (exState false (.constInt 32 0x01020304)) 3 exBECount _ (.constInt 32 0x01020304) (.inst 2)
    rfl rfl (by decide)

/-- C8: a loop with more than one block (or none), or whose back-edge-taken
count is not loop-invariant or is the could-not-compute sentinel, or for which
target data is unavailable, makes `runOnLoop` return false with the state
unchanged and without a single call of `processLoopStore`. -/
theorem C8_unadmitted_loop_untouched (fuel : Nat) (A : Analyses) (L : Loop) (st : State)
    (h : L.blocks.length ≠ 1 ∨ A.SE.hasLoopInvariantBackedgeTakenCount L.id = false ∨
      A.SE.getBackedgeTakenCount L.id = .couldNotCompute ∨ A.TD = none) :
    runOnLoop fuel A L st = .ok (false, st, []) := by
  unfold runOnLoop
  split
  · rfl
  · next h1 =>
    split
    · rfl
    · next h2 =>
      simp only
      split
      · rfl
      · next h3 =>
        rcases h with h | h | h | h
        · exact absurd h h1
        · simp [h] at h2
        · exact absurd h h3
        · simp [h]

theorem C8_unadmitted_loop_untouched_witness :
    runOnLoop 100 (exA 64 1 .couldNotCompute) exLoop (exState false (.constInt 8 0xAA))
      = .ok (false, exState false (.constInt 8 0xAA), []) :=
  C8_unadmitted_loop_untouched 100 (exA 64 1 .couldNotCompute) exLoop
    (exState false (.constInt 8 0xAA)) (Or.inr (Or.inr (Or.inl rfl)))

/-! ## Frame lemmas for the graph operations -/

theorem lookup_map_ne (l : List (InstId × Instruction)) (f : Instruction → Instruction)
    (i k : InstId) (h : i ≠ k) :
    (l.map (fun p => if p.1 = i then (p.1, f p.2) else p)).lookup k = l.lookup k := by
  induction l with
  | nil => rfl
  | cons x xs ih =>
    obtain ⟨a, b⟩ := x
    simp only [List.map_cons]
    by_cases ha : a = i
    · have hk : (k == a) = false := by rw [ha]; exact beq_false_of_ne (Ne.symm h)
      rw [if_pos ha]
      simp only [List.lookup_cons, hk, ih]
    · rw [if_neg ha]
      simp only [List.lookup_cons, ih]

theorem lookup_filter_ne (l : List (InstId × Instruction)) (i k : InstId) (h : i ≠ k) :
    (l.filter (fun p => decide (p.1 ≠ i))).lookup k = l.lookup k := by
  induction l with
  | nil => rfl
  | cons x xs ih =>
    obtain ⟨a, b⟩ := x
    by_cases ha : a = i
    · have hk : (k == a) = false := by rw [ha]; exact beq_false_of_ne (Ne.symm h)
      rw [List.filter_cons_of_neg (by simpa using ha)]
      simp only [List.lookup_cons, hk, ih]
    · rw [List.filter_cons_of_pos (by simpa using ha)]
      simp only [List.lookup_cons, ih]

theorem lookup_filter_self (l : List (InstId × Instruction)) (i : InstId) :
    (l.filter (fun p => decide (p.1 ≠ i))).lookup i = none := by
  induction l with
  | nil => rfl
  | cons x xs ih =>
    obtain ⟨a, b⟩ := x
    by_cases ha : a = i
    · rw [List.filter_cons_of_neg (by simpa using ha)]
      exact ih
    · rw [List.filter_cons_of_pos (by simpa using ha)]
      have hk : (i == a) = false := beq_false_of_ne (Ne.symm ha)
      simp only [List.lookup_cons, hk, ih]

theorem lookup_eq_none_of_fresh (l : List (InstId × Instruction)) (n k : Nat)
    (hfresh : ∀ p ∈ l, p.1 < n) (hk : n ≤ k) : l.lookup k = none := by
  induction l with
  | nil => rfl
  | cons x xs ih =>
    obtain ⟨a, b⟩ := x
    have h1 : a < n := hfresh (a, b) (List.mem_cons_self _ _)
    have hne : k ≠ a := fun h => absurd (h ▸ h1) (Nat.not_lt.mpr hk)
    have hk' : (k == a) = false := beq_false_of_ne hne
    simp only [List.lookup_cons, hk']
    exact ih (fun p hp => hfresh p (List.mem_cons_of_mem _ hp))

theorem getInst_zeroOperand_ne (st : State) (i op k : Nat) (h : i ≠ k) :
    (st.zeroOperand i op).getInst k = st.getInst k :=
  lookup_map_ne st.insts (fun I => { I with operands := I.operands.set op none }) i k h

theorem getInst_eraseFromParent_ne (st : State) (i k : Nat) (h : i ≠ k) :
    (st.eraseFromParent i).getInst k = st.getInst k :=
  lookup_filter_ne st.insts i k h

theorem getInst_eraseFromParent_self (st : State) (i : Nat) :
    (st.eraseFromParent i).getInst i = none :=
  lookup_filter_self st.insts i

theorem getInst_forgetValue (st : State) (V : Value) (k : Nat) :
    (st.forgetValue V).getInst k = st.getInst k := rfl

theorem getInst_insertBefore_of_some (st : State) (pos : InstId) (I J : Instruction)
    (k : InstId) (h : st.getInst k = some J) :
    (st.insertBefore pos I).1.getInst k = some J := by
  unfold State.getInst at h
  simp [State.insertBefore, State.getInst, List.lookup_append, h]

theorem getInst_insertBefore_new (st : State) (pos : InstId) (I : Instruction)
    (hfresh : FreshIds st) :
    (st.insertBefore pos I).1.getInst st.nextId = some I := by
  have hnone := lookup_eq_none_of_fresh st.insts st.nextId st.nextId hfresh (le_refl _)
  simp [State.insertBefore, State.getInst, List.lookup_append, hnone, List.lookup]

theorem nextId_insertBefore (st : State) (pos : InstId) (I : Instruction) :
    (st.insertBefore pos I).1.nextId = st.nextId + 1 := rfl

theorem freshIds_insertBefore (st : State) (pos : InstId) (I : Instruction)
    (hfresh : FreshIds st) : FreshIds (st.insertBefore pos I).1 := by
  intro p hp
  rw [nextId_insertBefore]
  simp only [State.insertBefore, List.mem_append, List.mem_singleton] at hp
  rcases hp with hp | hp
  · exact Nat.lt_succ_of_lt (hfresh p hp)
  · subst hp
    exact Nat.lt_succ_self _

theorem lt_nextId_of_getInst (st : State) (hfresh : FreshIds st) (k : InstId) (J : Instruction)
    (h : st.getInst k = some J) : k < st.nextId := by
  by_contra hge
  have := lookup_eq_none_of_fresh st.insts st.nextId k hfresh (Nat.le_of_not_lt hge)
  unfold State.getInst at h
  rw [this] at h
  cases h

theorem lookup_map_snd (l : List (BlockId × List InstId)) (g : List InstId → List InstId)
    (k : BlockId) :
    (l.map (fun b => (b.1, g b.2))).lookup k = (l.lookup k).map g := by
  induction l with
  | nil => rfl
  | cons x xs ih =>
    obtain ⟨a, b⟩ := x
    simp only [List.map_cons, List.lookup_cons]
    cases (k == a)
    · exact ih
    · rfl

theorem blocksKeep_refl (keep : List (InstId × Instruction)) (st : State) :
    BlocksKeep keep st st :=
  fun _ l h => ⟨l, h, fun _ _ hp => hp⟩

theorem blocksKeep_trans {keep : List (InstId × Instruction)} {st1 st2 st3 : State}
    (h12 : BlocksKeep keep st1 st2) (h23 : BlocksKeep keep st2 st3) :
    BlocksKeep keep st1 st3 := by
  intro bb l hl
  obtain ⟨l2, hl2, hk2⟩ := h12 bb l hl
  obtain ⟨l3, hl3, hk3⟩ := h23 bb l2 hl2
  exact ⟨l3, hl3, fun p hp hmem => hk3 p hp (hk2 p hp hmem)⟩

theorem blocksKeep_of_blocks_eq {keep : List (InstId × Instruction)} {st st1 : State}
    (h : st1.blocks = st.blocks) : BlocksKeep keep st st1 :=
  fun _ l hl => ⟨l, by rw [h]; exact hl, fun _ _ hp => hp⟩

theorem blocksKeep_eraseFromParent (keep : List (InstId × Instruction)) (st : State)
    (d : InstId) (hd : ∀ p ∈ keep, p.1 ≠ d) : BlocksKeep keep st (st.eraseFromParent d) := by
  intro bb l hl
  refine ⟨l.filter (fun j => decide (j ≠ d)), ?_, ?_⟩
  · show (st.blocks.map (fun b => (b.1, b.2.filter (fun j => decide (j ≠ d))))).lookup bb = _
    rw [lookup_map_snd, hl]
    rfl
  · intro p hp hmem
    exact List.mem_filter.mpr ⟨hmem, by simpa using hd p hp⟩

theorem mem_insertBeforeInList (x pos y : InstId) (l : List InstId) (h : y ∈ l) :
    y ∈ insertBeforeInList x pos l := by
  induction l with
  | nil => cases h
  | cons z zs ih =>
    unfold insertBeforeInList
    split
    · exact List.mem_cons_of_mem _ h
    · rcases List.mem_cons.mp h with h | h
      · subst h
        exact List.mem_cons_self _ _
      · exact List.mem_cons_of_mem _ (ih h)

theorem blocksKeep_insertBefore (keep : List (InstId × Instruction)) (st : State)
    (pos : InstId) (I : Instruction) : BlocksKeep keep st (st.insertBefore pos I).1 := by
  intro bb l hl
  refine ⟨insertBeforeInList st.nextId pos l, ?_, ?_⟩
  · show (st.blocks.map (fun b => (b.1, insertBeforeInList st.nextId pos b.2))).lookup bb = _
    rw [lookup_map_snd, hl]
    rfl
  · intro p _ hmem
    exact mem_insertBeforeInList _ _ _ _ hmem

theorem intact_insertBefore {keep : List (InstId × Instruction)} {st : State}
    (h : Intact keep st) (pos : InstId) (I : Instruction) :
    Intact keep (st.insertBefore pos I).1 :=
  fun p hp => getInst_insertBefore_of_some st pos I p.2 p.1 (h p hp)

/-- What a successful iteration of the operand loop does: it zeroes the slot, and
it pushes at most one instruction, which is then live and trivially dead. -/
theorem zapOperand_ok (st : State) (d : InstId) (op : Nat) (wl : List InstId)
    (st1 : State) (wl1 : List InstId) (h : zapOperand st d op wl = .ok (st1, wl1)) :
    st1 = st.zeroOperand d op ∧
    (wl1 = wl ∨ ∃ j OpI, wl1 = j :: wl ∧ st1.getInst j = some OpI ∧
      isInstructionTriviallyDead st1 j OpI = true) := by
  unfold zapOperand at h
  split at h
  · cases h
  · split at h
    · cases h
    · cases h
    · simp only at h
      split at h
      · split at h
        · cases h
        · next j _ _ OpI hj =>
          split at h
          · simp only [Result.ok.injEq, Prod.mk.injEq] at h
            exact ⟨h.1.symm, Or.inl h.2.symm⟩
          · split at h
            · next hdead =>
              simp only [Result.ok.injEq, Prod.mk.injEq] at h
              obtain ⟨h1, h2⟩ := h
              subst h1
              exact ⟨rfl, Or.inr ⟨j, OpI, h2.symm, hj, hdead⟩⟩
            · simp only [Result.ok.injEq, Prod.mk.injEq] at h
              exact ⟨h.1.symm, Or.inl h.2.symm⟩
      · simp only [Result.ok.injEq, Prod.mk.injEq] at h
        exact ⟨h.1.symm, Or.inl h.2.symm⟩

theorem zapOperand_frame (keep : List (InstId × Instruction)) (hnd : NeverDead keep)
    (st : State) (d : InstId) (op : Nat) (wl : List InstId) (st1 : State) (wl1 : List InstId)
    (h : zapOperand st d op wl = .ok (st1, wl1))
    (hint : Intact keep st) (hd : ∀ p ∈ keep, p.1 ≠ d)
    (hwl : ∀ x ∈ wl, ∀ p ∈ keep, p.1 ≠ x) :
    Intact keep st1 ∧ (∀ x ∈ wl1, ∀ p ∈ keep, p.1 ≠ x) ∧ st1.blocks = st.blocks := by
  obtain ⟨hst, hpush⟩ := zapOperand_ok st d op wl st1 wl1 h
  have hint1 : Intact keep st1 := by
    intro p hp
    rw [hst, getInst_zeroOperand_ne st d op p.1 (Ne.symm (hd p hp))]
    exact hint p hp
  refine ⟨hint1, ?_, by rw [hst]; rfl⟩
  rcases hpush with hwl1 | ⟨j, OpI, hwl1, hj, hdead⟩
  · rw [hwl1]
    exact hwl
  · rw [hwl1]
    intro x hx p hp hpx
    rcases List.mem_cons.mp hx with hx | hx
    · subst hx
      have h1 := hint1 p hp
      rw [hpx, hj] at h1
      have h2 := hnd st1 hint1 p hp
      rw [hpx, ← Option.some.inj h1, hdead] at h2
      cases h2
    · exact hwl x hx p hp hpx

theorem zapOperands_frame (keep : List (InstId × Instruction)) (hnd : NeverDead keep)
    (d : InstId) (ops : List Nat) :
    ∀ (st : State) (wl : List InstId) (st1 : State) (wl1 : List InstId),
      zapOperands d ops st wl = .ok (st1, wl1) →
      Intact keep st → (∀ p ∈ keep, p.1 ≠ d) → (∀ x ∈ wl, ∀ p ∈ keep, p.1 ≠ x) →
      Intact keep st1 ∧ (∀ x ∈ wl1, ∀ p ∈ keep, p.1 ≠ x) ∧ st1.blocks = st.blocks := by
  induction ops with
  | nil =>
    intro st wl st1 wl1 h hint _ hwl
    simp only [zapOperands, Result.ok.injEq, Prod.mk.injEq] at h
    obtain ⟨h1, h2⟩ := h
    subst h1
    subst h2
    exact ⟨hint, hwl, rfl⟩
  | cons op ops ih =>
    intro st wl st1 wl1 h hint hd hwl
    simp only [zapOperands] at h
    split at h
    · next st2 wl2 hz =>
      obtain ⟨hi2, hw2, hb2⟩ := zapOperand_frame keep hnd st d op wl st2 wl2 hz hint hd hwl
      obtain ⟨hi3, hw3, hb3⟩ := ih st2 wl2 st1 wl1 h hi2 hd hw2
      exact ⟨hi3, hw3, hb3.trans hb2⟩
    · cases h
    · cases h

/-- The frame property of the worklist loop: instructions that are never
trivially dead, and are neither the root nor on the worklist, are untouched and
stay in their blocks. -/
theorem DeleteDeadInstructionLoop_frame (keep : List (InstId × Instruction))
    (hnd : NeverDead keep) :
    ∀ (fuel : Nat) (st : State) (d : InstId) (wl : List InstId) (st1 : State),
      DeleteDeadInstructionLoop fuel st d wl = .ok st1 →
      Intact keep st → (∀ p ∈ keep, p.1 ≠ d) → (∀ x ∈ wl, ∀ p ∈ keep, p.1 ≠ x) →
      Intact keep st1 ∧ BlocksKeep keep st st1 := by
  intro fuel
  induction fuel with
  | zero =>
    intro st d wl st1 h
    unfold DeleteDeadInstructionLoop at h
    split at h <;> cases h
  | succ fuel ih =>
    intro st d wl st1 h hint hd hwl
    unfold DeleteDeadInstructionLoop at h
    split at h
    · cases h
    · next I hI =>
      simp only at h
      split at h
      · next st2 wl2 hz =>
        have hint0 : Intact keep (st.forgetValue (.inst d)) := hint
        obtain ⟨hi2, hw2, hb2⟩ :=
          zapOperands_frame keep hnd d _ _ _ st2 wl2 hz hint0 hd hwl
        have hi3 : Intact keep (st2.eraseFromParent d) := by
          intro p hp
          rw [getInst_eraseFromParent_ne st2 d p.1 (Ne.symm (hd p hp))]
          exact hi2 p hp
        have hb3 : BlocksKeep keep st (st2.eraseFromParent d) :=
          blocksKeep_trans (@blocksKeep_of_blocks_eq keep st st2 hb2)
            (blocksKeep_eraseFromParent keep st2 d hd)
        split at h
        · simp only [Result.ok.injEq] at h
          subst h
          exact ⟨hi3, hb3⟩
        · next d1 wl3 =>
          obtain ⟨hi4, hb4⟩ := ih _ d1 wl3 st1 h hi3
            (fun p hp => hw2 d1 (List.mem_cons_self _ _) p hp)
            (fun x hx => hw2 x (List.mem_cons_of_mem _ hx))
          exact ⟨hi4, blocksKeep_trans hb3 hb4⟩
      · cases h
      · cases h

/-! ## The shape of a rewrite -/

/-- When `processLoopStore` returns true, every check has passed and the final
state is the result of `DeleteDeadInstruction` on the state with the fill. -/
theorem processLoopStore_true (A : Analyses) (TD : TargetData) (CurLoop : Loop) (st : State)
    (SI : InstId) (BECount : SCEV) (st1 : State)
    (h : processLoopStore A TD CurLoop st SI BECount = .ok (true, st1)) :
    ∃ I StoredVal StorePtr start bits SplatValue Preheader T,
      st.getInst SI = some I ∧ I.operands = [some StoredVal, some StorePtr] ∧
      TD.getTypeSizeInBits (A.getType StoredVal) % 8 = 0 ∧
      TD.getTypeSizeInBits (A.getType StoredVal) < 2 ^ 32 ∧
      TD.getTypeSizeInBits (A.getType StoredVal) =
        TD.getTypeStoreSizeInBits (A.getType StoredVal) ∧
      A.SE.getSCEV StorePtr =
        .addRecExpr start (.constant bits (TD.getTypeSizeInBits (A.getType StoredVal) / 8)) 0
          CurLoop.id ∧
      A.isBytewiseValue StoredVal = some SplatValue ∧
      CurLoop.preheader = some Preheader ∧ st.getTerminator Preheader = some T ∧
      DeleteDeadInstruction
        (withFill TD st T I (TD.getTypeSizeInBits (A.getType StoredVal) / 8) SplatValue start
          BECount) SI = .ok st1 := by
  unfold processLoopStore at h
  split at h
  · cases h
  · next I hI =>
    split at h
    · next StoredVal StorePtr hops =>
      simp only at h
      split at h
      · cases h
      · next hok =>
        have hok' := (not_congr (sizeCheck_iff _ _)).mp hok
        have h8 : TD.getTypeSizeInBits (A.getType StoredVal) % 8 = 0 := by
          by_contra hc
          exact hok' (Or.inl hc)
        have hlt : TD.getTypeSizeInBits (A.getType StoredVal) < 2 ^ 32 := by
          by_contra hc
          exact hok' (Or.inr (Or.inl (Nat.le_of_not_lt hc)))
        have heq : TD.getTypeSizeInBits (A.getType StoredVal) =
            TD.getTypeStoreSizeInBits (A.getType StoredVal) := by
          by_contra hc
          exact hok' (Or.inr (Or.inr hc))
        rw [storeSize_eq _ hlt] at h
        split at h
        · next start step extraOps L hev =>
          split at h
          · cases h
          · next hL =>
            have hL1 : L = CurLoop.id := by
              by_contra hc
              exact hL (Or.inl hc)
            have hx : extraOps = 0 := by
              by_contra hc
              exact hL (Or.inr hc)
            split at h
            · next bits Stride =>
              split at h
              · cases h
              · next hs =>
                have hs' : TD.getTypeSizeInBits (A.getType StoredVal) / 8 = Stride := by
                  by_contra hc
                  exact hs hc
                split at h
                · next SplatValue hsplat =>
                  unfold processLoopStoreOfSplatValue at h
                  split at h
                  · cases h
                  · next Preheader hpre =>
                    split at h
                    · next T I2 hT hI2 =>
                      have hII : I2 = I := by
                        rw [hI] at hI2
                        exact (Option.some.inj hI2).symm
                      subst hII
                      simp only at h
                      split at h
                      · next st2 hdel =>
                        simp only [Result.ok.injEq, Prod.mk.injEq, true_and] at h
                        subst h
                        refine ⟨I2, StoredVal, StorePtr, start, bits, SplatValue, Preheader, T,
                          hI, hops, h8, hlt, heq, ?_, hsplat, hpre, hT, hdel⟩
                        rw [hev, hL1, hx, hs']
                      · cases h
                      · cases h
                    · cases h
                · cases h
            · cases h
        · cases h
    · cases h

theorem mem_of_lookup_eq_some (l : List (InstId × Instruction)) (k : InstId)
    (I : Instruction) (h : l.lookup k = some I) : (k, I) ∈ l := by
  induction l with
  | nil => cases h
  | cons x xs ih =>
    obtain ⟨a, b⟩ := x
    rw [List.lookup_cons] at h
    by_cases hk : k = a
    · subst hk
      simp only [beq_self_eq_true, Option.some.injEq] at h
      subst h
      exact List.mem_cons_self _ _
    · have hk' : (k == a) = false := beq_false_of_ne hk
      rw [hk'] at h
      exact List.mem_cons_of_mem _ (ih h)

theorem use_empty_eq_false (st : State) (k : InstId) (I : Instruction) (V : Value)
    (hk : st.getInst k = some I) (hV : some V ∈ I.operands) : st.use_empty V = false := by
  have hmem := mem_of_lookup_eq_some st.insts k I hk
  unfold State.use_empty
  rw [List.all_eq_false]
  refine ⟨(k, I), hmem, ?_⟩
  simp only [Bool.not_eq_true, List.all_eq_false]
  exact ⟨some V, hV, by simp⟩

theorem isInstructionTriviallyDead_of_use (st : State) (k j : InstId) (I J : Instruction)
    (hk : st.getInst k = some I) (hV : some (Value.inst j) ∈ I.operands) :
    isInstructionTriviallyDead st j J = false := by
  unfold isInstructionTriviallyDead
  rw [use_empty_eq_false st k I (.inst j) hk hV]
  rfl

theorem isInstructionTriviallyDead_of_sideEffects (st : State) (j : InstId) (J : Instruction)
    (h : J.opcode.mayHaveSideEffects = true) : isInstructionTriviallyDead st j J = false := by
  unfold isInstructionTriviallyDead
  rw [h]
  simp

theorem neverDead_fillInsts (TD : TargetData) (st : State) (I : Instruction) (StoreSize : Nat)
    (SplatValue : Value) (start BECount : SCEV) :
    NeverDead (fillInsts TD st I StoreSize SplatValue start BECount) := by
  intro st1 hint p hp
  have hms := hint _ (List.mem_cons_of_mem _ (List.mem_cons_of_mem _ (List.mem_cons_self _ _)))
  simp only [fillInsts, List.mem_cons, List.mem_singleton, List.not_mem_nil, or_false] at hp
  rcases hp with hp | hp | hp
  · subst hp
    exact isInstructionTriviallyDead_of_use st1 _ _ _ _ hms (by simp [fillInst])
  · subst hp
    exact isInstructionTriviallyDead_of_use st1 _ _ _ _ hms (by simp [fillInst])
  · subst hp
    exact isInstructionTriviallyDead_of_sideEffects st1 _ _ rfl

theorem intact_withFill (TD : TargetData) (st : State) (T : InstId) (I : Instruction)
    (StoreSize : Nat) (SplatValue : Value) (start BECount : SCEV) (hfresh : FreshIds st) :
    Intact (fillInsts TD st I StoreSize SplatValue start BECount)
      (withFill TD st T I StoreSize SplatValue start BECount) := by
  have f1 := freshIds_insertBefore st T (baseInst start I.addrSpace) hfresh
  have f2 := freshIds_insertBefore _ T (lengthInst (NumBytesS TD BECount StoreSize)) f1
  intro p hp
  simp only [fillInsts, List.mem_cons, List.mem_singleton, List.not_mem_nil, or_false] at hp
  rcases hp with hp | hp | hp
  · subst hp
    exact getInst_insertBefore_of_some _ _ _ _ _
      (getInst_insertBefore_of_some _ _ _ _ _ (getInst_insertBefore_new st T _ hfresh))
  · subst hp
    exact getInst_insertBefore_of_some _ _ _ _ _ (getInst_insertBefore_new _ T _ f1)
  · subst hp
    exact getInst_insertBefore_new _ T _ f2

/-- A rewrite leaves the three instructions it creates in place: the cascade
that deletes the store does not touch the fill or the code of its operands. -/
theorem processLoopStore_true_fill (A : Analyses) (TD : TargetData) (CurLoop : Loop)
    (st : State) (SI : InstId) (BECount : SCEV) (st1 : State) (hfresh : FreshIds st)
    (h : processLoopStore A TD CurLoop st SI BECount = .ok (true, st1)) :
    ∃ I StoredVal StorePtr start bits SplatValue,
      st.getInst SI = some I ∧ I.operands = [some StoredVal, some StorePtr] ∧
      A.SE.getSCEV StorePtr =
        .addRecExpr start (.constant bits (TD.getTypeSizeInBits (A.getType StoredVal) / 8)) 0
          CurLoop.id ∧
      A.isBytewiseValue StoredVal = some SplatValue ∧
      TD.getTypeSizeInBits (A.getType StoredVal) % 8 = 0 ∧
      Intact (fillInsts TD st I (TD.getTypeSizeInBits (A.getType StoredVal) / 8) SplatValue
        start BECount) st1 := by
  obtain ⟨I, StoredVal, StorePtr, start, bits, SplatValue, Preheader, T, hI, hops, h8, _, _,
    hev, hsplat, _, _, hdel⟩ := processLoopStore_true A TD CurLoop st SI BECount st1 h
  refine ⟨I, StoredVal, StorePtr, start, bits, SplatValue, hI, hops, hev, hsplat, h8, ?_⟩
  have hlt := lt_nextId_of_getInst st hfresh SI I hI
  refine (DeleteDeadInstructionLoop_frame _ (neverDead_fillInsts TD st I _ SplatValue start
    BECount) _ _ SI [] st1 hdel (intact_withFill TD st T I _ SplatValue start BECount hfresh)
    ?_ (fun x hx => by cases hx)).1
  intro p hp
  simp only [fillInsts, List.mem_cons, List.mem_singleton, List.not_mem_nil, or_false] at hp
  rcases hp with hp | hp | hp <;> subst hp <;> exact Nat.ne_of_gt (by
    first
    | exact hlt
    | exact Nat.lt_add_right _ hlt)

/-! ## The fill length -/

theorem eval_lt_two_pow (ρ : Value → Nat) (iter : LoopId → Nat) (s : SCEV) :
    s.eval ρ iter < 2 ^ s.getTypeSizeInBits := by
  cases s <;> simp only [SCEV.eval, SCEV.getTypeSizeInBits] <;>
    first
    | exact Nat.mod_lt _ (Nat.two_pow_pos _)
    | exact Nat.two_pow_pos _

theorem lengthArith (b S M : Nat) :
    ((b + 1 % M % M) % M * (S % M % M)) % M = ((b + 1) * S) % M := by
  have h1 : (b + 1 % M % M) % M ≡ b + 1 [MOD M] :=
    (Nat.mod_modEq _ _).trans
      (Nat.ModEq.add_left b ((Nat.mod_modEq _ _).trans (Nat.mod_modEq _ _)))
  have h2 : S % M % M ≡ S [MOD M] := (Nat.mod_modEq _ _).trans (Nat.mod_modEq _ _)
  exact h1.mul h2

theorem lengthArith_one (b M : Nat) : (b + 1 % M % M) % M = ((b + 1) * 1) % M := by
  have h1 : (b + 1 % M % M) % M ≡ b + 1 [MOD M] :=
    (Nat.mod_modEq _ _).trans
      (Nat.ModEq.add_left b ((Nat.mod_modEq _ _).trans (Nat.mod_modEq _ _)))
  rw [Nat.mul_one]
  unfold Nat.ModEq at h1
  rwa [Nat.mod_mod] at h1

/-- The expression built by the emitter evaluates to the fill length of the
specification. -/
theorem NumBytesS_eval (TD : TargetData) (BECount : SCEV) (StoreSize : Nat)
    (ρ : Value → Nat) (iter : LoopId → Nat) :
    (NumBytesS TD BECount StoreSize).eval ρ iter =
      specFillLength TD.PointerSizeInBits BECount.getTypeSizeInBits (BECount.eval ρ iter)
        StoreSize := by
  have hlt := eval_lt_two_pow ρ iter BECount
  unfold NumBytesS specFillLength
  by_cases hS : StoreSize = 1
  · subst hS
    by_cases h1 : BECount.getTypeSizeInBits < TD.PointerSizeInBits
    · have hle : 2 ^ BECount.getTypeSizeInBits ≤ 2 ^ TD.PointerSizeInBits :=
        Nat.pow_le_pow_right (by norm_num) (Nat.le_of_lt h1)
      simp only [h1, if_true, ne_eq, not_true_eq_false, if_false, SCEV.eval,
        SCEV.getTypeSizeInBits, getConstant]
      rw [Nat.mod_eq_of_lt (lt_of_lt_of_le hlt hle)]
      exact lengthArith_one _ _
    · by_cases h2 : BECount.getTypeSizeInBits > TD.PointerSizeInBits
      · simp only [h1, h2, if_true, ne_eq, not_true_eq_false, if_false, SCEV.eval,
          SCEV.getTypeSizeInBits, getConstant]
        exact lengthArith_one _ _
      · have heq : BECount.getTypeSizeInBits = TD.PointerSizeInBits := by omega
        simp only [h1, h2, ne_eq, not_true_eq_false, if_false]
        simp only [SCEV.eval, SCEV.getTypeSizeInBits, getConstant, heq]
        exact lengthArith_one _ _
  · by_cases h1 : BECount.getTypeSizeInBits < TD.PointerSizeInBits
    · have hle : 2 ^ BECount.getTypeSizeInBits ≤ 2 ^ TD.PointerSizeInBits :=
        Nat.pow_le_pow_right (by norm_num) (Nat.le_of_lt h1)
      simp only [h1, if_true, ne_eq, hS, not_false_eq_true, SCEV.eval,
        SCEV.getTypeSizeInBits, getConstant]
      rw [Nat.mod_eq_of_lt (lt_of_lt_of_le hlt hle)]
      exact lengthArith _ _ _
    · by_cases h2 : BECount.getTypeSizeInBits > TD.PointerSizeInBits
      · simp only [h1, h2, if_true, if_false, ne_eq, hS, not_false_eq_true, SCEV.eval,
          SCEV.getTypeSizeInBits, getConstant]
        exact lengthArith _ _ _
      · have heq : BECount.getTypeSizeInBits = TD.PointerSizeInBits := by omega
        simp only [h1, h2, if_false, if_true, ne_eq, hS, not_false_eq_true]
        simp only [SCEV.eval, SCEV.getTypeSizeInBits, getConstant, heq]
        exact lengthArith _ _ _

theorem freshIds_exState (isVolatile : Bool) (V : Value) : FreshIds (exState isVolatile V) := by
  intro p hp
  simp only [exState, List.mem_cons, List.mem_singleton, List.not_mem_nil, or_false] at hp
  rcases hp with hp | hp | hp | hp | hp | hp | hp <;> subst hp <;> simp [exState]

theorem specFillLength_exact (p w tc S : Nat) (h : (tc + 1) * S < 2 ^ p) :
    specFillLength p w tc S = (tc + 1) * S := by
  unfold specFillLength
  rcases Nat.eq_zero_or_pos S with hS | hS
  · subst hS
    simp
  · have htc : tc < 2 ^ p := by
      have : tc + 1 ≤ (tc + 1) * S := Nat.le_mul_of_pos_right _ hS
      omega
    simp only [Nat.mod_eq_of_lt htc, ite_self]
    exact Nat.mod_eq_of_lt h

/-- C9: after a rewrite the fill `%(nextId + 2)` takes its length from
`%(nextId + 1)`, the code of an expression whose value is
`(tc' + 1) * storeSize` in pointer-width arithmetic, `tc'` being the trip count
zero-extended, truncated or unchanged according to its width; the store size is
the stored width in bytes, the case `storeSize = 1` included. -/
theorem C9_fill_length_pointer_width (A : Analyses) (TD : TargetData) (CurLoop : Loop)
    (st : State) (SI : InstId) (BECount : SCEV) (st1 : State) (hfresh : FreshIds st)
    (h : processLoopStore A TD CurLoop st SI BECount = .ok (true, st1)) :
    ∃ I StoredVal StorePtr SplatValue lenS,
      st.getInst SI = some I ∧ I.operands = [some StoredVal, some StorePtr] ∧
      st1.getInst (st.nextId + 2) = some (fillInst st I SplatValue) ∧
      st1.getInst (st.nextId + 1) = some (lengthInst lenS) ∧
      ∀ ρ iter, lenS.eval ρ iter =
        specFillLength TD.PointerSizeInBits BECount.getTypeSizeInBits (BECount.eval ρ iter)
          (TD.getTypeSizeInBits (A.getType StoredVal) / 8) := by
  obtain ⟨I, StoredVal, StorePtr, start, bits, SplatValue, hI, hops, _, _, _, hint⟩ :=
    processLoopStore_true_fill A TD CurLoop st SI BECount st1 hfresh h
  exact ⟨I, StoredVal, StorePtr, SplatValue, _, hI, hops,
    hint _ (List.mem_cons_of_mem _ (List.mem_cons_of_mem _ (List.mem_cons_self _ _))),
    hint _ (List.mem_cons_of_mem _ (List.mem_cons_self _ _)),
    fun ρ iter => NumBytesS_eval TD BECount _ ρ iter⟩

theorem C9_fill_length_pointer_width_witness :
    ∃ I StoredVal StorePtr SplatValue lenS,
      (exState false (.constInt 8 0xAA)).getInst 3 = some I ∧
      I.operands = [some StoredVal, some StorePtr] ∧
      (exRewritten 64 (.constInt 8 0xAA) (NumBytesS (exTD 64) exBECount 1)).getInst
        ((exState false (.constInt 8 0xAA)).nextId + 2)
        = some (fillInst (exState false (.constInt 8 0xAA)) I SplatValue) ∧
      (exRewritten 64 (.constInt 8 0xAA) (NumBytesS (exTD 64) exBECount 1)).getInst
        ((exState false (.constInt 8 0xAA)).nextId + 1) = some (lengthInst lenS) ∧
      ∀ ρ iter, lenS.eval ρ iter =
        specFillLength (exTD 64).PointerSizeInBits exBECount.getTypeSizeInBits
          (exBECount.eval ρ iter)
          ((exTD 64).getTypeSizeInBits ((exA 64 1 exBECount).getType StoredVal) / 8) :=
  C9_fill_length_pointer_width (exA 64 1 exBECount) (exTD 64) exLoop
    (exState false (.constInt 8 0xAA)) 3 exBECount
    (exRewritten 64 (.constInt 8 0xAA) (NumBytesS (exTD 64) exBECount 1))
    (freshIds_exState _ _) (by decide)

/-- C10, counterexample: on a target with 32-bit pointers the loop with trip
count 2^32 - 1 and a one-byte store is rewritten, and the length of the fill is
0 while `(tripCount + 1) * storeSize` is 2^32: the add has wrapped. -/
theorem C10_counterexample :
    processLoopStore (exA 32 1 (.constant 32 4294967295)) (exTD 32) exLoop
        (exState false (.constInt 8 0xAA)) 3 (.constant 32 4294967295)
      = .ok (true, exRewritten 32 (.constInt 8 0xAA)
          (NumBytesS (exTD 32) (.constant 32 4294967295) 1)) ∧
    (NumBytesS (exTD 32) (.constant 32 4294967295) 1).eval (fun _ => 0) (fun _ => 0) = 0 ∧
    ((SCEV.constant 32 4294967295).eval (fun _ => 0) (fun _ => 0) + 1) * 1 = 4294967296 := by
  decide

/-- C10, amended: after a rewrite, whenever `(tripCount + 1) * storeSize` is
below `2 ^ p` the length of the fill equals that number, and when it is below
`2 ^ (p - 1)` so does its signed reading; the code does not check the bound. -/
theorem C10_fill_length_exact_when_it_fits (A : Analyses) (TD : TargetData) (CurLoop : Loop)
    (st : State) (SI : InstId) (BECount : SCEV) (st1 : State) (hfresh : FreshIds st)
    (h : processLoopStore A TD CurLoop st SI BECount = .ok (true, st1)) :
    ∃ I StoredVal StorePtr SplatValue lenS,
      st.getInst SI = some I ∧ I.operands = [some StoredVal, some StorePtr] ∧
      st1.getInst (st.nextId + 2) = some (fillInst st I SplatValue) ∧
      st1.getInst (st.nextId + 1) = some (lengthInst lenS) ∧
      ∀ ρ iter,
        (BECount.eval ρ iter + 1) * (TD.getTypeSizeInBits (A.getType StoredVal) / 8)
            < 2 ^ TD.PointerSizeInBits →
          lenS.eval ρ iter =
            (BECount.eval ρ iter + 1) * (TD.getTypeSizeInBits (A.getType StoredVal) / 8) ∧
          (2 * ((BECount.eval ρ iter + 1) * (TD.getTypeSizeInBits (A.getType StoredVal) / 8))
              < 2 ^ TD.PointerSizeInBits →
            toSigned TD.PointerSizeInBits (lenS.eval ρ iter) =
              (((BECount.eval ρ iter + 1) * (TD.getTypeSizeInBits (A.getType StoredVal) / 8)
                : Nat) : Int)) := by
  obtain ⟨I, StoredVal, StorePtr, start, bits, SplatValue, hI, hops, _, _, _, hint⟩ :=
    processLoopStore_true_fill A TD CurLoop st SI BECount st1 hfresh h
  refine ⟨I, StoredVal, StorePtr, SplatValue, _, hI, hops,
    hint _ (List.mem_cons_of_mem _ (List.mem_cons_of_mem _ (List.mem_cons_self _ _))),
    hint _ (List.mem_cons_of_mem _ (List.mem_cons_self _ _)), ?_⟩
  intro ρ iter hfit
  have hval := (NumBytesS_eval TD BECount _ ρ iter).trans (specFillLength_exact _ _ _ _ hfit)
  refine ⟨hval, fun hs => ?_⟩
  rw [hval]
  unfold toSigned
  rw [if_pos hs]

theorem C10_fill_length_exact_when_it_fits_witness :
    ∃ I StoredVal StorePtr SplatValue lenS,
      (exState false (.constInt 8 0xAA)).getInst 3 = some I ∧
      I.operands = [some StoredVal, some StorePtr] ∧
      (exRewritten 32 (.constInt 8 0xAA) (NumBytesS (exTD 32) (.constant 32 99) 1)).getInst
        ((exState false (.constInt 8 0xAA)).nextId + 2)
        = some (fillInst (exState false (.constInt 8 0xAA)) I SplatValue) ∧
      (exRewritten 32 (.constInt 8 0xAA) (NumBytesS (exTD 32) (.constant 32 99) 1)).getInst
        ((exState false (.constInt 8 0xAA)).nextId + 1) = some (lengthInst lenS) ∧
      ∀ ρ iter,
        ((SCEV.constant 32 99).eval ρ iter + 1) *
            ((exTD 32).getTypeSizeInBits ((exA 32 1 (.constant 32 99)).getType StoredVal) / 8)
            < 2 ^ (exTD 32).PointerSizeInBits →
          lenS.eval ρ iter =
            ((SCEV.constant 32 99).eval ρ iter + 1) *
              ((exTD 32).getTypeSizeInBits ((exA 32 1 (.constant 32 99)).getType StoredVal)
                / 8) ∧
          (2 * (((SCEV.constant 32 99).eval ρ iter + 1) *
              ((exTD 32).getTypeSizeInBits ((exA 32 1 (.constant 32 99)).getType StoredVal)
                / 8))
              < 2 ^ (exTD 32).PointerSizeInBits →
            toSigned (exTD 32).PointerSizeInBits (lenS.eval ρ iter) =
              ((((SCEV.constant 32 99).eval ρ iter + 1) *
                ((exTD 32).getTypeSizeInBits ((exA 32 1 (.constant 32 99)).getType StoredVal)
                  / 8) : Nat) : Int)) :=
  C10_fill_length_exact_when_it_fits (exA 32 1 (.constant 32 99)) (exTD 32) exLoop
    (exState false (.constInt 8 0xAA)) 3 (.constant 32 99)
    (exRewritten 32 (.constInt 8 0xAA) (NumBytesS (exTD 32) (.constant 32 99) 1))
    (freshIds_exState _ _) (by decide)

/-! ## The memory effect of the loop and of the fill -/

theorem execStore_of_not_mem (p b : Nat) :
    ∀ (n addr : Nat) (m : Memory) (a : Nat), a ∉ fillRange p addr n →
      execStore p addr (List.replicate n b) m a = m a := by
  intro n
  induction n with
  | zero => intro addr m a _; rfl
  | succ n ih =>
    intro addr m a ha
    have h1 : a ≠ addr % 2 ^ p := fun h => ha ⟨0, Nat.succ_pos _, by simpa using h⟩
    have h2 : a ∉ fillRange p (addr + 1) n := by
      rintro ⟨j, hj, hja⟩
      exact ha ⟨j + 1, Nat.succ_lt_succ hj, by rw [hja]; congr 1; omega⟩
    show execStore p (addr + 1) (List.replicate n b)
      (fun x => if x = addr % 2 ^ p then b else m x) a = m a
    rw [ih (addr + 1) _ a h2]
    exact if_neg h1

theorem execStore_of_mem (p b : Nat) :
    ∀ (n addr : Nat) (m : Memory) (a : Nat), a ∈ fillRange p addr n →
      execStore p addr (List.replicate n b) m a = b := by
  intro n
  induction n with
  | zero =>
    intro addr m a ha
    obtain ⟨j, hj, _⟩ := ha
    exact absurd hj (Nat.not_lt_zero _)
  | succ n ih =>
    intro addr m a ha
    show execStore p (addr + 1) (List.replicate n b)
      (fun x => if x = addr % 2 ^ p then b else m x) a = b
    by_cases h2 : a ∈ fillRange p (addr + 1) n
    · exact ih (addr + 1) _ a h2
    · rw [execStore_of_not_mem p b n (addr + 1) _ a h2]
      obtain ⟨j, hj, hja⟩ := ha
      cases j with
      | zero => exact if_pos (by simpa using hja)
      | succ j =>
        exact absurd ⟨j, Nat.lt_of_succ_lt_succ hj, by rw [hja]; congr 1; omega⟩ h2

theorem fillRange_mod (p addr n : Nat) :
    fillRange p (addr % 2 ^ p) n = fillRange p addr n := by
  ext a
  constructor
  · rintro ⟨j, hj, hja⟩
    exact ⟨j, hj, by rw [hja, Nat.mod_add_mod]⟩
  · rintro ⟨j, hj, hja⟩
    exact ⟨j, hj, by rw [hja, Nat.mod_add_mod]⟩

theorem iterRange_eq_fillRange (p base S i : Nat) :
    iterRange p base S i = fillRange p (base + S * i) S := rfl

theorem execLoopFrom_of_not_mem (p base S : Nat) (b : Nat → Nat) :
    ∀ (n i : Nat) (m : Memory) (a : Nat),
      (∀ j, i ≤ j → j < i + n → a ∉ iterRange p base S j) →
      execLoopFrom p base S b i n m a = m a := by
  intro n
  induction n with
  | zero => intro i m a _; rfl
  | succ n ih =>
    intro i m a ha
    show execLoopFrom p base S b (i + 1) n
      (execStore p ((base + S * i) % 2 ^ p) (List.replicate S (b i)) m) a = m a
    rw [ih (i + 1) _ a (fun j h1 h2 => ha j (by omega) (by omega))]
    apply execStore_of_not_mem
    rw [fillRange_mod]
    exact ha i (le_refl _) (by omega)

/-- An address written by the loop holds the byte of the last iteration that
wrote it. -/
theorem execLoopFrom_of_last (p base S : Nat) (b : Nat → Nat) :
    ∀ (n i : Nat) (m : Memory) (a j : Nat), i ≤ j → j < i + n →
      a ∈ iterRange p base S j →
      (∀ k, j < k → k < i + n → a ∉ iterRange p base S k) →
      execLoopFrom p base S b i n m a = b j := by
  intro n
  induction n with
  | zero =>
    intro i m a j h1 h2 _ _
    omega
  | succ n ih =>
    intro i m a j h1 h2 hmem hlast
    show execLoopFrom p base S b (i + 1) n
      (execStore p ((base + S * i) % 2 ^ p) (List.replicate S (b i)) m) a = b j
    by_cases hji : j = i
    · subst hji
      rw [execLoopFrom_of_not_mem p base S b n (j + 1) _ a
        (fun k hk1 hk2 => hlast k (by omega) (by omega))]
      apply execStore_of_mem
      rw [fillRange_mod]
      exact hmem
    · exact ih (i + 1) _ a j (by omega) (by omega) hmem
        (fun k hk1 hk2 => hlast k hk1 (by omega))

/-- C2, the code at the failing input: the answer of alias analysis has no
influence on `processLoopStore`, and on the program whose loop loads from the
location it stores to, with alias analysis reporting that the load `%7` may
access the location of the store, the store is rewritten all the same. -/
theorem C2_rewrite_without_alias_check :
    (∀ (A : Analyses) (f : InstId → Value → Bool) (TD : TargetData) (CurLoop : Loop)
        (st : State) (SI : InstId) (BECount : SCEV),
        processLoopStore { A with getModRefInfo := f } TD CurLoop st SI BECount =
          processLoopStore A TD CurLoop st SI BECount) ∧
    (exA 64 1 exBECount).getModRefInfo 7 (.inst 2) = true ∧
    (exStateAlias (.constInt 8 0xAA)).getInst 7
      = some { opcode := .load false, operands := [some (.inst 2)], alignment := 1,
               addrSpace := 0 } ∧
    processLoopStore (exA 64 1 exBECount) (exTD 64) exLoop (exStateAlias (.constInt 8 0xAA)) 3
        exBECount
      = .ok (true, exStateAliasRewritten 64 (.constInt 8 0xAA)
          (NumBytesS (exTD 64) exBECount 1)) := by
  refine ⟨fun A f TD CurLoop st SI BECount => rfl, rfl, rfl, by decide⟩

/-! ## Frame lemmas for processLoopStore and the scan -/

/-- When `processLoopStore` returns false the state is unchanged. -/
theorem processLoopStore_false (A : Analyses) (TD : TargetData) (CurLoop : Loop) (st : State)
    (SI : InstId) (BECount : SCEV) (st1 : State)
    (h : processLoopStore A TD CurLoop st SI BECount = .ok (false, st1)) : st1 = st := by
  unfold processLoopStore at h
  split at h
  · cases h
  · split at h
    · simp only at h
      split at h
      · simp only [Result.ok.injEq, Prod.mk.injEq, true_and] at h
        exact h.symm
      · split at h
        · split at h
          · simp only [Result.ok.injEq, Prod.mk.injEq, true_and] at h
            exact h.symm
          · split at h
            · split at h
              · simp only [Result.ok.injEq, Prod.mk.injEq, true_and] at h
                exact h.symm
              · split at h
                · unfold processLoopStoreOfSplatValue at h
                  split at h
                  · cases h
                  · split at h
                    · simp only at h
                      split at h <;> cases h
                    · cases h
                · simp only [Result.ok.injEq, Prod.mk.injEq, true_and] at h
                  exact h.symm
            · simp only [Result.ok.injEq, Prod.mk.injEq, true_and] at h
              exact h.symm
        · simp only [Result.ok.injEq, Prod.mk.injEq, true_and] at h
          exact h.symm
    · cases h

theorem intact_withFill_of_intact (keep : List (InstId × Instruction)) (TD : TargetData)
    (st : State) (T : InstId) (I : Instruction) (StoreSize : Nat) (SplatValue : Value)
    (start BECount : SCEV) (hint : Intact keep st) :
    Intact keep (withFill TD st T I StoreSize SplatValue start BECount) :=
  intact_insertBefore (intact_insertBefore (intact_insertBefore hint T _) T _) T _

theorem blocksKeep_withFill (keep : List (InstId × Instruction)) (TD : TargetData)
    (st : State) (T : InstId) (I : Instruction) (StoreSize : Nat) (SplatValue : Value)
    (start BECount : SCEV) :
    BlocksKeep keep st (withFill TD st T I StoreSize SplatValue start BECount) :=
  blocksKeep_trans (blocksKeep_insertBefore keep st T _)
    (blocksKeep_trans (blocksKeep_insertBefore keep _ T _) (blocksKeep_insertBefore keep _ T _))

/-- The frame property of `processLoopStore`: instructions that are never
trivially dead and are not the store processed are untouched and stay in their
blocks, whatever the call returns. -/
theorem processLoopStore_frame (keep : List (InstId × Instruction)) (hnd : NeverDead keep)
    (A : Analyses) (TD : TargetData) (CurLoop : Loop) (st : State) (SI : InstId)
    (BECount : SCEV) (r : Bool) (st1 : State)
    (h : processLoopStore A TD CurLoop st SI BECount = .ok (r, st1))
    (hint : Intact keep st) (hSI : ∀ p ∈ keep, p.1 ≠ SI) :
    Intact keep st1 ∧ BlocksKeep keep st st1 := by
  cases r with
  | false =>
    have := processLoopStore_false A TD CurLoop st SI BECount st1 h
    subst this
    exact ⟨hint, blocksKeep_refl keep _⟩
  | true =>
    obtain ⟨I, StoredVal, StorePtr, start, bits, SplatValue, Preheader, T, _, _, _, _, _,
      _, _, _, _, hdel⟩ := processLoopStore_true A TD CurLoop st SI BECount st1 h
    obtain ⟨hi, hb⟩ := DeleteDeadInstructionLoop_frame keep hnd _ _ SI [] st1 hdel
      (intact_withFill_of_intact keep TD st T I _ SplatValue start BECount hint) hSI
      (fun x hx => by cases hx)
    exact ⟨hi, blocksKeep_trans (blocksKeep_withFill keep TD st T I _ SplatValue start BECount)
      hb⟩

/-- The invariant of the scan loop for a volatile store `v`: it is never passed
to `processLoopStore`, it is untouched, and it stays in its block. -/
theorem scanLoop_volatile (A : Analyses) (TD : TargetData) (CurLoop : Loop) (BECount : SCEV)
    (BB : BlockId) (v : InstId) (I : Instruction) (hvol : I.opcode = .store true) :
    ∀ (fuel : Nat) (st : State) (it : Option InstId) (mc : Bool) (tr : List (InstId × Bool))
      (b : Bool) (st1 : State) (tr1 : List (InstId × Bool)),
      scanLoop A TD CurLoop BECount BB fuel st it mc tr = .ok (b, st1, tr1) →
      Intact [(v, I)] st → (∀ r, (v, r) ∉ tr) →
      Intact [(v, I)] st1 ∧ BlocksKeep [(v, I)] st st1 ∧ ∀ r, (v, r) ∉ tr1 := by
  have hnd : NeverDead [(v, I)] := by
    intro st _ p hp
    simp only [List.mem_singleton] at hp
    subst hp
    exact isInstructionTriviallyDead_of_sideEffects st v I (by rw [hvol]; rfl)
  intro fuel
  induction fuel with
  | zero =>
    intro st it mc tr b st1 tr1 h hint htr
    cases it with
    | none =>
      simp only [scanLoop, Result.ok.injEq, Prod.mk.injEq] at h
      obtain ⟨_, h2, h3⟩ := h
      subst h2
      subst h3
      exact ⟨hint, blocksKeep_refl _ _, htr⟩
    | some cur =>
      simp only [scanLoop] at h
      cases h
  | succ fuel ih =>
    intro st it mc tr b st1 tr1 h hint htr
    cases it with
    | none =>
      simp only [scanLoop, Result.ok.injEq, Prod.mk.injEq] at h
      obtain ⟨_, h2, h3⟩ := h
      subst h2
      subst h3
      exact ⟨hint, blocksKeep_refl _ _, htr⟩
    | some cur =>
      simp only [scanLoop] at h
      split at h
      · next Cur l hCur hl =>
        split at h
        · next isVolatile hop =>
          split at h
          · exact ih _ _ _ _ _ _ _ h hint htr
          · next hnv =>
            have hne : ∀ p ∈ [(v, I)], p.1 ≠ cur := by
              intro p hp hpc
              simp only [List.mem_singleton] at hp
              subst hp
              have h1 := hint (v, I) (List.mem_singleton.mpr rfl)
              simp only at hpc
              rw [hpc, hCur] at h1
              have h2 : Cur = I := Option.some.inj h1
              rw [h2, hvol] at hop
              simp only [Opcode.store.injEq] at hop
              exact hnv hop.symm
            have hcv : cur ≠ v := fun hc => hne (v, I) (List.mem_singleton.mpr rfl) hc.symm
            split at h
            · next st2 hp =>
              obtain ⟨hi2, hb2⟩ := processLoopStore_frame _ hnd A TD CurLoop st cur BECount
                false st2 hp hint hne
              obtain ⟨hi3, hb3, ht3⟩ := ih _ _ _ _ _ _ _ h hi2 (by
                intro r hmem
                rcases List.mem_cons.mp hmem with hm | hm
                · exact hcv (Prod.mk.inj hm).1.symm
                · exact htr r hm)
              exact ⟨hi3, blocksKeep_trans hb2 hb3, ht3⟩
            · next st2 hp =>
              obtain ⟨hi2, hb2⟩ := processLoopStore_frame _ hnd A TD CurLoop st cur BECount
                true st2 hp hint hne
              have htr2 : ∀ r, (v, r) ∉ (cur, true) :: tr := by
                intro r hmem
                rcases List.mem_cons.mp hmem with hm | hm
                · exact hcv (Prod.mk.inj hm).1.symm
                · exact htr r hm
              split at h
              · obtain ⟨hi3, hb3, ht3⟩ := ih _ _ _ _ _ _ _ h hi2 htr2
                exact ⟨hi3, blocksKeep_trans hb2 hb3, ht3⟩
              · obtain ⟨hi3, hb3, ht3⟩ := ih _ _ _ _ _ _ _ h hi2 htr2
                exact ⟨hi3, blocksKeep_trans hb2 hb3, ht3⟩
            · cases h
            · cases h
        all_goals exact ih _ _ _ _ _ _ _ h hint htr
      · cases h

/-- C7: a volatile store that is live before `runOnLoop` is never passed to
`processLoopStore` (it does not occur in the trace of the calls), and after the
run it is still live, unchanged, and in every block that held it. -/
theorem C7_volatile_store_untouched (fuel : Nat) (A : Analyses) (L : Loop) (st : State)
    (b : Bool) (st1 : State) (tr : List (InstId × Bool)) (v : InstId) (I : Instruction)
    (hrun : runOnLoop fuel A L st = .ok (b, st1, tr))
    (hv : st.getInst v = some I) (hvol : I.opcode = .store true) :
    (∀ r, (v, r) ∉ tr) ∧ st1.getInst v = some I ∧
    ∀ bb l, st.blocks.lookup bb = some l → v ∈ l →
      ∃ l1, st1.blocks.lookup bb = some l1 ∧ v ∈ l1 := by
  have hint : Intact [(v, I)] st := by
    intro p hp
    simp only [List.mem_singleton] at hp
    subst hp
    exact hv
  have key : Intact [(v, I)] st1 ∧ BlocksKeep [(v, I)] st st1 ∧ ∀ r, (v, r) ∉ tr := by
    unfold runOnLoop at hrun
    split at hrun
    · simp only [Result.ok.injEq, Prod.mk.injEq] at hrun
      obtain ⟨_, h2, h3⟩ := hrun
      subst h2
      subst h3
      exact ⟨hint, blocksKeep_refl _ _, fun _ hm => by cases hm⟩
    · split at hrun
      · simp only [Result.ok.injEq, Prod.mk.injEq] at hrun
        obtain ⟨_, h2, h3⟩ := hrun
        subst h2
        subst h3
        exact ⟨hint, blocksKeep_refl _ _, fun _ hm => by cases hm⟩
      · simp only at hrun
        split at hrun
        · simp only [Result.ok.injEq, Prod.mk.injEq] at hrun
          obtain ⟨_, h2, h3⟩ := hrun
          subst h2
          subst h3
          exact ⟨hint, blocksKeep_refl _ _, fun _ hm => by cases hm⟩
        · split at hrun
          · simp only [Result.ok.injEq, Prod.mk.injEq] at hrun
            obtain ⟨_, h2, h3⟩ := hrun
            subst h2
            subst h3
            exact ⟨hint, blocksKeep_refl _ _, fun _ hm => by cases hm⟩
          · next TD _ =>
            exact scanLoop_volatile A TD L _ _ v I hvol fuel st _ false [] b st1 tr hrun hint
              (fun _ hm => by cases hm)
  obtain ⟨hi, hb, ht⟩ := key
  refine ⟨ht, hi (v, I) (List.mem_singleton.mpr rfl), ?_⟩
  intro bb l hl hmem
  obtain ⟨l1, hl1, hk⟩ := hb bb l hl
  exact ⟨l1, hl1, hk (v, I) (List.mem_singleton.mpr rfl) hmem⟩

theorem C7_volatile_store_untouched_witness :
    (∀ r, (8, r) ∉ [((3 : InstId), true)]) ∧
    (exStateTwoStoresRewritten 64 (.constInt 8 0xAA) (NumBytesS (exTD 64) exBECount 1)).getInst 8
      = some { opcode := .store true, operands := [some (.constInt 8 0x55), some (.inst 7)],
               alignment := 1, addrSpace := 0 } ∧
    ∀ bb l, (exStateTwoStores (.constInt 8 0xAA)).blocks.lookup bb = some l → 8 ∈ l →
      ∃ l1, (exStateTwoStoresRewritten 64 (.constInt 8 0xAA)
          (NumBytesS (exTD 64) exBECount 1)).blocks.lookup bb = some l1 ∧ 8 ∈ l1 :=
  C7_volatile_store_untouched 100 (exA 64 1 exBECount) exLoop
    (exStateTwoStores (.constInt 8 0xAA)) true
    (exStateTwoStoresRewritten 64 (.constInt 8 0xAA) (NumBytesS (exTD 64) exBECount 1))
    [(3, true)] 8 _ (by decide) rfl rfl

/-! ## The size of a rewritten store -/

/-- The expression engine of the examples yields no recurrence of stride zero
when the stride of `%2` is not zero. -/
theorem exSE_stride_ne_zero (p stride : Nat) (BECount : SCEV) (hs : stride ≠ 0)
    (V : Value) (start : SCEV) (bits extraOps : Nat) (L : LoopId) :
    (exSE p stride BECount).getSCEV V ≠ .addRecExpr start (.constant bits 0) extraOps L := by
  intro hc
  simp only [exSE] at hc
  split at hc
  · simp only [SCEV.addRecExpr.injEq, SCEV.constant.injEq] at hc
    exact hs hc.2.1.2
  · cases hc

/-- C14: every store that is rewritten has a size in bits that is a multiple of
8, is below 2^32, equals its in-memory stored width, and is eight times the
constant stride of its address recurrence.  The code compares the size with the
stride and has no test of its own that the size is positive; with an expression
engine that yields no recurrence of stride zero (ScalarEvolution folds
`{x,+,0}` to `x`), or with a classifier that declines values of width zero, the
size is positive, and so is the store size in bytes that becomes the element
size of the fill. -/
theorem C14_rewritten_store_size (A : Analyses) (TD : TargetData) (CurLoop : Loop)
    (st : State) (SI : InstId) (BECount : SCEV) (st1 : State)
    (hcollab :
      (∀ V start bits extraOps L,
        A.SE.getSCEV V ≠ .addRecExpr start (.constant bits 0) extraOps L) ∨
      (∀ V S, A.isBytewiseValue V = some S → 0 < TD.getTypeSizeInBits (A.getType V)))
    (h : processLoopStore A TD CurLoop st SI BECount = .ok (true, st1)) :
    ∃ I StoredVal StorePtr start bits Stride,
      st.getInst SI = some I ∧ I.operands = [some StoredVal, some StorePtr] ∧
      A.SE.getSCEV StorePtr = .addRecExpr start (.constant bits Stride) 0 CurLoop.id ∧
      0 < TD.getTypeSizeInBits (A.getType StoredVal) ∧
      TD.getTypeSizeInBits (A.getType StoredVal) % 8 = 0 ∧
      TD.getTypeSizeInBits (A.getType StoredVal) < 2 ^ 32 ∧
      TD.getTypeSizeInBits (A.getType StoredVal) =
        TD.getTypeStoreSizeInBits (A.getType StoredVal) ∧
      TD.getTypeSizeInBits (A.getType StoredVal) = 8 * Stride ∧
      0 < Stride := by
  obtain ⟨I, StoredVal, StorePtr, start, bits, SplatValue, Preheader, T, hI, hops, h8, hlt,
    heq, hev, hsplat, _, _, _⟩ := processLoopStore_true A TD CurLoop st SI BECount st1 h
  have hmul : TD.getTypeSizeInBits (A.getType StoredVal) =
      8 * (TD.getTypeSizeInBits (A.getType StoredVal) / 8) :=
    (Nat.mul_div_cancel' (Nat.dvd_of_mod_eq_zero h8)).symm
  have hpos : 0 < TD.getTypeSizeInBits (A.getType StoredVal) / 8 := by
    rcases hcollab with hse | hcl
    · rcases Nat.eq_zero_or_pos (TD.getTypeSizeInBits (A.getType StoredVal) / 8) with h0 | h0
      · rw [h0] at hev
        exact absurd hev (hse StorePtr start bits 0 CurLoop.id)
      · exact h0
    · have := hcl StoredVal SplatValue hsplat
      omega
  refine ⟨I, StoredVal, StorePtr, start, bits, _, hI, hops, hev, ?_, h8, hlt, heq, hmul, hpos⟩
  omega

theorem C14_rewritten_store_size_witness :
    ∃ I StoredVal StorePtr start bits Stride,
      (exState false (.constInt 32 0)).getInst 3 = some I ∧
      I.operands = [some StoredVal, some StorePtr] ∧
      (exA 64 4 exBECount).SE.getSCEV StorePtr
        = .addRecExpr start (.constant bits Stride) 0 exLoop.id ∧
      0 < (exTD 64).getTypeSizeInBits ((exA 64 4 exBECount).getType StoredVal) ∧
      (exTD 64).getTypeSizeInBits ((exA 64 4 exBECount).getType StoredVal) % 8 = 0 ∧
      (exTD 64).getTypeSizeInBits ((exA 64 4 exBECount).getType StoredVal) < 2 ^ 32 ∧
      (exTD 64).getTypeSizeInBits ((exA 64 4 exBECount).getType StoredVal) =
        (exTD 64).getTypeStoreSizeInBits ((exA 64 4 exBECount).getType StoredVal) ∧
      (exTD 64).getTypeSizeInBits ((exA 64 4 exBECount).getType StoredVal) = 8 * Stride ∧
      0 < Stride :=
  C14_rewritten_store_size (exA 64 4 exBECount) (exTD 64) exLoop
    (exState false (.constInt 32 0)) 3 exBECount
    (exRewritten 64 (.constInt 8 0) (NumBytesS (exTD 64) exBECount 4))
    (Or.inl (exSE_stride_ne_zero 64 4 exBECount (by decide))) (by decide)

/-! ## The cascade: what one iteration does -/

theorem dropLog_loopLog (fuel : Nat) :
    ∀ (st : State) (d : InstId) (wl P E : List InstId),
      dropLog (DeleteDeadInstructionLoopLog fuel st d wl P E) =
        DeleteDeadInstructionLoop fuel st d wl := by
  induction fuel with
  | zero =>
    intro st d wl P E
    unfold DeleteDeadInstructionLoopLog DeleteDeadInstructionLoop
    split <;> rfl
  | succ fuel ih =>
    intro st d wl P E
    unfold DeleteDeadInstructionLoopLog DeleteDeadInstructionLoop
    split
    · rfl
    · simp only
      split
      · split
        · rfl
        · exact ih _ _ _ _ _
      · rfl
      · rfl

/-- The logged function computes the same state as `DeleteDeadInstruction`. -/
theorem dropLog_DeleteDeadInstructionLog (st : State) (I : InstId) :
    dropLog (DeleteDeadInstructionLog st I) = DeleteDeadInstruction st I :=
  dropLog_loopLog _ st I [] [I] []

theorem zapOperand_ne_timeout (st : State) (d : InstId) (op : Nat) (wl : List InstId) :
    zapOperand st d op wl ≠ .timeout := by
  intro h
  unfold zapOperand at h
  split at h
  · cases h
  · split at h
    · cases h
    · cases h
    · simp only at h
      split at h
      · split at h
        · cases h
        · split at h
          · cases h
          · split at h <;> cases h
      · cases h

theorem zapOperands_ne_timeout (d : InstId) (ops : List Nat) :
    ∀ (st : State) (wl : List InstId), zapOperands d ops st wl ≠ .timeout := by
  induction ops with
  | nil => intro st wl; simp [zapOperands]
  | cons op ops ih =>
    intro st wl
    simp only [zapOperands]
    split
    · exact ih _ _
    · simp
    · next h => exact absurd h (zapOperand_ne_timeout st d op wl)

theorem lookup_map_same (l : List (InstId × Instruction)) (f : Instruction → Instruction)
    (i : InstId) :
    (l.map (fun p => if p.1 = i then (p.1, f p.2) else p)).lookup i = (l.lookup i).map f := by
  induction l with
  | nil => rfl
  | cons x xs ih =>
    obtain ⟨a, b⟩ := x
    simp only [List.map_cons]
    by_cases ha : a = i
    · subst ha
      rw [if_pos rfl]
      simp only [List.lookup_cons, beq_self_eq_true, Option.map_some']
    · rw [if_neg ha]
      have hk : (i == a) = false := beq_false_of_ne (Ne.symm ha)
      simp only [List.lookup_cons, hk, ih]

theorem getInst_zeroOperand_same (st : State) (d op : Nat) :
    (st.zeroOperand d op).getInst d =
      (st.getInst d).map (fun I => { I with operands := I.operands.set op none }) :=
  lookup_map_same st.insts (fun I => { I with operands := I.operands.set op none }) d

theorem opcode_getInst_zeroOperand (st : State) (d op k : Nat) :
    ((st.zeroOperand d op).getInst k).map (fun I => I.opcode) =
      (st.getInst k).map (fun I => I.opcode) := by
  by_cases h : d = k
  · subst h
    rw [getInst_zeroOperand_same]
    cases st.getInst d <;> rfl
  · rw [getInst_zeroOperand_ne st d op k h]

theorem filter_zeroOperand (st : State) (d op : Nat) :
    (st.zeroOperand d op).insts.filter (fun p => decide (p.1 ≠ d)) =
      st.insts.filter (fun p => decide (p.1 ≠ d)) := by
  show (st.insts.map _).filter _ = _
  induction st.insts with
  | nil => rfl
  | cons x xs ih =>
    obtain ⟨a, b⟩ := x
    simp only [List.map_cons]
    by_cases ha : a = d
    · rw [if_pos ha, List.filter_cons_of_neg (by simpa using ha),
        List.filter_cons_of_neg (by simpa using ha)]
      exact ih
    · rw [if_neg ha, List.filter_cons_of_pos (by simpa using ha),
        List.filter_cons_of_pos (by simpa using ha), ih]

theorem use_empty_zeroOperand (st : State) (d op : Nat) (V : Value)
    (h : st.use_empty V = true) : (st.zeroOperand d op).use_empty V = true := by
  unfold State.use_empty at h ⊢
  rw [List.all_eq_true] at h ⊢
  intro p hp
  simp only [State.zeroOperand, List.mem_map] at hp
  obtain ⟨q, hq, hqp⟩ := hp
  have hq1 := h q hq
  rw [List.all_eq_true] at hq1 ⊢
  by_cases hk : q.1 = d
  · rw [if_pos hk] at hqp
    subst hqp
    intro o ho
    rcases List.mem_or_eq_of_mem_set ho with ho | ho
    · exact hq1 o ho
    · subst ho
      simp
  · rw [if_neg hk] at hqp
    subst hqp
    exact hq1

theorem use_empty_of_subset (st st1 : State) (V : Value)
    (hsub : ∀ p ∈ st1.insts, p ∈ st.insts) (h : st.use_empty V = true) :
    st1.use_empty V = true := by
  unfold State.use_empty at h ⊢
  rw [List.all_eq_true] at h ⊢
  exact fun p hp => h p (hsub p hp)

theorem isInstructionTriviallyDead_eq_true (st : State) (j : InstId) (J : Instruction)
    (h : isInstructionTriviallyDead st j J = true) :
    st.use_empty (.inst j) = true ∧ J.opcode.isPure := by
  unfold isInstructionTriviallyDead at h
  simp only [Bool.and_eq_true, decide_eq_true_eq, Bool.not_eq_true'] at h
  exact ⟨h.1.1, h.2, h.1.2⟩

/-- The effect of one iteration of the operand loop on the parts of the state
the cascade depends on. -/
theorem zapOperand_effect (st : State) (d : InstId) (op : Nat) (wl : List InstId)
    (st2 : State) (wl2 : List InstId) (h : zapOperand st d op wl = .ok (st2, wl2)) :
    st2.blocks = st.blocks ∧ st2.nextId = st.nextId ∧ st2.Scalars = st.Scalars ∧
    st2.insts.filter (fun p => decide (p.1 ≠ d)) =
      st.insts.filter (fun p => decide (p.1 ≠ d)) ∧
    (∀ k, (st2.getInst k).map (fun I => I.opcode) = (st.getInst k).map (fun I => I.opcode)) ∧
    (∀ V, st.use_empty V = true → st2.use_empty V = true) ∧
    ∃ np, wl2 = np ++ wl ∧
      ∀ j ∈ np, ∃ J, st.getInst j = some J ∧ J.opcode.isPure ∧
        st2.use_empty (.inst j) = true := by
  obtain ⟨hst, hpush⟩ := zapOperand_ok st d op wl st2 wl2 h
  subst hst
  refine ⟨rfl, rfl, rfl, filter_zeroOperand st d op, opcode_getInst_zeroOperand st d op,
    fun V hV => use_empty_zeroOperand st d op V hV, ?_⟩
  rcases hpush with hwl | ⟨j, OpI, hwl, hj, hdead⟩
  · exact ⟨[], by rw [hwl]; rfl, fun j hj => by cases hj⟩
  · refine ⟨[j], by rw [hwl]; rfl, ?_⟩
    intro x hx
    rw [List.mem_singleton] at hx
    subst hx
    obtain ⟨hue, hpure⟩ := isInstructionTriviallyDead_eq_true _ _ _ hdead
    have hop := opcode_getInst_zeroOperand st d op x
    rw [hj] at hop
    cases hJ : st.getInst x with
    | none => rw [hJ] at hop; cases hop
    | some J =>
      rw [hJ] at hop
      simp only [Option.map_some', Option.some.injEq] at hop
      exact ⟨J, rfl, by rw [← hop]; exact hpure, hue⟩

theorem zapOperands_effect (d : InstId) (ops : List Nat) :
    ∀ (st : State) (wl : List InstId) (st2 : State) (wl2 : List InstId),
      zapOperands d ops st wl = .ok (st2, wl2) →
      st2.blocks = st.blocks ∧ st2.nextId = st.nextId ∧ st2.Scalars = st.Scalars ∧
      st2.insts.filter (fun p => decide (p.1 ≠ d)) =
        st.insts.filter (fun p => decide (p.1 ≠ d)) ∧
      (∀ k, (st2.getInst k).map (fun I => I.opcode) =
        (st.getInst k).map (fun I => I.opcode)) ∧
      (∀ V, st.use_empty V = true → st2.use_empty V = true) ∧
      ∃ np, wl2 = np ++ wl ∧
        ∀ j ∈ np, ∃ J, st.getInst j = some J ∧ J.opcode.isPure ∧
          st2.use_empty (.inst j) = true := by
  induction ops with
  | nil =>
    intro st wl st2 wl2 h
    simp only [zapOperands, Result.ok.injEq, Prod.mk.injEq] at h
    obtain ⟨h1, h2⟩ := h
    subst h1
    subst h2
    exact ⟨rfl, rfl, rfl, rfl, fun _ => rfl, fun _ hV => hV, [], rfl,
      fun j hj => by cases hj⟩
  | cons op ops ih =>
    intro st wl st2 wl2 h
    simp only [zapOperands] at h
    split at h
    · next stm wlm hz =>
      obtain ⟨a1, a2, a3, a4, a5, a6, np1, hnp1, a7⟩ := zapOperand_effect st d op wl stm wlm hz
      obtain ⟨b1, b2, b3, b4, b5, b6, np2, hnp2, b7⟩ := ih stm wlm st2 wl2 h
      refine ⟨b1.trans a1, b2.trans a2, b3.trans a3, b4.trans a4,
        fun k => (b5 k).trans (a5 k), fun V hV => b6 V (a6 V hV), np2 ++ np1, ?_, ?_⟩
      · rw [hnp2, hnp1, List.append_assoc]
      · intro j hj
        rcases List.mem_append.mp hj with hj | hj
        · obtain ⟨J, hJ, hp, hu⟩ := b7 j hj
          have hop := a5 j
          rw [hJ] at hop
          cases hJ0 : st.getInst j with
          | none => rw [hJ0] at hop; cases hop
          | some J0 =>
            rw [hJ0] at hop
            simp only [Option.map_some', Option.some.injEq] at hop
            exact ⟨J0, rfl, by rw [← hop]; exact hp, hu⟩
        · obtain ⟨J, hJ, hp, hu⟩ := a7 j hj
          exact ⟨J, hJ, hp, b6 _ hu⟩
    · cases h
    · cases h

/-! ## The cascade: erasing a set of instructions -/

theorem filter_filter_notMem {β : Type} (f : β → InstId) (l : List β) (a b : List InstId) :
    (l.filter (fun p => decide (f p ∉ a))).filter (fun p => decide (f p ∉ b)) =
      l.filter (fun p => decide (f p ∉ b ++ a)) := by
  rw [List.filter_filter]
  apply List.filter_congr
  intro p _
  by_cases h1 : f p ∈ a <;> by_cases h2 : f p ∈ b <;> simp [h1, h2]

theorem filter_filter_scalars (l : List Value) (a b : List InstId) :
    (l.filter (fun k => decide (∀ d ∈ a, k ≠ Value.inst d))).filter
        (fun k => decide (∀ d ∈ b, k ≠ Value.inst d)) =
      l.filter (fun k => decide (∀ d ∈ b ++ a, k ≠ Value.inst d)) := by
  rw [List.filter_filter]
  apply List.filter_congr
  intro k _
  rw [← Bool.decide_and]
  apply decide_eq_decide.mpr
  constructor
  · rintro ⟨h1, h2⟩ x hx
    rcases List.mem_append.mp hx with hx | hx
    · exact h1 x hx
    · exact h2 x hx
  · intro h
    exact ⟨fun x hx => h x (List.mem_append.mpr (Or.inl hx)),
      fun x hx => h x (List.mem_append.mpr (Or.inr hx))⟩

theorem eraseAll_eraseAll (st : State) (a b : List InstId) :
    (st.eraseAll a).eraseAll b = st.eraseAll (b ++ a) := by
  have h1 := filter_filter_notMem (fun p : InstId × Instruction => p.1) st.insts a b
  have h2 : (st.blocks.map (fun b => (b.1, b.2.filter (fun j => decide (j ∉ a))))).map
      (fun c => (c.1, c.2.filter (fun j => decide (j ∉ b)))) =
      st.blocks.map (fun c => (c.1, c.2.filter (fun j => decide (j ∉ b ++ a)))) := by
    rw [List.map_map]
    apply List.map_congr_left
    intro x _
    show (x.1, (x.2.filter _).filter _) = _
    rw [filter_filter_notMem (fun j : InstId => j) x.2 a b]
  have h3 := filter_filter_scalars st.Scalars a b
  show State.mk _ _ _ _ = State.mk _ _ _ _
  rw [State.mk.injEq]
  exact ⟨h1, h2, rfl, h3⟩

theorem lookup_filter_notMem (l : List (InstId × Instruction)) (dead : List InstId)
    (k : InstId) :
    (l.filter (fun p => decide (p.1 ∉ dead))).lookup k =
      if k ∈ dead then none else l.lookup k := by
  induction l with
  | nil => simp
  | cons x xs ih =>
    obtain ⟨a, b⟩ := x
    by_cases ha : a ∈ dead
    · rw [List.filter_cons_of_neg (by simpa using ha), ih]
      by_cases hk : k = a
      · subst hk
        simp [ha]
      · have hk' : (k == a) = false := beq_false_of_ne hk
        simp only [List.lookup_cons, hk']
    · rw [List.filter_cons_of_pos (by simpa using ha)]
      by_cases hk : k = a
      · subst hk
        simp [ha]
      · have hk' : (k == a) = false := beq_false_of_ne hk
        simp only [List.lookup_cons, hk', ih]

theorem getInst_eraseAll (st : State) (dead : List InstId) (k : InstId) :
    (st.eraseAll dead).getInst k = if k ∈ dead then none else st.getInst k :=
  lookup_filter_notMem st.insts dead k

theorem mem_insts_eraseAll (st : State) (dead : List InstId) (p : InstId × Instruction) :
    p ∈ (st.eraseAll dead).insts ↔ p ∈ st.insts ∧ p.1 ∉ dead := by
  simp [State.eraseAll, List.mem_filter]

theorem use_empty_eraseAll (st : State) (dead : List InstId) (V : Value)
    (h : st.use_empty V = true) : (st.eraseAll dead).use_empty V = true :=
  use_empty_of_subset st _ V (fun p hp => ((mem_insts_eraseAll st dead p).mp hp).1) h

/-- One iteration of the cascade (forget, zero the operands, erase) removes
exactly the instruction processed. -/
theorem eraseFromParent_after_zap (st st2 : State) (d : InstId)
    (hb : st2.blocks = st.blocks) (hn : st2.nextId = st.nextId)
    (hs : st2.Scalars = (st.forgetValue (.inst d)).Scalars)
    (hi : st2.insts.filter (fun p => decide (p.1 ≠ d)) =
      st.insts.filter (fun p => decide (p.1 ≠ d))) :
    st2.eraseFromParent d = st.eraseAll [d] := by
  have h1 : st2.insts.filter (fun p => decide (p.1 ≠ d)) =
      st.insts.filter (fun p => decide (p.1 ∉ [d])) := by
    rw [hi]
    apply List.filter_congr
    intro p _
    simp
  have h2 : st2.blocks.map (fun b => (b.1, b.2.filter (fun j => decide (j ≠ d)))) =
      st.blocks.map (fun b => (b.1, b.2.filter (fun j => decide (j ∉ [d])))) := by
    rw [hb]
    apply List.map_congr_left
    intro x _
    have : x.2.filter (fun j => decide (j ≠ d)) = x.2.filter (fun j => decide (j ∉ [d])) := by
      apply List.filter_congr
      intro j _
      simp
    rw [this]
  have h3 : st2.Scalars = st.Scalars.filter (fun k => decide (∀ x ∈ [d], k ≠ Value.inst x)) := by
    rw [hs]
    show st.Scalars.filter _ = _
    apply List.filter_congr
    intro k _
    simp
  show State.mk _ _ _ _ = State.mk _ _ _ _
  rw [State.mk.injEq]
  exact ⟨h1, h2, hn, h3⟩

/-! ## The cascade: what a run that returns has done -/

/-- A run of the logged cascade that returns has erased a duplicate-free list of
instructions `new`, all live before; the final state is the initial state
without them; `new` is, up to order, the current instruction, the worklist, and
the instructions pushed during the run; and every instruction pushed is a pure
computation that no instruction of the final state uses. -/
theorem loopLog_ok (fuel : Nat) :
    ∀ (st : State) (d : InstId) (wl P E : List InstId) (st1 : State) (P1 E1 : List InstId),
      DeleteDeadInstructionLoopLog fuel st d wl P E = .ok (st1, P1, E1) →
      ∃ new np,
        E1 = new ++ E ∧ P1 = np ++ P ∧ st1 = st.eraseAll new ∧ new.Nodup ∧
        List.Perm new (np ++ d :: wl) ∧
        (∀ x ∈ new, (st.getInst x).isSome) ∧
        (∀ x ∈ np, ∃ J, st.getInst x = some J ∧ J.opcode.isPure ∧
          st1.use_empty (.inst x) = true) := by
  induction fuel with
  | zero =>
    intro st d wl P E st1 P1 E1 h
    unfold DeleteDeadInstructionLoopLog at h
    split at h <;> cases h
  | succ fuel ih =>
    intro st d wl P E st1 P1 E1 h
    unfold DeleteDeadInstructionLoopLog at h
    split at h
    · cases h
    · next I hI =>
      simp only at h
      split at h
      · next st2 wl2 hz =>
        obtain ⟨z1, z2, z3, z4, _, _, np0, hnp0, z7⟩ :=
          zapOperands_effect d _ (st.forgetValue (.inst d)) wl st2 wl2 hz
        have hst3 : st2.eraseFromParent d = st.eraseAll [d] :=
          eraseFromParent_after_zap st st2 d z1 z2 z3 z4
        have htake : wl2.take (wl2.length - wl.length) = np0 := by
          rw [hnp0]
          apply List.take_left'
          simp
        have hdlive : (st.getInst d).isSome := by rw [hI]; rfl
        rw [hst3, htake] at h
        split at h
        · simp only [Result.ok.injEq, Prod.mk.injEq] at h
          obtain ⟨h1, h2, h3⟩ := h
          have hnp : np0 = [] ∧ wl = [] := List.append_eq_nil.mp hnp0.symm
          obtain ⟨hnp1, hwl⟩ := hnp
          subst hnp1
          subst hwl
          refine ⟨[d], [], h3.symm, h2.symm, h1.symm,
            List.nodup_singleton d, List.Perm.refl _, ?_, fun x hx => absurd hx (List.not_mem_nil x)⟩
          intro x hx
          rw [List.mem_singleton] at hx
          rw [hx]
          exact hdlive
        · next d1 wl1 =>
          obtain ⟨new1, np1, e1, p1, s1, nd1, pm1, lv1, pu1⟩ := ih _ d1 wl1 _ _ st1 P1 E1 h
          have hlive3 : ∀ x ∈ new1, x ≠ d ∧ (st.getInst x).isSome := by
            intro x hx
            have := lv1 x hx
            rw [getInst_eraseAll] at this
            by_cases hxd : x ∈ [d]
            · rw [if_pos hxd] at this
              cases this
            · rw [if_neg hxd] at this
              exact ⟨fun hc => hxd (by rw [hc]; exact List.mem_singleton.mpr rfl), this⟩
          refine ⟨new1 ++ [d], np1 ++ np0, ?_, ?_, ?_, ?_, ?_, ?_, ?_⟩
          · rw [e1]
            simp
          · rw [p1]
            simp
          · rw [s1, eraseAll_eraseAll]
          · rw [List.nodup_append]
            refine ⟨nd1, List.nodup_singleton d, ?_⟩
            intro x hx hx2
            rw [List.mem_singleton] at hx2
            exact (hlive3 x hx).1 hx2
          · have hp1 : List.Perm new1 (np1 ++ (np0 ++ wl)) := by
              rw [← hnp0]
              exact pm1
            have hp2 : List.Perm (new1 ++ [d]) (d :: (np1 ++ (np0 ++ wl))) :=
              (List.perm_append_singleton d new1).trans (List.Perm.cons d hp1)
            refine hp2.trans ?_
            rw [List.append_assoc np1 np0 (d :: wl)]
            have hp3 : List.Perm (d :: (np1 ++ (np0 ++ wl))) (np1 ++ d :: (np0 ++ wl)) :=
              (List.perm_middle).symm
            refine hp3.trans (List.Perm.append_left np1 ?_)
            exact (List.perm_middle).symm
          · intro x hx
            rcases List.mem_append.mp hx with hx | hx
            · exact (hlive3 x hx).2
            · rw [List.mem_singleton] at hx
              rw [hx]
              exact hdlive
          · intro x hx
            rcases List.mem_append.mp hx with hx | hx
            · obtain ⟨J, hJ, hp, hu⟩ := pu1 x hx
              rw [getInst_eraseAll] at hJ
              by_cases hxd : x ∈ [d]
              · rw [if_pos hxd] at hJ
                cases hJ
              · rw [if_neg hxd] at hJ
                exact ⟨J, hJ, hp, hu⟩
            · obtain ⟨J, hJ, hp, hu⟩ := z7 x hx
              refine ⟨J, hJ, hp, ?_⟩
              rw [s1]
              apply use_empty_eraseAll
              rw [← hst3]
              apply use_empty_of_subset st2 _ _ _ hu
              intro p hp
              exact (List.mem_filter.mp hp).1
      · cases h
      · cases h

/-! ## The cascade terminates -/

theorem length_eraseAll_lt (st : State) (d : InstId) (I : Instruction)
    (h : st.getInst d = some I) :
    (st.eraseAll [d]).insts.length < st.insts.length := by
  have hmem := mem_of_lookup_eq_some st.insts d I h
  show (st.insts.filter _).length < _
  rw [List.length_filter_lt_length_iff_exists]
  exact ⟨(d, I), hmem, by simp⟩

/-- With fuel for every live instruction the cascade never runs out of fuel:
every iteration erases a live instruction. -/
theorem loopLog_ne_timeout (fuel : Nat) :
    ∀ (st : State) (d : InstId) (wl P E : List InstId), st.insts.length ≤ fuel →
      DeleteDeadInstructionLoopLog fuel st d wl P E ≠ .timeout := by
  induction fuel with
  | zero =>
    intro st d wl P E hlen h
    unfold DeleteDeadInstructionLoopLog at h
    split at h
    · cases h
    · next I hI =>
      have := length_eraseAll_lt st d I hI
      omega
  | succ fuel ih =>
    intro st d wl P E hlen h
    unfold DeleteDeadInstructionLoopLog at h
    split at h
    · cases h
    · next I hI =>
      simp only at h
      split at h
      · next st2 wl2 hz =>
        obtain ⟨z1, z2, z3, z4, _, _, _, _, _⟩ :=
          zapOperands_effect d _ (st.forgetValue (.inst d)) wl st2 wl2 hz
        have hst3 : st2.eraseFromParent d = st.eraseAll [d] :=
          eraseFromParent_after_zap st st2 d z1 z2 z3 z4
        rw [hst3] at h
        split at h
        · cases h
        · have hlt := length_eraseAll_lt st d I hI
          exact ih _ _ _ _ _ (by omega) h
      · cases h
      · next hz => exact zapOperands_ne_timeout _ _ _ _ hz

/-- More fuel does not change the result of a run that did not run out of fuel. -/
theorem loopLog_fuel_mono (fuel : Nat) :
    ∀ (st : State) (d : InstId) (wl P E : List InstId) (k : Nat),
      DeleteDeadInstructionLoopLog fuel st d wl P E ≠ .timeout →
      DeleteDeadInstructionLoopLog (fuel + k) st d wl P E =
        DeleteDeadInstructionLoopLog fuel st d wl P E := by
  induction fuel with
  | zero =>
    intro st d wl P E k h
    unfold DeleteDeadInstructionLoopLog at h ⊢
    split
    · rfl
    · next I hI =>
      rw [hI] at h
      exact absurd rfl h
  | succ fuel ih =>
    intro st d wl P E k h
    rw [Nat.add_right_comm]
    unfold DeleteDeadInstructionLoopLog at h ⊢
    split
    · rfl
    · next I hI =>
      rw [hI] at h
      simp only at h ⊢
      split
      · next st2 wl2 hz =>
        rw [hz] at h
        simp only at h
        split
        · rfl
        · exact ih _ _ _ _ _ k h
      · rfl
      · rfl

/-- The cascade of `DeleteDeadInstruction` finishes within as many iterations
as there are live instructions, whatever the fuel beyond that. -/
theorem loop_fuel_enough (st : State) (d : InstId) (wl : List InstId) (fuel : Nat)
    (h : st.insts.length ≤ fuel) :
    DeleteDeadInstructionLoop fuel st d wl = DeleteDeadInstructionLoop st.insts.length st d wl ∧
    DeleteDeadInstructionLoop st.insts.length st d wl ≠ .timeout := by
  have hnt := loopLog_ne_timeout st.insts.length st d wl [] [] (le_refl _)
  have hmono := loopLog_fuel_mono st.insts.length st d wl [] [] (fuel - st.insts.length) hnt
  rw [Nat.add_sub_cancel' h] at hmono
  constructor
  · rw [← dropLog_loopLog fuel st d wl [] [], ← dropLog_loopLog _ st d wl [] [], hmono]
  · intro hc
    rw [← dropLog_loopLog _ st d wl [] []] at hc
    cases hr : DeleteDeadInstructionLoopLog st.insts.length st d wl [] [] with
    | ok a => rw [hr] at hc; cases hc
    | stuck => rw [hr] at hc; cases hc
    | timeout => exact hnt hr

/-- The interface of the cascade: when `DeleteDeadInstruction` returns, the
logged run returns the same state; the erased instructions `E` are without
duplicates, were all live, and are, up to order, the root and the instructions
pushed after it; the final state is the initial one without `E`; and every
instruction pushed after the root is a pure computation without a use left. -/
theorem DeleteDeadInstruction_ok (st : State) (root : InstId) (st1 : State)
    (h : DeleteDeadInstruction st root = .ok st1) :
    ∃ P E np,
      DeleteDeadInstructionLog st root = .ok (st1, P, E) ∧ P = np ++ [root] ∧
      st1 = st.eraseAll E ∧ E.Nodup ∧ List.Perm E (np ++ [root]) ∧
      (∀ x ∈ E, (st.getInst x).isSome) ∧
      (∀ x ∈ np, ∃ J, st.getInst x = some J ∧ J.opcode.isPure ∧
        st1.use_empty (.inst x) = true) := by
  have hd := dropLog_DeleteDeadInstructionLog st root
  rw [h] at hd
  cases hr : DeleteDeadInstructionLog st root with
  | ok a =>
    obtain ⟨s, P, E⟩ := a
    rw [hr] at hd
    simp only [dropLog, Result.ok.injEq] at hd
    subst hd
    obtain ⟨new, np, e1, p1, s1, nd, pm, lv, pu⟩ := loopLog_ok _ st root [] [root] [] s P E hr
    rw [List.append_nil] at e1
    subst e1
    exact ⟨P, E, np, rfl, p1, s1, nd, pm, lv, pu⟩
  | stuck => rw [hr] at hd; cases hd
  | timeout => rw [hr] at hd; cases hd

theorem length_filter_notMem_add (new : List InstId) :
    ∀ (l : List (InstId × Instruction)), new.Nodup → (∀ x ∈ new, (l.lookup x).isSome) →
      (l.filter (fun p => decide (p.1 ∉ new))).length + new.length ≤ l.length := by
  induction new with
  | nil =>
    intro l _ _
    simp
  | cons x xs ih =>
    intro l hnd hlive
    have hx : x ∉ xs := (List.nodup_cons.mp hnd).1
    have h1 := ih l (List.nodup_cons.mp hnd).2 (fun y hy => hlive y (List.mem_cons_of_mem _ hy))
    have h2 := filter_filter_notMem (fun p : InstId × Instruction => p.1) l xs [x]
    have hsome : ((l.filter (fun p => decide (p.1 ∉ xs))).lookup x).isSome := by
      rw [lookup_filter_notMem, if_neg hx]
      exact hlive x (List.mem_cons_self _ _)
    obtain ⟨I, hI⟩ := Option.isSome_iff_exists.mp hsome
    have hmem := mem_of_lookup_eq_some _ x I hI
    have h3 : ((l.filter (fun p => decide (p.1 ∉ xs))).filter
        (fun p => decide (p.1 ∉ [x]))).length <
        (l.filter (fun p => decide (p.1 ∉ xs))).length := by
      rw [List.length_filter_lt_length_iff_exists]
      exact ⟨(x, I), hmem, by simp⟩
    rw [h2] at h3
    have h4 : [x] ++ xs = x :: xs := rfl
    rw [h4] at h3
    simp only [List.length_cons]
    omega

/-- C16: the worklist loop of `DeleteDeadInstruction` terminates for every state
and every root: with fuel for every live instruction it never runs out of fuel,
more fuel does not change its result, and when it returns it has made one
iteration for each of the distinct, previously live instructions it erased, so
at most as many iterations as there were instructions. -/
theorem C16_cascade_terminates (st : State) (root : InstId) :
    DeleteDeadInstruction st root ≠ .timeout ∧
    (∀ fuel, st.insts.length ≤ fuel →
      DeleteDeadInstructionLoop fuel st root [] = DeleteDeadInstruction st root) ∧
    (∀ st1, DeleteDeadInstruction st root = .ok st1 →
      ∃ P E, DeleteDeadInstructionLog st root = .ok (st1, P, E) ∧ E.Nodup ∧
        (∀ x ∈ E, (st.getInst x).isSome ∧ st1.getInst x = none) ∧
        st1.insts.length + E.length ≤ st.insts.length) := by
  refine ⟨(loop_fuel_enough st root [] _ (le_refl _)).2,
    fun fuel hf => (loop_fuel_enough st root [] fuel hf).1, ?_⟩
  intro st1 h
  obtain ⟨P, E, np, hlog, _, hst, hnd, _, hlive, _⟩ := DeleteDeadInstruction_ok st root st1 h
  refine ⟨P, E, hlog, hnd, ?_, ?_⟩
  · intro x hx
    refine ⟨hlive x hx, ?_⟩
    rw [hst, getInst_eraseAll, if_pos hx]
  · rw [hst]
    exact length_filter_notMem_add E st.insts hnd hlive

theorem C16_cascade_terminates_witness :
    DeleteDeadInstruction (exState false (.constInt 8 0xAA)) 3 ≠ .timeout ∧
    (∀ fuel, (exState false (.constInt 8 0xAA)).insts.length ≤ fuel →
      DeleteDeadInstructionLoop fuel (exState false (.constInt 8 0xAA)) 3 [] =
        DeleteDeadInstruction (exState false (.constInt 8 0xAA)) 3) ∧
    (∀ st1, DeleteDeadInstruction (exState false (.constInt 8 0xAA)) 3 = .ok st1 →
      ∃ P E, DeleteDeadInstructionLog (exState false (.constInt 8 0xAA)) 3 = .ok (st1, P, E) ∧
        E.Nodup ∧
        (∀ x ∈ E, ((exState false (.constInt 8 0xAA)).getInst x).isSome ∧
          st1.getInst x = none) ∧
        st1.insts.length + E.length ≤ (exState false (.constInt 8 0xAA)).insts.length) :=
  C16_cascade_terminates (exState false (.constInt 8 0xAA)) 3

/-! ## The cascade returns on a well-formed graph -/

theorem isSome_getInst_zeroOperand (st : State) (d op k : Nat) :
    ((st.zeroOperand d op).getInst k).isSome = (st.getInst k).isSome := by
  have h := opcode_getInst_zeroOperand st d op k
  have h1 := congrArg Option.isSome h
  simpa using h1

theorem properOperand_zeroOperand (st : State) (d op : Nat) (o : Option Value)
    (h : ProperOperand st o) : ProperOperand (st.zeroOperand d op) o := by
  obtain ⟨V, hV, hlive⟩ := h
  exact ⟨V, hV, fun j hj => by rw [isSome_getInst_zeroOperand]; exact hlive j hj⟩

theorem mem_insts_zeroOperand_ne (st : State) (d op : Nat) (p : InstId × Instruction)
    (hp : p ∈ (st.zeroOperand d op).insts) (hne : p.1 ≠ d) : p ∈ st.insts := by
  simp only [State.zeroOperand, List.mem_map] at hp
  obtain ⟨q, hq, hqp⟩ := hp
  by_cases hk : q.1 = d
  · rw [if_pos hk] at hqp
    subst hqp
    exact absurd hk hne
  · rw [if_neg hk] at hqp
    subst hqp
    exact hq

/-- One iteration of the operand loop under its invariant: it returns, and the
invariant holds for the remaining slots. -/
theorem zapOperand_total (st : State) (d : InstId) (op : Nat) (ops : List Nat)
    (wl : List InstId) (hinv : ZapInv st d (op :: ops) wl) :
    ∃ st2 wl2, zapOperand st d op wl = .ok (st2, wl2) ∧ ZapInv st2 d ops wl2 := by
  obtain ⟨hothers, ⟨I, hI, hslots⟩, huse, hnd, hops⟩ := hinv
  obtain ⟨o, ho, V, hoV, hlive⟩ := hslots op (List.mem_cons_self _ _)
  subst hoV
  have hopn : op ∉ ops := (List.nodup_cons.mp hops).1
  have hVmem : some V ∈ I.operands := List.get?_mem ho
  -- the invariant for the state with the slot zeroed, whatever is pushed
  have hI2 : (st.zeroOperand d op).getInst d
      = some { I with operands := I.operands.set op none } := by
    rw [getInst_zeroOperand_same, hI]
    rfl
  have hothers2 : ∀ p ∈ (st.zeroOperand d op).insts, p.1 ≠ d →
      ∀ o ∈ p.2.operands, ProperOperand (st.zeroOperand d op) o := by
    intro p hp hne o ho
    exact properOperand_zeroOperand st d op o
      (hothers p (mem_insts_zeroOperand_ne st d op p hp hne) hne o ho)
  have hslots2 : ∀ i ∈ ops, ∃ o,
      ({ I with operands := I.operands.set op none } : Instruction).operands.get? i = some o ∧
        ProperOperand (st.zeroOperand d op) o := by
    intro i hi
    obtain ⟨o, ho, hp⟩ := hslots i (List.mem_cons_of_mem _ hi)
    have hne : op ≠ i := fun hc => hopn (hc ▸ hi)
    exact ⟨o, by
        rw [List.get?_eq_getElem?, List.getElem?_set_ne hne, ← List.get?_eq_getElem?]
        exact ho,
      properOperand_zeroOperand st d op o hp⟩
  have huse2 : ∀ x ∈ d :: wl, ((st.zeroOperand d op).getInst x).isSome ∧
      (st.zeroOperand d op).use_empty (.inst x) = true := by
    intro x hx
    exact ⟨by rw [isSome_getInst_zeroOperand]; exact (huse x hx).1,
      use_empty_zeroOperand st d op _ (huse x hx).2⟩
  have hsame : ZapInv (st.zeroOperand d op) d ops wl :=
    ⟨hothers2, ⟨_, hI2, hslots2⟩, huse2, hnd, (List.nodup_cons.mp hops).2⟩
  unfold zapOperand
  simp only [hI, ho]
  cases V with
  | inst j =>
    have hjlive : ((st.zeroOperand d op).getInst j).isSome := by
      rw [isSome_getInst_zeroOperand]
      exact hlive j rfl
    obtain ⟨OpI, hOpI⟩ := Option.isSome_iff_exists.mp hjlive
    simp only [hOpI]
    split
    · exact ⟨_, _, rfl, hsame⟩
    · next hue =>
      split
      · refine ⟨_, _, rfl, hothers2, ⟨_, hI2, hslots2⟩, ?_, ?_, (List.nodup_cons.mp hops).2⟩
        · intro x hx
          rcases List.mem_cons.mp hx with hx | hx
          · exact huse2 x (hx ▸ List.mem_cons_self _ _)
          · rcases List.mem_cons.mp hx with hx | hx
            · subst hx
              exact ⟨hjlive, by simpa using hue⟩
            · exact huse2 x (List.mem_cons_of_mem _ hx)
        · have hjnot : j ∉ d :: wl := by
            intro hmem
            have h1 := (huse j hmem).2
            rw [use_empty_eq_false st d I (.inst j) hI hVmem] at h1
            cases h1
          have hnd1 := List.nodup_cons.mp hnd
          rw [List.nodup_cons]
          refine ⟨?_, List.nodup_cons.mpr ⟨fun hc => hjnot (List.mem_cons_of_mem _ hc), hnd1.2⟩⟩
          intro hc
          rcases List.mem_cons.mp hc with hc | hc
          · exact hjnot (hc ▸ List.mem_cons_self _ _)
          · exact hnd1.1 hc
      · exact ⟨_, _, rfl, hsame⟩
  | constInt b v => exact ⟨_, _, rfl, hsame⟩
  | other v => exact ⟨_, _, rfl, hsame⟩

theorem zapOperands_total (d : InstId) (ops : List Nat) :
    ∀ (st : State) (wl : List InstId), ZapInv st d ops wl →
      ∃ st2 wl2, zapOperands d ops st wl = .ok (st2, wl2) ∧ ZapInv st2 d [] wl2 := by
  induction ops with
  | nil =>
    intro st wl hinv
    exact ⟨st, wl, rfl, hinv⟩
  | cons op ops ih =>
    intro st wl hinv
    obtain ⟨stm, wlm, hz, hinvm⟩ := zapOperand_total st d op ops wl hinv
    obtain ⟨st2, wl2, hz2, hinv2⟩ := ih stm wlm hinvm
    refine ⟨st2, wl2, ?_, hinv2⟩
    simp only [zapOperands, hz]
    exact hz2

theorem use_empty_false_of_mem (st : State) (p : InstId × Instruction) (V : Value)
    (hp : p ∈ st.insts) (hV : some V ∈ p.2.operands) : st.use_empty V = false := by
  unfold State.use_empty
  rw [List.all_eq_false]
  refine ⟨p, hp, ?_⟩
  simp only [Bool.not_eq_true, List.all_eq_false]
  exact ⟨some V, hV, by simp⟩

theorem cascadeInv_after_zap (st2 : State) (d d1 : InstId) (wl1 : List InstId)
    (hinv : ZapInv st2 d [] (d1 :: wl1)) : CascadeInv (st2.eraseFromParent d) d1 wl1 := by
  obtain ⟨hothers, _, huse, hnd, _⟩ := hinv
  have hdue : st2.use_empty (.inst d) = true := (huse d (List.mem_cons_self _ _)).2
  have hnd1 := List.nodup_cons.mp hnd
  refine ⟨?_, ?_, hnd1.2⟩
  · intro p hp o ho
    have hp2 := List.mem_filter.mp hp
    have hne : p.1 ≠ d := by simpa using hp2.2
    obtain ⟨V, hV, hlive⟩ := hothers p hp2.1 hne o ho
    refine ⟨V, hV, fun j hj => ?_⟩
    have hjd : d ≠ j := by
      intro hc
      subst hc
      subst hj
      subst hV
      rw [use_empty_false_of_mem st2 p _ hp2.1 ho] at hdue
      cases hdue
    rw [getInst_eraseFromParent_ne st2 d j hjd]
    exact hlive j hj
  · intro x hx
    have hxd : d ≠ x := fun hc => hnd1.1 (hc ▸ hx)
    obtain ⟨hl, hu⟩ := huse x (List.mem_cons_of_mem _ hx)
    refine ⟨by rw [getInst_eraseFromParent_ne st2 d x hxd]; exact hl, ?_⟩
    exact use_empty_of_subset st2 _ _ (fun p hp => (List.mem_filter.mp hp).1) hu

theorem zapInv_of_cascadeInv (st : State) (d : InstId) (wl : List InstId) (I : Instruction)
    (hI : st.getInst d = some I) (hinv : CascadeInv st d wl) :
    ZapInv (st.forgetValue (.inst d)) d (List.range I.operands.length) wl := by
  obtain ⟨hlive, huse, hnd⟩ := hinv
  refine ⟨fun p hp _ o ho => hlive p hp o ho, ⟨I, hI, ?_⟩, huse, hnd, List.nodup_range _⟩
  intro i hi
  have hlt : i < I.operands.length := List.mem_range.mp hi
  have hget := List.get?_eq_get hlt
  exact ⟨_, hget, hlive (d, I) (mem_of_lookup_eq_some st.insts d I hI) _ (List.get?_mem hget)⟩

/-- On a graph whose operands are proper, started on instructions that are live,
distinct and without a use, the cascade returns. -/
theorem loopLog_total (fuel : Nat) :
    ∀ (st : State) (d : InstId) (wl P E : List InstId), CascadeInv st d wl →
      st.insts.length ≤ fuel →
      ∃ st1 P1 E1, DeleteDeadInstructionLoopLog fuel st d wl P E = .ok (st1, P1, E1) := by
  induction fuel with
  | zero =>
    intro st d wl P E hinv hlen
    obtain ⟨I, hI⟩ := Option.isSome_iff_exists.mp (hinv.2.1 d (List.mem_cons_self _ _)).1
    have := length_eraseAll_lt st d I hI
    omega
  | succ fuel ih =>
    intro st d wl P E hinv hlen
    obtain ⟨I, hI⟩ := Option.isSome_iff_exists.mp (hinv.2.1 d (List.mem_cons_self _ _)).1
    obtain ⟨st2, wl2, hz, hinv2⟩ :=
      zapOperands_total d _ _ wl (zapInv_of_cascadeInv st d wl I hI hinv)
    obtain ⟨z1, z2, z3, z4, _, _, _, _, _⟩ :=
      zapOperands_effect d _ (st.forgetValue (.inst d)) wl st2 wl2 hz
    have hst3 : st2.eraseFromParent d = st.eraseAll [d] :=
      eraseFromParent_after_zap st st2 d z1 z2 z3 z4
    have hlt := length_eraseAll_lt st d I hI
    unfold DeleteDeadInstructionLoopLog
    simp only [hI, hz]
    cases wl2 with
    | nil => exact ⟨_, _, _, rfl⟩
    | cons d1 wl1 =>
      simp only
      apply ih
      · exact cascadeInv_after_zap st2 d d1 wl1 hinv2
      · rw [hst3]
        omega

/-! ## Claims about the cascade -/

theorem properOperand_of_B (st : State) (o : Option Value) (h : properOperandB st o = true) :
    ProperOperand st o := by
  cases o with
  | none => cases h
  | some V =>
    refine ⟨V, rfl, fun j hj => ?_⟩
    subst hj
    exact h

theorem operandsLive_of_B (st : State) (h : operandsLiveB st = true) : OperandsLive st := by
  unfold operandsLiveB at h
  rw [List.all_eq_true] at h
  intro p hp o ho
  have h1 := h p hp
  rw [List.all_eq_true] at h1
  exact properOperand_of_B st o (h1 o ho)

/-! ## The order of the operations of the cascade -/

/-- The loop with the log of operations computes the same as the loop. -/
theorem dropEvents_loopEvents (fuel : Nat) :
    ∀ (st : State) (d : InstId) (wl : List InstId) (ev : List CascadeEvent),
      dropEvents (DeleteDeadInstructionLoopEvents fuel st d wl ev) =
        DeleteDeadInstructionLoop fuel st d wl := by
  induction fuel with
  | zero =>
    intro st d wl ev
    unfold DeleteDeadInstructionLoopEvents DeleteDeadInstructionLoop
    split <;> rfl
  | succ fuel ih =>
    intro st d wl ev
    unfold DeleteDeadInstructionLoopEvents DeleteDeadInstructionLoop
    split
    · rfl
    · simp only
      split
      · split
        · rfl
        · exact ih _ _ _ _
      · rfl
      · rfl

/-- The function with the log of operations computes the same state as
`DeleteDeadInstruction`. -/
theorem dropEvents_DeleteDeadInstructionEvents (st : State) (I : InstId) :
    dropEvents (DeleteDeadInstructionEvents st I) = DeleteDeadInstruction st I :=
  dropEvents_loopEvents _ st I [] []

theorem mem_erasedOf (ev : List CascadeEvent) (d : InstId) :
    d ∈ erasedOf ev ↔ CascadeEvent.eraseFromParent d ∈ ev := by
  induction ev with
  | nil => simp [erasedOf]
  | cons e es ih =>
    cases e with
    | forgetValue x =>
      show d ∈ erasedOf es ↔ _
      rw [ih]
      simp
    | setOperand x op =>
      show d ∈ erasedOf es ↔ _
      rw [ih]
      simp
    | eraseFromParent x =>
      show d ∈ x :: erasedOf es ↔ _
      rw [List.mem_cons, ih]
      simp

/-- The log of operations of the cascade on the program with shared operands. -/
theorem cascade_events_exStateShared :
    DeleteDeadInstructionEvents exStateShared 3
      = .ok (exStateSharedDeleted,
          [.forgetValue 3, .setOperand 3 0, .setOperand 3 1, .eraseFromParent 3,
           .forgetValue 2, .setOperand 2 0, .setOperand 2 1, .eraseFromParent 2,
           .forgetValue 5, .setOperand 5 0, .eraseFromParent 5,
           .forgetValue 1, .setOperand 1 0, .eraseFromParent 1]) := by
  decide

/-- C18: when `DeleteDeadInstruction` returns, every instruction it has
destroyed other than the root is a pure computation that no instruction of the
final state uses, and all its former users are destroyed too; and when the root
had no use, no instruction of the final state has an operand that refers to a
destroyed instruction. -/
theorem C18_only_dead_operands_destroyed (st : State) (root : InstId) (st1 : State)
    (h : DeleteDeadInstruction st root = .ok st1) :
    (∀ x, (st.getInst x).isSome → st1.getInst x = none → x ≠ root →
      (∃ J, st.getInst x = some J ∧ J.opcode.isPure) ∧
      st1.use_empty (.inst x) = true ∧
      ∀ u U, st.getInst u = some U → some (Value.inst x) ∈ U.operands →
        st1.getInst u = none) ∧
    (st.use_empty (.inst root) = true →
      ∀ k J j, st1.getInst k = some J → some (Value.inst j) ∈ J.operands →
        (st.getInst j).isSome → (st1.getInst j).isSome) := by
  obtain ⟨P, E, np, _, _, hst, _, hperm, hlive, hpure⟩ := DeleteDeadInstruction_ok st root st1 h
  have hget : ∀ k, st1.getInst k = if k ∈ E then none else st.getInst k := by
    intro k
    rw [hst, getInst_eraseAll]
  have hdestroyed : ∀ x, (st.getInst x).isSome → st1.getInst x = none → x ∈ E := by
    intro x h1 h2
    by_contra hx
    rw [hget, if_neg hx] at h2
    rw [h2] at h1
    cases h1
  constructor
  · intro x h1 h2 hxr
    have hxE := hdestroyed x h1 h2
    have hxnp : x ∈ np := by
      have := hperm.subset hxE
      rcases List.mem_append.mp this with hx | hx
      · exact hx
      · exact absurd (List.mem_singleton.mp hx) hxr
    obtain ⟨J, hJ, hp, hu⟩ := hpure x hxnp
    refine ⟨⟨J, hJ, hp⟩, hu, ?_⟩
    intro u U hU hmem
    by_contra hne
    have huE : u ∉ E := by
      intro hc
      rw [hget, if_pos hc] at hne
      exact hne rfl
    have hU1 : st1.getInst u = some U := by rw [hget, if_neg huE]; exact hU
    rw [use_empty_eq_false st1 u U _ hU1 hmem] at hu
    cases hu
  · intro hroot k J j hk hmem hj
    have hjE : j ∉ E := by
      intro hc
      have hue : st1.use_empty (.inst j) = true := by
        rcases List.mem_append.mp (hperm.subset hc) with hx | hx
        · exact (hpure j hx).choose_spec.2.2
        · rw [List.mem_singleton] at hx
          rw [hx, hst]
          exact use_empty_eraseAll st E _ hroot
      rw [use_empty_eq_false st1 k J _ hk hmem] at hue
      cases hue
    rw [hget, if_neg hjE]
    exact hj

theorem C18_only_dead_operands_destroyed_witness :
    (∀ x, (exStateVarFilled.getInst x).isSome → exStateVarRewritten.getInst x = none → x ≠ 3 →
      (∃ J, exStateVarFilled.getInst x = some J ∧ J.opcode.isPure) ∧
      exStateVarRewritten.use_empty (.inst x) = true ∧
      ∀ u U, exStateVarFilled.getInst u = some U → some (Value.inst x) ∈ U.operands →
        exStateVarRewritten.getInst u = none) ∧
    (exStateVarFilled.use_empty (.inst 3) = true →
      ∀ k J j, exStateVarRewritten.getInst k = some J → some (Value.inst j) ∈ J.operands →
        (exStateVarFilled.getInst j).isSome → (exStateVarRewritten.getInst j).isSome) :=
  C18_only_dead_operands_destroyed exStateVarFilled 3 exStateVarRewritten (by decide)

/-- C20: whenever `DeleteDeadInstruction` returns, in its log no instruction
was pushed on the worklist twice, none was erased twice, the instructions erased
are the ones pushed, each was live when the cascade began, and each one pushed
after the root is a pure computation without a use left (it was pushed when its
last use went); and on a graph whose operands are proper, started on a live root
without a use, it does return, so the worklist never yields a destroyed
instruction. -/
theorem C20_worklist_without_duplicates (st : State) (root : InstId) :
    (∀ st1, DeleteDeadInstruction st root = .ok st1 →
      ∃ P E, DeleteDeadInstructionLog st root = .ok (st1, P, E) ∧
        P.Nodup ∧ E.Nodup ∧ List.Perm E P ∧
        (∀ x ∈ P, (st.getInst x).isSome ∧ st1.getInst x = none) ∧
        (∀ x ∈ P, x ≠ root → (∃ J, st.getInst x = some J ∧ J.opcode.isPure) ∧
          st1.use_empty (.inst x) = true)) ∧
    (OperandsLive st → (st.getInst root).isSome → st.use_empty (.inst root) = true →
      ∃ st1, DeleteDeadInstruction st root = .ok st1) := by
  constructor
  · intro st1 h
    obtain ⟨P, E, np, hlog, hP, hst, nd, pm, lv, pu⟩ := DeleteDeadInstruction_ok st root st1 h
    subst hP
    refine ⟨_, E, hlog, (pm.nodup_iff).mp nd, nd, pm, ?_, ?_⟩
    · intro x hx
      have hxE := pm.symm.subset hx
      exact ⟨lv x hxE, by rw [hst, getInst_eraseAll, if_pos hxE]⟩
    · intro x hx hxr
      rcases List.mem_append.mp hx with hx | hx
      · obtain ⟨J, hJ, hp, hu⟩ := pu x hx
        exact ⟨⟨J, hJ, hp⟩, hu⟩
      · exact absurd (List.mem_singleton.mp hx) hxr
  · intro hops hlive huse
    have hinv : CascadeInv st root [] := by
      refine ⟨hops, ?_, List.nodup_singleton root⟩
      intro x hx
      rw [List.mem_singleton] at hx
      rw [hx]
      exact ⟨hlive, huse⟩
    obtain ⟨st1, P, E, hlog⟩ := loopLog_total _ st root [] [root] [] hinv (le_refl _)
    refine ⟨st1, ?_⟩
    rw [← dropLog_DeleteDeadInstructionLog]
    show dropLog (DeleteDeadInstructionLoopLog _ st root [] [root] []) = _
    rw [hlog]
    rfl

theorem C20_worklist_without_duplicates_witness :
    (∃ P E, DeleteDeadInstructionLog exStateShared 3 = .ok (exStateSharedDeleted, P, E) ∧
        P.Nodup ∧ E.Nodup ∧ List.Perm E P ∧
        (∀ x ∈ P, (exStateShared.getInst x).isSome ∧ exStateSharedDeleted.getInst x = none) ∧
        (∀ x ∈ P, x ≠ 3 → (∃ J, exStateShared.getInst x = some J ∧ J.opcode.isPure) ∧
          exStateSharedDeleted.use_empty (.inst x) = true)) ∧
    (∃ st1, DeleteDeadInstruction exStateShared 3 = .ok st1) :=
  ⟨(C20_worklist_without_duplicates exStateShared 3).1 exStateSharedDeleted (by decide),
   (C20_worklist_without_duplicates exStateShared 3).2 (operandsLive_of_B _ (by decide))
    (by decide) (by decide)⟩

/-- The log of the cascade on the program with shared operands: `%1`, used by
`%5` and twice by `%2`, is pushed once, when its last use goes. -/
theorem cascade_log_exStateShared :
    DeleteDeadInstructionLog exStateShared 3
      = .ok (exStateSharedDeleted, [1, 2, 5, 3], [1, 5, 2, 3]) := by
  decide

/-! ## The state with the fill -/

theorem insts_withFill (TD : TargetData) (st : State) (T : InstId) (I : Instruction)
    (StoreSize : Nat) (SplatValue : Value) (start BECount : SCEV) :
    (withFill TD st T I StoreSize SplatValue start BECount).insts =
      st.insts ++ fillInsts TD st I StoreSize SplatValue start BECount := by
  simp [withFill, CreateMemSet, expandCodeFor, State.insertBefore, fillInsts, baseInst,
    lengthInst, fillInst]

theorem nextId_withFill (TD : TargetData) (st : State) (T : InstId) (I : Instruction)
    (StoreSize : Nat) (SplatValue : Value) (start BECount : SCEV) :
    (withFill TD st T I StoreSize SplatValue start BECount).nextId = st.nextId + 3 := rfl

theorem scalars_withFill (TD : TargetData) (st : State) (T : InstId) (I : Instruction)
    (StoreSize : Nat) (SplatValue : Value) (start BECount : SCEV) :
    (withFill TD st T I StoreSize SplatValue start BECount).Scalars = st.Scalars := rfl

theorem lookup_blocks_withFill (TD : TargetData) (st : State) (T : InstId) (I : Instruction)
    (StoreSize : Nat) (SplatValue : Value) (start BECount : SCEV) (bb : BlockId) :
    (withFill TD st T I StoreSize SplatValue start BECount).blocks.lookup bb =
      (st.blocks.lookup bb).map (fun l =>
        insertBeforeInList (st.nextId + 2) T
          (insertBeforeInList (st.nextId + 1) T (insertBeforeInList st.nextId T l))) := by
  have h : (withFill TD st T I StoreSize SplatValue start BECount).blocks =
      st.blocks.map (fun b => (b.1, insertBeforeInList (st.nextId + 2) T
          (insertBeforeInList (st.nextId + 1) T (insertBeforeInList st.nextId T b.2)))) := by
    simp [withFill, CreateMemSet, expandCodeFor, State.insertBefore, List.map_map,
      Function.comp_def]
  rw [h]
  exact lookup_map_snd st.blocks (fun l => insertBeforeInList (st.nextId + 2) T
    (insertBeforeInList (st.nextId + 1) T (insertBeforeInList st.nextId T l))) bb

theorem freshIds_withFill (TD : TargetData) (st : State) (T : InstId) (I : Instruction)
    (StoreSize : Nat) (SplatValue : Value) (start BECount : SCEV) (hfresh : FreshIds st) :
    FreshIds (withFill TD st T I StoreSize SplatValue start BECount) :=
  freshIds_insertBefore _ T _ (freshIds_insertBefore _ T _ (freshIds_insertBefore st T _ hfresh))

/-- An instruction of the state with the fill is an instruction of the state
before, unless it is one of the three new ones. -/
theorem getInst_withFill_old (TD : TargetData) (st : State) (T : InstId) (I : Instruction)
    (StoreSize : Nat) (SplatValue : Value) (start BECount : SCEV) (k : Nat)
    (hk : k < st.nextId) :
    (withFill TD st T I StoreSize SplatValue start BECount).getInst k = st.getInst k := by
  unfold State.getInst
  rw [insts_withFill, List.lookup_append]
  have h1 : (fillInsts TD st I StoreSize SplatValue start BECount).lookup k = none := by
    have a0 : (k == st.nextId) = false := beq_false_of_ne (Nat.ne_of_lt hk)
    have a1 : (k == st.nextId + 1) = false := beq_false_of_ne (by omega)
    have a2 : (k == st.nextId + 2) = false := beq_false_of_ne (by omega)
    simp only [fillInsts, List.lookup_cons, a0, a1, a2, List.lookup_nil]
  rw [h1]
  cases st.insts.lookup k <;> rfl

theorem lt_of_getInst_withFill (TD : TargetData) (st : State) (T : InstId) (I : Instruction)
    (StoreSize : Nat) (SplatValue : Value) (start BECount : SCEV) (hfresh : FreshIds st)
    (k : Nat) (hlive : ((withFill TD st T I StoreSize SplatValue start BECount).getInst k).isSome)
    (h0 : k ≠ st.nextId) (h1 : k ≠ st.nextId + 1) (h2 : k ≠ st.nextId + 2) :
    k < st.nextId := by
  obtain ⟨J, hJ⟩ := Option.isSome_iff_exists.mp hlive
  have := lt_nextId_of_getInst _ (freshIds_withFill TD st T I StoreSize SplatValue start BECount
    hfresh) k J hJ
  have h3 : k < st.nextId + 3 := this
  omega

/-- The shape of a rewrite: when `processLoopStore` returns true the final state
is the state with the fill, without the instructions `E` the cascade has erased:
the store and pure instructions of the state before that have no use left. -/
theorem processLoopStore_rewrite (A : Analyses) (TD : TargetData) (CurLoop : Loop)
    (st : State) (SI : InstId) (BECount : SCEV) (st1 : State) (hfresh : FreshIds st)
    (h : processLoopStore A TD CurLoop st SI BECount = .ok (true, st1)) :
    ∃ I StoredVal StorePtr start bits SplatValue Preheader T E np,
      st.getInst SI = some I ∧ I.operands = [some StoredVal, some StorePtr] ∧
      A.SE.getSCEV StorePtr =
        .addRecExpr start (.constant bits (TD.getTypeSizeInBits (A.getType StoredVal) / 8)) 0
          CurLoop.id ∧
      A.isBytewiseValue StoredVal = some SplatValue ∧
      CurLoop.preheader = some Preheader ∧ st.getTerminator Preheader = some T ∧
      st1 = (withFill TD st T I (TD.getTypeSizeInBits (A.getType StoredVal) / 8) SplatValue
        start BECount).eraseAll E ∧
      E.Nodup ∧ List.Perm E (np ++ [SI]) ∧
      (∀ x ∈ E, x < st.nextId) ∧
      (∀ x ∈ np, ∃ J, st.getInst x = some J ∧ J.opcode.isPure ∧
        st1.use_empty (.inst x) = true) := by
  obtain ⟨I, StoredVal, StorePtr, start, bits, SplatValue, Preheader, T, hI, hops, _, _, _,
    hev, hsplat, hpre, hT, hdel⟩ := processLoopStore_true A TD CurLoop st SI BECount st1 h
  obtain ⟨P, E, np, _, _, hst, hnd, hperm, hlive, hpure⟩ := DeleteDeadInstruction_ok _ SI st1 hdel
  have hlt := lt_nextId_of_getInst st hfresh SI I hI
  have hint : Intact (fillInsts TD st I (TD.getTypeSizeInBits (A.getType StoredVal) / 8)
      SplatValue start BECount) st1 := by
    refine (DeleteDeadInstructionLoop_frame _ (neverDead_fillInsts TD st I _ SplatValue start
      BECount) _ _ SI [] st1 hdel (intact_withFill TD st T I _ SplatValue start BECount hfresh)
      ?_ (fun x hx => by cases hx)).1
    intro p hp
    simp only [fillInsts, List.mem_cons, List.mem_singleton, List.not_mem_nil, or_false] at hp
    rcases hp with hp | hp | hp <;> subst hp <;> exact Nat.ne_of_gt (by
      first
      | exact hlt
      | exact Nat.lt_add_right _ hlt)
  have hnew : ∀ p ∈ fillInsts TD st I (TD.getTypeSizeInBits (A.getType StoredVal) / 8)
      SplatValue start BECount, p.1 ∉ E := by
    intro p hp hmem
    have h1 := hint p hp
    rw [hst, getInst_eraseAll, if_pos hmem] at h1
    cases h1
  have hEold : ∀ x ∈ E, x < st.nextId := by
    intro x hx
    refine lt_of_getInst_withFill TD st T I _ SplatValue start BECount hfresh x (hlive x hx)
      ?_ ?_ ?_
    · intro hc
      exact hnew _ (List.mem_cons_self _ _) (hc ▸ hx)
    · intro hc
      exact hnew _ (List.mem_cons_of_mem _ (List.mem_cons_self _ _)) (hc ▸ hx)
    · intro hc
      exact hnew _ (List.mem_cons_of_mem _ (List.mem_cons_of_mem _ (List.mem_cons_self _ _)))
        (hc ▸ hx)
  refine ⟨I, StoredVal, StorePtr, start, bits, SplatValue, Preheader, T, E, np, hI, hops, hev,
    hsplat, hpre, hT, hst, hnd, hperm, hEold, ?_⟩
  intro x hx
  obtain ⟨J, hJ, hp, hu⟩ := hpure x hx
  have hxE : x ∈ E := hperm.symm.subset (List.mem_append_left _ hx)
  rw [getInst_withFill_old TD st T I _ SplatValue start BECount x (hEold x hxE)] at hJ
  exact ⟨J, hJ, hp, hu⟩

/-- Inserting in front of the first occurrence of `pos`. -/
theorem insertBeforeInList_append (x pos : InstId) (a b : List InstId) (ha : pos ∉ a) :
    insertBeforeInList x pos (a ++ pos :: b) = a ++ x :: pos :: b := by
  induction a with
  | nil => simp [insertBeforeInList]
  | cons y ys ih =>
    have hy : y ≠ pos := fun hc => ha (hc ▸ List.mem_cons_self _ _)
    have hys : pos ∉ ys := fun hc => ha (List.mem_cons_of_mem _ hc)
    show insertBeforeInList x pos (y :: (ys ++ pos :: b)) = y :: (ys ++ x :: pos :: b)
    rw [insertBeforeInList, if_neg hy, ih hys]

theorem insertBeforeInList_of_not_mem (x pos : InstId) (l : List InstId) (h : pos ∉ l) :
    insertBeforeInList x pos l = l := by
  induction l with
  | nil => rfl
  | cons y ys ih =>
    have hy : y ≠ pos := fun hc => h (hc ▸ List.mem_cons_self _ _)
    have hys : pos ∉ ys := fun hc => h (List.mem_cons_of_mem _ hc)
    simp only [insertBeforeInList, if_neg hy, ih hys]

/-- A list that holds `pos` splits at the first occurrence of `pos`. -/
theorem split_at_first (pos : InstId) (l : List InstId) (h : pos ∈ l) :
    ∃ a b, l = a ++ pos :: b ∧ pos ∉ a := by
  induction l with
  | nil => cases h
  | cons y ys ih =>
    by_cases hy : y = pos
    · exact ⟨[], ys, by rw [hy]; rfl, List.not_mem_nil _⟩
    · rcases List.mem_cons.mp h with h1 | h1
      · exact absurd h1.symm hy
      · obtain ⟨a, b, hab, hna⟩ := ih h1
        refine ⟨y :: a, b, by rw [hab]; rfl, ?_⟩
        intro hc
        rcases List.mem_cons.mp hc with h2 | h2
        · exact hy h2.symm
        · exact hna h2

theorem mem_of_insertBeforeInList (x pos y : InstId) (l : List InstId)
    (h : y ∈ insertBeforeInList x pos l) : y = x ∨ y ∈ l := by
  by_cases hp : pos ∈ l
  · obtain ⟨a, b, hab, hna⟩ := split_at_first pos l hp
    rw [hab, insertBeforeInList_append x pos a b hna] at h
    rw [hab]
    simp only [List.mem_append, List.mem_cons] at h ⊢
    tauto
  · rw [insertBeforeInList_of_not_mem x pos l hp] at h
    exact Or.inr h

theorem getTerminator_some (st : State) (bb : BlockId) (T : InstId)
    (h : st.getTerminator bb = some T) :
    ∃ l I, st.blocks.lookup bb = some l ∧ l.getLast? = some T ∧ st.getInst T = some I ∧
      I.opcode = .terminator := by
  unfold State.getTerminator at h
  split at h
  · cases h
  · next l hl =>
    split at h
    · cases h
    · next t ht =>
      split at h
      · next I hI =>
        split at h
        · next hop =>
          have := Option.some.inj h
          subst this
          exact ⟨l, I, hl, ht, hI, hop⟩
        · cases h
      · cases h

theorem getLast?_filter (p : InstId → Bool) (t : InstId) :
    ∀ l : List InstId, l.getLast? = some t → p t = true → (l.filter p).getLast? = some t := by
  intro l
  induction l with
  | nil => intro h; cases h
  | cons x xs ih =>
    intro h hp
    cases xs with
    | nil =>
      simp only [List.getLast?_singleton, Option.some.injEq] at h
      subst h
      simp [List.filter, hp]
    | cons y ys =>
      rw [List.getLast?_cons_cons] at h
      have h1 := ih h hp
      rw [List.filter_cons]
      split
      · cases hr : List.filter p (y :: ys) with
        | nil => rw [hr] at h1; cases h1
        | cons z zs =>
          rw [List.getLast?_cons_cons, ← hr]
          exact h1
      · exact h1

theorem getLast?_append_cons_cons (a b : List InstId) (x y : InstId) :
    (a ++ x :: y :: b).getLast? = (y :: b).getLast? := by
  induction a with
  | nil => exact List.getLast?_cons_cons
  | cons z zs ih =>
    cases hzs : zs ++ x :: y :: b with
    | nil => simp at hzs
    | cons w ws =>
      show (z :: (zs ++ x :: y :: b)).getLast? = _
      rw [hzs, List.getLast?_cons_cons, ← hzs]
      exact ih

/-- The preheader of the state with the fill: the three new instructions stand
in a row right in front of the terminator. -/
theorem preheader_withFill (TD : TargetData) (st : State) (T : InstId) (I : Instruction)
    (StoreSize : Nat) (SplatValue : Value) (start BECount : SCEV) (hfresh : FreshIds st)
    (Preheader : BlockId) (hT : st.getTerminator Preheader = some T) :
    ∃ a b J, st.blocks.lookup Preheader = some (a ++ T :: b) ∧ T ∉ a ∧
      (T :: b).getLast? = some T ∧ st.getInst T = some J ∧ J.opcode = .terminator ∧
      (withFill TD st T I StoreSize SplatValue start BECount).blocks.lookup Preheader =
        some (a ++ st.nextId :: (st.nextId + 1) :: (st.nextId + 2) :: T :: b) := by
  obtain ⟨l, J, hl, hlast, hJ, hop⟩ := getTerminator_some st Preheader T hT
  have hmem : T ∈ l := List.mem_of_getLast?_eq_some hlast
  obtain ⟨a, b, hab, hna⟩ := split_at_first T l hmem
  have hTlt : T < st.nextId := lt_nextId_of_getInst st hfresh T J hJ
  have hlast2 : (T :: b).getLast? = some T := by
    rw [hab] at hlast
    cases b with
    | nil => rfl
    | cons y ys =>
      rw [getLast?_append_cons_cons] at hlast
      rw [List.getLast?_cons_cons]
      exact hlast
  refine ⟨a, b, J, by rw [hl, hab], hna, hlast2, hJ, hop, ?_⟩
  rw [lookup_blocks_withFill, hl, hab]
  simp only [Option.map_some', Option.some.injEq]
  rw [insertBeforeInList_append _ T a b hna]
  have e1 : a ++ st.nextId :: T :: b = (a ++ [st.nextId]) ++ T :: b := by simp
  have n1 : T ∉ a ++ [st.nextId] := by
    intro hc
    rcases List.mem_append.mp hc with hc | hc
    · exact hna hc
    · rw [List.mem_singleton] at hc
      rw [hc] at hTlt
      exact Nat.lt_irrefl _ hTlt
  rw [e1, insertBeforeInList_append _ T _ b n1]
  have e2 : (a ++ [st.nextId]) ++ (st.nextId + 1) :: T :: b =
      (a ++ [st.nextId, st.nextId + 1]) ++ T :: b := by simp
  have n2 : T ∉ a ++ [st.nextId, st.nextId + 1] := by
    intro hc
    rcases List.mem_append.mp hc with hc | hc
    · exact hna hc
    · simp only [List.mem_cons, List.mem_singleton, List.not_mem_nil, or_false] at hc
      rcases hc with hc | hc
      · rw [hc] at hTlt
        exact Nat.lt_irrefl _ hTlt
      · rw [hc] at hTlt
        exact absurd hTlt (by simp)
  rw [e2, insertBeforeInList_append _ T _ b n2]
  simp

theorem lookup_blocks_eraseAll (st : State) (E : List InstId) (bb : BlockId) :
    (st.eraseAll E).blocks.lookup bb =
      (st.blocks.lookup bb).map (fun l => l.filter (fun j => decide (j ∉ E))) :=
  lookup_map_snd st.blocks (fun l => l.filter (fun j => decide (j ∉ E))) bb

theorem not_mem_blocks_eraseAll (st : State) (E : List InstId) (bb : BlockId)
    (l : List InstId) (h : (st.eraseAll E).blocks.lookup bb = some l) (x : InstId)
    (hx : x ∈ E) : x ∉ l := by
  rw [lookup_blocks_eraseAll] at h
  cases hl : st.blocks.lookup bb with
  | none => rw [hl] at h; cases h
  | some l0 =>
    rw [hl] at h
    simp only [Option.map_some', Option.some.injEq] at h
    subst h
    intro hc
    have := (List.mem_filter.mp hc).2
    simp only [decide_eq_true_eq] at this
    exact this hx

/-- C11: when `processLoopStore` rewrites a store, the fills of the final state
are the fills of the state before and one more, `%(nextId + 2)`; its destination
is `%nextId`, the code of the start of the address recurrence, its byte is the
splat byte of the classifier, its length is `%(nextId + 1)`, its alignment and
address space are those of the store; the three new instructions stand in the
preheader in a row right in front of its terminator, which is still its
terminator; and the store is destroyed and is in no block. -/
theorem C11_one_fill_in_preheader (A : Analyses) (TD : TargetData) (CurLoop : Loop)
    (st : State) (SI : InstId) (BECount : SCEV) (st1 : State) (v : Bool)
    (hfresh : FreshIds st)
    (hstore : ∃ I, st.getInst SI = some I ∧ I.opcode = .store v)
    (h : processLoopStore A TD CurLoop st SI BECount = .ok (true, st1)) :
    ∃ I StoredVal StorePtr start bits SplatValue Preheader T a b,
      st.getInst SI = some I ∧ I.operands = [some StoredVal, some StorePtr] ∧
      A.SE.getSCEV StorePtr =
        .addRecExpr start (.constant bits (TD.getTypeSizeInBits (A.getType StoredVal) / 8)) 0
          CurLoop.id ∧
      A.isBytewiseValue StoredVal = some SplatValue ∧
      CurLoop.preheader = some Preheader ∧ st.getTerminator Preheader = some T ∧
      (∀ k, (∃ J, st1.getInst k = some J ∧ J.opcode = .memset) ↔
        ((∃ J, st.getInst k = some J ∧ J.opcode = .memset) ∨ k = st.nextId + 2)) ∧
      st1.getInst (st.nextId + 2) =
        some { opcode := .memset
               operands := [some (.inst st.nextId), some SplatValue,
                            some (.inst (st.nextId + 1)), some (.constInt 32 I.alignment),
                            some (.constInt 1 0)]
               alignment := I.alignment, addrSpace := I.addrSpace } ∧
      st1.getInst st.nextId = some (baseInst start I.addrSpace) ∧
      st1.getInst (st.nextId + 1) =
        some (lengthInst (NumBytesS TD BECount
          (TD.getTypeSizeInBits (A.getType StoredVal) / 8))) ∧
      st1.blocks.lookup Preheader =
        some (a ++ st.nextId :: (st.nextId + 1) :: (st.nextId + 2) :: T :: b) ∧
      st1.getTerminator Preheader = some T ∧
      st1.getInst SI = none ∧ ∀ bb l, st1.blocks.lookup bb = some l → SI ∉ l := by
  obtain ⟨I, StoredVal, StorePtr, start, bits, SplatValue, Preheader, T, E, np, hI, hops, hev,
    hsplat, hpre, hT, hst, hnd, hperm, hEold, hpure⟩ :=
    processLoopStore_rewrite A TD CurLoop st SI BECount st1 hfresh h
  obtain ⟨I0, hI0, hop0⟩ := hstore
  rw [hI] at hI0
  have hII := Option.some.inj hI0
  subst hII
  obtain ⟨a, b, JT, hl, hna, hlast, hJT, hopT, hlw⟩ :=
    preheader_withFill TD st T I (TD.getTypeSizeInBits (A.getType StoredVal) / 8) SplatValue
      start BECount hfresh Preheader hT
  have hSIE : SI ∈ E := hperm.symm.subset (by simp)
  -- what the cascade has erased is the store or is pure
  have hE : ∀ x ∈ E, x = SI ∨ ∃ J, st.getInst x = some J ∧ J.opcode.isPure := by
    intro x hx
    rcases List.mem_append.mp (hperm.subset hx) with hx | hx
    · obtain ⟨J, hJ, hp, _⟩ := hpure x hx
      exact Or.inr ⟨J, hJ, hp⟩
    · exact Or.inl (List.mem_singleton.mp hx)
  have hTE : T ∉ E := by
    intro hc
    rcases hE T hc with hx | ⟨J, hJ, hp⟩
    · rw [hx, hI] at hJT
      have := Option.some.inj hJT
      rw [← this, hop0] at hopT
      cases hopT
    · rw [hJT] at hJ
      have := Option.some.inj hJ
      rw [← this] at hp
      exact hp.2 hopT
  have hn0 : st.nextId ∉ E := fun hc => Nat.lt_irrefl _ (hEold _ hc)
  have hn1 : st.nextId + 1 ∉ E := fun hc => absurd (hEold _ hc) (by simp)
  have hn2 : st.nextId + 2 ∉ E := fun hc => absurd (hEold _ hc) (by simp)
  have hint := intact_withFill TD st T I (TD.getTypeSizeInBits (A.getType StoredVal) / 8)
    SplatValue start BECount hfresh
  have hget : ∀ k, st1.getInst k = if k ∈ E then none else
      (withFill TD st T I (TD.getTypeSizeInBits (A.getType StoredVal) / 8) SplatValue start
        BECount).getInst k := by
    intro k
    rw [hst, getInst_eraseAll]
  have g0 : st1.getInst st.nextId = some (baseInst start I.addrSpace) := by
    rw [hget, if_neg hn0]
    exact hint _ (List.mem_cons_self _ _)
  have g1 : st1.getInst (st.nextId + 1) = some (lengthInst (NumBytesS TD BECount
      (TD.getTypeSizeInBits (A.getType StoredVal) / 8))) := by
    rw [hget, if_neg hn1]
    exact hint _ (List.mem_cons_of_mem _ (List.mem_cons_self _ _))
  have g2 : st1.getInst (st.nextId + 2) = some (fillInst st I SplatValue) := by
    rw [hget, if_neg hn2]
    exact hint _ (List.mem_cons_of_mem _ (List.mem_cons_of_mem _ (List.mem_cons_self _ _)))
  have hblock : st1.blocks.lookup Preheader =
      some (a.filter (fun j => decide (j ∉ E)) ++
        st.nextId :: (st.nextId + 1) :: (st.nextId + 2) :: T ::
          b.filter (fun j => decide (j ∉ E))) := by
    rw [hst, lookup_blocks_eraseAll, hlw]
    simp only [Option.map_some', Option.some.injEq, List.filter_append]
    rw [List.filter_cons_of_pos (by simpa using hn0), List.filter_cons_of_pos (by simpa using hn1),
      List.filter_cons_of_pos (by simpa using hn2), List.filter_cons_of_pos (by simpa using hTE)]
  refine ⟨I, StoredVal, StorePtr, start, bits, SplatValue, Preheader, T, _, _, hI, hops, hev,
    hsplat, hpre, hT, ?_, g2, g0, g1, hblock, ?_, ?_, ?_⟩
  · intro k
    constructor
    · rintro ⟨J, hJ, hop⟩
      by_cases hk : k < st.nextId
      · left
        by_cases hkE : k ∈ E
        · rw [hget, if_pos hkE] at hJ
          cases hJ
        · rw [hget, if_neg hkE, getInst_withFill_old TD st T I _ SplatValue start BECount k hk]
            at hJ
          exact ⟨J, hJ, hop⟩
      · right
        by_contra hk2
        by_cases hk0 : k = st.nextId
        · rw [hk0, g0] at hJ
          have := Option.some.inj hJ
          rw [← this] at hop
          cases hop
        · by_cases hk1 : k = st.nextId + 1
          · rw [hk1, g1] at hJ
            have := Option.some.inj hJ
            rw [← this] at hop
            cases hop
          · by_cases hkE : k ∈ E
            · exact hk (hEold k hkE)
            · rw [hget, if_neg hkE] at hJ
              exact hk (lt_of_getInst_withFill TD st T I _ SplatValue start BECount hfresh k
                (by rw [hJ]; rfl) hk0 hk1 hk2)
    · rintro (⟨J, hJ, hop⟩ | hk)
      · have hkE : k ∉ E := by
          intro hc
          rcases hE k hc with hx | ⟨J2, hJ2, hp⟩
          · rw [hx, hI] at hJ
            have := Option.some.inj hJ
            rw [← this, hop0] at hop
            cases hop
          · rw [hJ] at hJ2
            have := Option.some.inj hJ2
            rw [← this, hop] at hp
            exact absurd hp.1 (by decide)
        refine ⟨J, ?_, hop⟩
        rw [hget, if_neg hkE, getInst_withFill_old TD st T I _ SplatValue start BECount k
          (lt_nextId_of_getInst st hfresh k J hJ)]
        exact hJ
      · rw [hk]
        exact ⟨_, g2, rfl⟩
  · unfold State.getTerminator
    rw [hblock]
    simp only
    have hl2 : (a.filter (fun j => decide (j ∉ E)) ++
        st.nextId :: (st.nextId + 1) :: (st.nextId + 2) :: T ::
          b.filter (fun j => decide (j ∉ E))).getLast? = some T := by
      have e : a.filter (fun j => decide (j ∉ E)) ++
          st.nextId :: (st.nextId + 1) :: (st.nextId + 2) :: T ::
            b.filter (fun j => decide (j ∉ E)) =
          (a.filter (fun j => decide (j ∉ E)) ++ [st.nextId, st.nextId + 1]) ++
            (st.nextId + 2) :: T :: b.filter (fun j => decide (j ∉ E)) := by simp
      rw [e, getLast?_append_cons_cons]
      have := getLast?_filter (fun j => decide (j ∉ E)) T (T :: b) hlast (by simpa using hTE)
      rw [List.filter_cons_of_pos (by simpa using hTE)] at this
      exact this
    rw [hl2]
    simp only
    rw [hget, if_neg hTE, getInst_withFill_old TD st T I _ SplatValue start BECount T
      (lt_nextId_of_getInst st hfresh T JT hJT), hJT]
    simp only [hopT, if_true]
  · rw [hget, if_pos hSIE]
  · intro bb l hl2
    rw [hst] at hl2
    exact not_mem_blocks_eraseAll _ E bb l hl2 SI hSIE

theorem C11_one_fill_in_preheader_witness :
    processLoopStore (exA 64 1 exBECount) (exTD 64) exLoop (exState false (.constInt 8 0xAA)) 3
        exBECount
      = .ok (true, exRewritten 64 (.constInt 8 0xAA) (NumBytesS (exTD 64) exBECount 1)) ∧
    (∃ I StoredVal StorePtr start bits SplatValue Preheader T a b,
      (exState false (.constInt 8 0xAA)).getInst 3 = some I ∧
      I.operands = [some StoredVal, some StorePtr] ∧
      (exA 64 1 exBECount).SE.getSCEV StorePtr =
        .addRecExpr start (.constant bits
          ((exTD 64).getTypeSizeInBits ((exA 64 1 exBECount).getType StoredVal) / 8)) 0
          exLoop.id ∧
      (exA 64 1 exBECount).isBytewiseValue StoredVal = some SplatValue ∧
      exLoop.preheader = some Preheader ∧
      (exState false (.constInt 8 0xAA)).getTerminator Preheader = some T ∧
      (∀ k, (∃ J, (exRewritten 64 (.constInt 8 0xAA)
            (NumBytesS (exTD 64) exBECount 1)).getInst k = some J ∧ J.opcode = .memset) ↔
        ((∃ J, (exState false (.constInt 8 0xAA)).getInst k = some J ∧ J.opcode = .memset) ∨
          k = (exState false (.constInt 8 0xAA)).nextId + 2)) ∧
      (exRewritten 64 (.constInt 8 0xAA) (NumBytesS (exTD 64) exBECount 1)).getInst
          ((exState false (.constInt 8 0xAA)).nextId + 2) =
        some { opcode := .memset
               operands := [some (.inst (exState false (.constInt 8 0xAA)).nextId),
                            some SplatValue,
                            some (.inst ((exState false (.constInt 8 0xAA)).nextId + 1)),
                            some (.constInt 32 I.alignment), some (.constInt 1 0)]
               alignment := I.alignment, addrSpace := I.addrSpace } ∧
      (exRewritten 64 (.constInt 8 0xAA) (NumBytesS (exTD 64) exBECount 1)).getInst
          (exState false (.constInt 8 0xAA)).nextId = some (baseInst start I.addrSpace) ∧
      (exRewritten 64 (.constInt 8 0xAA) (NumBytesS (exTD 64) exBECount 1)).getInst
          ((exState false (.constInt 8 0xAA)).nextId + 1) =
        some (lengthInst (NumBytesS (exTD 64) exBECount
          ((exTD 64).getTypeSizeInBits ((exA 64 1 exBECount).getType StoredVal) / 8))) ∧
      (exRewritten 64 (.constInt 8 0xAA) (NumBytesS (exTD 64) exBECount 1)).blocks.lookup
          Preheader =
        some (a ++ (exState false (.constInt 8 0xAA)).nextId ::
          ((exState false (.constInt 8 0xAA)).nextId + 1) ::
          ((exState false (.constInt 8 0xAA)).nextId + 2) :: T :: b) ∧
      (exRewritten 64 (.constInt 8 0xAA) (NumBytesS (exTD 64) exBECount 1)).getTerminator
          Preheader = some T ∧
      (exRewritten 64 (.constInt 8 0xAA) (NumBytesS (exTD 64) exBECount 1)).getInst 3 = none ∧
      ∀ bb l, (exRewritten 64 (.constInt 8 0xAA)
          (NumBytesS (exTD 64) exBECount 1)).blocks.lookup bb = some l → 3 ∉ l) ∧
    (∀ (ρ : Value → Nat) (iter : LoopId → Nat) (N : Nat), ρ (.other 1) = N → 0 < N →
      N < 2 ^ 64 → (NumBytesS (exTD 64) exBECount 1).eval ρ iter = N) :=
  ⟨by decide,
   C11_one_fill_in_preheader (exA 64 1 exBECount) (exTD 64) exLoop
    (exState false (.constInt 8 0xAA)) 3 exBECount
    (exRewritten 64 (.constInt 8 0xAA) (NumBytesS (exTD 64) exBECount 1)) false
    (freshIds_exState _ _) ⟨_, rfl, rfl⟩ (by decide),
   fun ρ iter N h0 hpos hlt => by
    have hb : exBECount.eval ρ iter = N - 1 := by
      simp only [exBECount, SCEV.eval, SCEV.getTypeSizeInBits, h0]
      norm_num at hlt ⊢
      omega
    rw [NumBytesS_eval, hb, specFillLength_exact]
    · omega
    · show (N - 1 + 1) * 1 < 2 ^ 64
      omega⟩

/-! ## A rewrite is all or nothing -/

theorem processLoopStore_ne_timeout (A : Analyses) (TD : TargetData) (CurLoop : Loop)
    (st : State) (SI : InstId) (BECount : SCEV) :
    processLoopStore A TD CurLoop st SI BECount ≠ .timeout := by
  intro h
  unfold processLoopStore at h
  split at h
  · cases h
  · split at h
    · simp only at h
      split at h
      · cases h
      · split at h
        · split at h
          · cases h
          · split at h
            · split at h
              · cases h
              · split at h
                · unfold processLoopStoreOfSplatValue at h
                  split at h
                  · cases h
                  · split at h
                    · simp only at h
                      split at h
                      · cases h
                      · cases h
                      · next hdel =>
                        exact (loop_fuel_enough _ SI [] _ (le_refl _)).2 hdel
                    · cases h
                · cases h
            · cases h
        · cases h
    · cases h

theorem isSome_getInst_withFill (TD : TargetData) (st : State) (T : InstId) (I : Instruction)
    (StoreSize : Nat) (SplatValue : Value) (start BECount : SCEV) (hfresh : FreshIds st)
    (j : Nat) (h : (st.getInst j).isSome) :
    ((withFill TD st T I StoreSize SplatValue start BECount).getInst j).isSome := by
  obtain ⟨J, hJ⟩ := Option.isSome_iff_exists.mp h
  rw [getInst_withFill_old TD st T I StoreSize SplatValue start BECount j
    (lt_nextId_of_getInst st hfresh j J hJ)]
  exact h

/-- The state with the fill is fit for the cascade on the store: its operands
are proper and the store is live and without a use. -/
theorem cascadeInv_withFill (TD : TargetData) (st : State) (T : InstId) (I : Instruction)
    (StoreSize : Nat) (SplatValue : Value) (start BECount : SCEV) (SI : InstId)
    (hfresh : FreshIds st) (hI : st.getInst SI = some I) (hlive : OperandsLive st)
    (huse : st.use_empty (.inst SI) = true)
    (hS : ∀ j, SplatValue = .inst j → (st.getInst j).isSome ∧ j ≠ SI) :
    CascadeInv (withFill TD st T I StoreSize SplatValue start BECount) SI [] := by
  have hlt : SI < st.nextId := lt_nextId_of_getInst st hfresh SI I hI
  have hint := intact_withFill TD st T I StoreSize SplatValue start BECount hfresh
  refine ⟨?_, ?_, List.nodup_singleton SI⟩
  · intro p hp o ho
    rw [insts_withFill] at hp
    rcases List.mem_append.mp hp with hp | hp
    · obtain ⟨V, hV, hj⟩ := hlive p hp o ho
      exact ⟨V, hV, fun j hVj => isSome_getInst_withFill TD st T I StoreSize SplatValue start
        BECount hfresh j (hj j hVj)⟩
    · simp only [fillInsts, List.mem_cons, List.mem_singleton, List.not_mem_nil, or_false]
        at hp
      rcases hp with hp | hp | hp
      · subst hp
        cases ho
      · subst hp
        cases ho
      · subst hp
        simp only [fillInst, List.mem_cons, List.mem_singleton, List.not_mem_nil, or_false]
          at ho
        rcases ho with ho | ho | ho | ho | ho
        · refine ⟨_, ho, ?_⟩
          intro j hj
          have hj' : st.nextId = j := Value.inst.inj hj
          rw [← hj', hint _ (List.mem_cons_self _ _)]
          rfl
        · refine ⟨_, ho, ?_⟩
          intro j hj
          exact isSome_getInst_withFill TD st T I StoreSize SplatValue start BECount hfresh j
            (hS j hj).1
        · refine ⟨_, ho, ?_⟩
          intro j hj
          have hj' : st.nextId + 1 = j := Value.inst.inj hj
          rw [← hj', hint _ (List.mem_cons_of_mem _ (List.mem_cons_self _ _))]
          rfl
        · exact ⟨_, ho, fun j hj => by cases hj⟩
        · exact ⟨_, ho, fun j hj => by cases hj⟩
  · intro x hx
    rw [List.mem_singleton] at hx
    subst hx
    refine ⟨isSome_getInst_withFill TD st T I StoreSize SplatValue start BECount hfresh x
      (by rw [hI]; rfl), ?_⟩
    unfold State.use_empty
    rw [insts_withFill, List.all_append, Bool.and_eq_true]
    refine ⟨huse, ?_⟩
    have hne0 : st.nextId ≠ x := Nat.ne_of_gt hlt
    have hne1 : st.nextId + 1 ≠ x := Nat.ne_of_gt (Nat.lt_add_right 1 hlt)
    have hS' : SplatValue ≠ Value.inst x := fun hc => (hS x hc).2 rfl
    simp [fillInsts, baseInst, lengthInst, fillInst, hne0, hne1, hS']

/-- On a well-formed graph the transform of a store returns, with true. -/
theorem processLoopStoreOfSplatValue_total (TD : TargetData) (CurLoop : Loop) (st : State)
    (SI : InstId) (StoreSize : Nat) (SplatValue : Value) (start BECount : SCEV)
    (I : Instruction) (Preheader : BlockId) (T : InstId)
    (hfresh : FreshIds st) (hI : st.getInst SI = some I) (hlive : OperandsLive st)
    (huse : st.use_empty (.inst SI) = true)
    (hpre : CurLoop.preheader = some Preheader) (hT : st.getTerminator Preheader = some T)
    (hS : ∀ j, SplatValue = .inst j → (st.getInst j).isSome ∧ j ≠ SI) :
    ∃ st1, processLoopStoreOfSplatValue TD CurLoop st SI StoreSize SplatValue start BECount
      = .ok (true, st1) := by
  have hinv := cascadeInv_withFill TD st T I StoreSize SplatValue start BECount SI hfresh hI
    hlive huse hS
  obtain ⟨st1, P, E, hlog⟩ := loopLog_total _ _ SI [] [SI] [] hinv (le_refl _)
  have hdel : DeleteDeadInstruction (withFill TD st T I StoreSize SplatValue start BECount) SI
      = .ok st1 := by
    rw [← dropLog_DeleteDeadInstructionLog]
    show dropLog (DeleteDeadInstructionLoopLog _ _ SI [] [SI] []) = _
    rw [hlog]
    rfl
  refine ⟨st1, ?_⟩
  unfold processLoopStoreOfSplatValue
  rw [hpre]
  simp only [hT, hI]
  split
  · next st2 h2 =>
    have : Result.ok st1 = Result.ok st2 := hdel.symm.trans h2
    rw [Result.ok.injEq] at this
    rw [this]
  · next h2 =>
    have : Result.ok st1 = Result.stuck := hdel.symm.trans h2
    cases this
  · next h2 =>
    have : Result.ok st1 = Result.timeout := hdel.symm.trans h2
    cases this

/-- On a well-formed graph `processLoopStore` returns. -/
theorem processLoopStore_total (A : Analyses) (TD : TargetData) (CurLoop : Loop) (st : State)
    (SI : InstId) (BECount : SCEV) (I : Instruction) (StoredVal StorePtr : Value)
    (Preheader : BlockId) (T : InstId)
    (hfresh : FreshIds st) (hI : st.getInst SI = some I)
    (hops : I.operands = [some StoredVal, some StorePtr]) (hlive : OperandsLive st)
    (huse : st.use_empty (.inst SI) = true)
    (hpre : CurLoop.preheader = some Preheader) (hT : st.getTerminator Preheader = some T)
    (hS : ∀ S, A.isBytewiseValue StoredVal = some S → S = StoredVal ∨ ∀ j, S ≠ Value.inst j) :
    ∃ r st1, processLoopStore A TD CurLoop st SI BECount = .ok (r, st1) := by
  have hSV : ∀ j, StoredVal = .inst j → (st.getInst j).isSome ∧ j ≠ SI := by
    intro j hj
    have hmem : some StoredVal ∈ I.operands := by rw [hops]; exact List.mem_cons_self _ _
    obtain ⟨V, hV, hVj⟩ := hlive (SI, I) (mem_of_lookup_eq_some st.insts SI I hI) _ hmem
    have hVS : StoredVal = V := Option.some.inj hV
    refine ⟨hVj j (hVS ▸ hj), ?_⟩
    intro hc
    have := use_empty_eq_false st SI I (.inst SI) hI (by rw [← hc, ← hj]; exact hmem)
    rw [this] at huse
    cases huse
  unfold processLoopStore
  rw [hI]
  simp only [hops]
  split
  · exact ⟨_, _, rfl⟩
  · split
    · split
      · exact ⟨_, _, rfl⟩
      · split
        · split
          · exact ⟨_, _, rfl⟩
          · split
            · next SplatValue hsplat =>
              obtain ⟨st1, h1⟩ := processLoopStoreOfSplatValue_total TD CurLoop st SI _
                SplatValue _ BECount I Preheader T hfresh hI hlive huse hpre hT (by
                  intro j hj
                  rcases hS SplatValue hsplat with h1 | h1
                  · exact hSV j (h1 ▸ hj)
                  · exact absurd hj (h1 j))
              exact ⟨_, _, h1⟩
            · exact ⟨_, _, rfl⟩
        · exact ⟨_, _, rfl⟩
    · exact ⟨_, _, rfl⟩

/-- C13: a call of `processLoopStore` that returns has either returned false
with the state exactly as before, or returned true with the fill live and
linked in the preheader, the store destroyed and in no block, and the state
equal to the state with the fill minus the cascade `E`: the store and pure
instructions left without a use.  The call never runs out of fuel, and on a
well-formed graph (proper operands, a store without a use, a preheader with a
terminator, a classifier that answers the stored value or a constant) it does
return. -/
theorem C13_no_partial_rewrite (A : Analyses) (TD : TargetData) (CurLoop : Loop)
    (st : State) (SI : InstId) (BECount : SCEV) (hfresh : FreshIds st) :
    (∀ r st1, processLoopStore A TD CurLoop st SI BECount = .ok (r, st1) →
      (r = false ∧ st1 = st) ∨
      (r = true ∧ ∃ I StoredVal StorePtr start SplatValue Preheader T E l1,
        st.getInst SI = some I ∧ I.operands = [some StoredVal, some StorePtr] ∧
        A.isBytewiseValue StoredVal = some SplatValue ∧
        CurLoop.preheader = some Preheader ∧ st.getTerminator Preheader = some T ∧
        st1 = (withFill TD st T I (TD.getTypeSizeInBits (A.getType StoredVal) / 8) SplatValue
          start BECount).eraseAll E ∧
        st1.getInst (st.nextId + 2) = some (fillInst st I SplatValue) ∧
        st1.blocks.lookup Preheader = some l1 ∧ st.nextId + 2 ∈ l1 ∧
        SI ∈ E ∧ st1.getInst SI = none ∧
        (∀ bb l, st1.blocks.lookup bb = some l → SI ∉ l) ∧
        (∀ x ∈ E, x ≠ SI → (∃ J, st.getInst x = some J ∧ J.opcode.isPure) ∧
          st1.use_empty (.inst x) = true))) ∧
    processLoopStore A TD CurLoop st SI BECount ≠ .timeout ∧
    (∀ I StoredVal StorePtr Preheader T,
      st.getInst SI = some I → I.operands = [some StoredVal, some StorePtr] →
      OperandsLive st → st.use_empty (.inst SI) = true →
      CurLoop.preheader = some Preheader → st.getTerminator Preheader = some T →
      (∀ S, A.isBytewiseValue StoredVal = some S → S = StoredVal ∨ ∀ j, S ≠ Value.inst j) →
      ∃ r st1, processLoopStore A TD CurLoop st SI BECount = .ok (r, st1)) := by
  refine ⟨?_, processLoopStore_ne_timeout A TD CurLoop st SI BECount, ?_⟩
  · intro r st1 h
    cases r with
    | false => exact Or.inl ⟨rfl, processLoopStore_false A TD CurLoop st SI BECount st1 h⟩
    | true =>
      right
      obtain ⟨I, StoredVal, StorePtr, start, bits, SplatValue, Preheader, T, E, np, hI, hops,
        hev, hsplat, hpre, hT, hst, hnd, hperm, hEold, hpure⟩ :=
        processLoopStore_rewrite A TD CurLoop st SI BECount st1 hfresh h
      obtain ⟨a, b, JT, hl, hna, hlast, hJT, hopT, hlw⟩ :=
        preheader_withFill TD st T I (TD.getTypeSizeInBits (A.getType StoredVal) / 8)
          SplatValue start BECount hfresh Preheader hT
      have hSIE : SI ∈ E := hperm.symm.subset (by simp)
      have hn2 : st.nextId + 2 ∉ E := fun hc => absurd (hEold _ hc) (by simp)
      have hint := intact_withFill TD st T I (TD.getTypeSizeInBits (A.getType StoredVal) / 8)
        SplatValue start BECount hfresh
      refine ⟨rfl, I, StoredVal, StorePtr, start, SplatValue, Preheader, T, E,
        (a ++ st.nextId :: (st.nextId + 1) :: (st.nextId + 2) :: T :: b).filter
          (fun j => decide (j ∉ E)), hI, hops,
        hsplat, hpre, hT, hst, ?_, ?_, ?_, hSIE, ?_, ?_, ?_⟩
      · rw [hst, getInst_eraseAll, if_neg hn2]
        exact hint _ (List.mem_cons_of_mem _ (List.mem_cons_of_mem _ (List.mem_cons_self _ _)))
      · rw [hst, lookup_blocks_eraseAll, hlw]
        rfl
      · refine List.mem_filter.mpr ⟨?_, by simpa using hn2⟩
        simp
      · rw [hst, getInst_eraseAll, if_pos hSIE]
      · intro bb l hl2
        rw [hst] at hl2
        exact not_mem_blocks_eraseAll _ E bb l hl2 SI hSIE
      · intro x hx hxs
        rcases List.mem_append.mp (hperm.subset hx) with hx | hx
        · obtain ⟨J, hJ, hp, hu⟩ := hpure x hx
          exact ⟨⟨J, hJ, hp⟩, hu⟩
        · exact absurd (List.mem_singleton.mp hx) hxs
  · intro I StoredVal StorePtr Preheader T hI hops hlive huse hpre hT hS
    exact processLoopStore_total A TD CurLoop st SI BECount I StoredVal StorePtr Preheader T
      hfresh hI hops hlive huse hpre hT hS

theorem operandsLive_exState (isVolatile : Bool) (V : Value) (hV : ∀ j, V ≠ Value.inst j) :
    OperandsLive (exState isVolatile V) := by
  apply operandsLive_of_B
  cases V with
  | inst j => exact absurd rfl (hV j)
  | constInt bits val => cases isVolatile <;> rfl
  | other id => cases isVolatile <;> rfl

theorem C13_no_partial_rewrite_witness :
    ((true = false ∧ exRewritten 64 (.constInt 8 0xAA) (NumBytesS (exTD 64) exBECount 1) =
        exState false (.constInt 8 0xAA)) ∨
      (true = true ∧ ∃ I StoredVal StorePtr start SplatValue Preheader T E l1,
        (exState false (.constInt 8 0xAA)).getInst 3 = some I ∧
        I.operands = [some StoredVal, some StorePtr] ∧
        (exA 64 1 exBECount).isBytewiseValue StoredVal = some SplatValue ∧
        exLoop.preheader = some Preheader ∧
        (exState false (.constInt 8 0xAA)).getTerminator Preheader = some T ∧
        exRewritten 64 (.constInt 8 0xAA) (NumBytesS (exTD 64) exBECount 1) =
          (withFill (exTD 64) (exState false (.constInt 8 0xAA)) T I
            ((exTD 64).getTypeSizeInBits ((exA 64 1 exBECount).getType StoredVal) / 8)
            SplatValue start exBECount).eraseAll E ∧
        (exRewritten 64 (.constInt 8 0xAA) (NumBytesS (exTD 64) exBECount 1)).getInst
            ((exState false (.constInt 8 0xAA)).nextId + 2) =
          some (fillInst (exState false (.constInt 8 0xAA)) I SplatValue) ∧
        (exRewritten 64 (.constInt 8 0xAA) (NumBytesS (exTD 64) exBECount 1)).blocks.lookup
            Preheader = some l1 ∧
        (exState false (.constInt 8 0xAA)).nextId + 2 ∈ l1 ∧
        3 ∈ E ∧
        (exRewritten 64 (.constInt 8 0xAA) (NumBytesS (exTD 64) exBECount 1)).getInst 3
          = none ∧
        (∀ bb l, (exRewritten 64 (.constInt 8 0xAA)
            (NumBytesS (exTD 64) exBECount 1)).blocks.lookup bb = some l → 3 ∉ l) ∧
        (∀ x ∈ E, x ≠ 3 →
          (∃ J, (exState false (.constInt 8 0xAA)).getInst x = some J ∧ J.opcode.isPure) ∧
          (exRewritten 64 (.constInt 8 0xAA)
            (NumBytesS (exTD 64) exBECount 1)).use_empty (.inst x) = true))) ∧
    (∃ r st1, processLoopStore (exA 64 1 exBECount) (exTD 64) exLoop
      (exState false (.constInt 8 0xAA)) 3 exBECount = .ok (r, st1)) :=
  ⟨(C13_no_partial_rewrite (exA 64 1 exBECount) (exTD 64) exLoop
      (exState false (.constInt 8 0xAA)) 3 exBECount (freshIds_exState _ _)).1 true
      (exRewritten 64 (.constInt 8 0xAA) (NumBytesS (exTD 64) exBECount 1)) (by decide),
   (C13_no_partial_rewrite (exA 64 1 exBECount) (exTD 64) exLoop
      (exState false (.constInt 8 0xAA)) 3 exBECount (freshIds_exState _ _)).2.2
      _ (.constInt 8 0xAA) (.inst 2) 0 0 rfl rfl
      (operandsLive_exState _ _ (fun j hj => by cases hj)) (by decide) rfl (by decide)
      (fun S hS => Or.inl (by
        have e : (exA 64 1 exBECount).isBytewiseValue (.constInt 8 0xAA)
            = some (.constInt 8 0xAA) := by decide
        rw [e] at hS
        exact (Option.some.inj hS).symm))⟩

/-! ## The scan loop, step by step -/

theorem processLoopStore_true_erased (A : Analyses) (TD : TargetData) (CurLoop : Loop)
    (st : State) (SI : InstId) (BECount : SCEV) (st1 : State)
    (h : processLoopStore A TD CurLoop st SI BECount = .ok (true, st1)) :
    st1.getInst SI = none := by
  obtain ⟨I, StoredVal, StorePtr, start, bits, SplatValue, Preheader, T, _, _, _, _, _,
    _, _, _, _, hdel⟩ := processLoopStore_true A TD CurLoop st SI BECount st1 h
  obtain ⟨P, E, np, _, _, hst, _, hperm, _, _⟩ := DeleteDeadInstruction_ok _ SI st1 hdel
  have hSIE : SI ∈ E := hperm.symm.subset (by simp)
  rw [hst, getInst_eraseAll, if_pos hSIE]

/-- One step of the scan on an instruction that is not a non-volatile store. -/
theorem scanLoop_skip (A : Analyses) (TD : TargetData) (CurLoop : Loop) (BECount : SCEV)
    (BB : BlockId) (fuel : Nat) (st : State) (cur : InstId) (mc : Bool)
    (tr : List (InstId × Bool)) (Cur : Instruction) (l : List InstId)
    (hCur : st.getInst cur = some Cur) (hl : st.blocks.lookup BB = some l)
    (hop : Cur.opcode ≠ .store false) :
    scanLoop A TD CurLoop BECount BB (fuel + 1) st (some cur) mc tr =
      scanLoop A TD CurLoop BECount BB fuel st (succInList cur l) mc tr := by
  rw [scanLoop]
  simp only [hCur, hl]
  split
  · next isVolatile hv =>
    cases isVolatile with
    | true => rfl
    | false => exact absurd hv hop
  · rfl

/-- One step of the scan on a non-volatile store that is not rewritten. -/
theorem scanLoop_reject (A : Analyses) (TD : TargetData) (CurLoop : Loop) (BECount : SCEV)
    (BB : BlockId) (fuel : Nat) (st : State) (cur : InstId) (mc : Bool)
    (tr : List (InstId × Bool)) (Cur : Instruction) (l : List InstId)
    (hCur : st.getInst cur = some Cur) (hl : st.blocks.lookup BB = some l)
    (hop : Cur.opcode = .store false)
    (hp : processLoopStore A TD CurLoop st cur BECount = .ok (false, st)) :
    scanLoop A TD CurLoop BECount BB (fuel + 1) st (some cur) mc tr =
      scanLoop A TD CurLoop BECount BB fuel st (succInList cur l) mc ((cur, false) :: tr) := by
  rw [scanLoop]
  simp only [hCur, hl, hop, hp]
  rfl

/-- One step of the scan on a non-volatile store that is rewritten: the store
is destroyed, so the scan restarts at the head of the block. -/
theorem scanLoop_rewrite (A : Analyses) (TD : TargetData) (CurLoop : Loop) (BECount : SCEV)
    (BB : BlockId) (fuel : Nat) (st : State) (cur : InstId) (mc : Bool)
    (tr : List (InstId × Bool)) (Cur : Instruction) (l : List InstId) (st2 : State)
    (hCur : st.getInst cur = some Cur) (hl : st.blocks.lookup BB = some l)
    (hop : Cur.opcode = .store false)
    (hp : processLoopStore A TD CurLoop st cur BECount = .ok (true, st2)) :
    scanLoop A TD CurLoop BECount BB (fuel + 1) st (some cur) mc tr =
      scanLoop A TD CurLoop BECount BB fuel st2 (st2.blockBegin BB) true
        ((cur, true) :: tr) := by
  have hgone := processLoopStore_true_erased A TD CurLoop st cur BECount st2 hp
  rw [scanLoop]
  simp only [hCur, hl, hop, hp, hgone]
  rfl

/-- The three ways in which a step of the scan leads to a result. -/
theorem scanLoop_succ_ok (A : Analyses) (TD : TargetData) (CurLoop : Loop) (BECount : SCEV)
    (BB : BlockId) (fuel : Nat) (st : State) (cur : InstId) (mc : Bool)
    (tr : List (InstId × Bool)) (res : Bool × State × List (InstId × Bool))
    (h : scanLoop A TD CurLoop BECount BB (fuel + 1) st (some cur) mc tr = .ok res) :
    ∃ Cur l, st.getInst cur = some Cur ∧ st.blocks.lookup BB = some l ∧
      ((Cur.opcode ≠ .store false ∧
          scanLoop A TD CurLoop BECount BB fuel st (succInList cur l) mc tr = .ok res) ∨
       (Cur.opcode = .store false ∧
          processLoopStore A TD CurLoop st cur BECount = .ok (false, st) ∧
          scanLoop A TD CurLoop BECount BB fuel st (succInList cur l) mc ((cur, false) :: tr)
            = .ok res) ∨
       (Cur.opcode = .store false ∧ ∃ st2,
          processLoopStore A TD CurLoop st cur BECount = .ok (true, st2) ∧
          st2.getInst cur = none ∧
          scanLoop A TD CurLoop BECount BB fuel st2 (st2.blockBegin BB) true
            ((cur, true) :: tr) = .ok res)) := by
  cases hCur : st.getInst cur with
  | none =>
    rw [scanLoop] at h
    simp only [hCur] at h
    cases h
  | some Cur =>
    cases hl : st.blocks.lookup BB with
    | none =>
      rw [scanLoop] at h
      simp only [hCur, hl] at h
      cases h
    | some l =>
      refine ⟨Cur, l, rfl, rfl, ?_⟩
      by_cases hop : Cur.opcode = .store false
      · right
        cases hp : processLoopStore A TD CurLoop st cur BECount with
        | ok r =>
          obtain ⟨rb, st2⟩ := r
          cases rb with
          | false =>
            have hst := processLoopStore_false A TD CurLoop st cur BECount st2 hp
            subst hst
            rw [scanLoop_reject A TD CurLoop BECount BB fuel _ cur mc tr Cur l hCur hl hop hp]
              at h
            exact Or.inl ⟨hop, rfl, h⟩
          | true =>
            rw [scanLoop_rewrite A TD CurLoop BECount BB fuel st cur mc tr Cur l st2 hCur hl
              hop hp] at h
            exact Or.inr ⟨hop, st2, rfl,
              processLoopStore_true_erased A TD CurLoop st cur BECount st2 hp, h⟩
        | stuck =>
          rw [scanLoop] at h
          simp only [hCur, hl, hop, hp] at h
          cases h
        | timeout =>
          rw [scanLoop] at h
          simp only [hCur, hl, hop, hp] at h
          cases h
      · left
        rw [scanLoop_skip A TD CurLoop BECount BB fuel st cur mc tr Cur l hCur hl hop] at h
        exact ⟨hop, h⟩

theorem scanLoop_none (A : Analyses) (TD : TargetData) (CurLoop : Loop) (BECount : SCEV)
    (BB : BlockId) (fuel : Nat) (st : State) (mc : Bool) (tr : List (InstId × Bool)) :
    scanLoop A TD CurLoop BECount BB fuel st none mc tr = .ok (mc, st, tr) := by
  cases fuel <;> rfl

/-- The trace only grows, the flag returned tells whether a call in the new part
of the trace returned true, and without such a call the state is unchanged. -/
theorem scanLoop_trace (A : Analyses) (TD : TargetData) (CurLoop : Loop) (BECount : SCEV)
    (BB : BlockId) :
    ∀ (fuel : Nat) (st : State) (it : Option InstId) (mc : Bool) (tr : List (InstId × Bool))
      (b : Bool) (st1 : State) (tr1 : List (InstId × Bool)),
      scanLoop A TD CurLoop BECount BB fuel st it mc tr = .ok (b, st1, tr1) →
      ∃ new, tr1 = new ++ tr ∧ (b = true ↔ (mc = true ∨ ∃ s, (s, true) ∈ new)) ∧
        ((∀ s, (s, true) ∉ new) → st1 = st) := by
  have hnone : ∀ (fuel : Nat) (st : State) (mc : Bool) (tr : List (InstId × Bool))
      (b : Bool) (st1 : State) (tr1 : List (InstId × Bool)),
      scanLoop A TD CurLoop BECount BB fuel st none mc tr = .ok (b, st1, tr1) →
      ∃ new, tr1 = new ++ tr ∧ (b = true ↔ (mc = true ∨ ∃ s, (s, true) ∈ new)) ∧
        ((∀ s, (s, true) ∉ new) → st1 = st) := by
    intro fuel st mc tr b st1 tr1 h
    rw [scanLoop_none] at h
    simp only [Result.ok.injEq, Prod.mk.injEq] at h
    obtain ⟨h1, h2, h3⟩ := h
    subst h1
    subst h2
    subst h3
    exact ⟨[], rfl, by simp, fun _ => rfl⟩
  intro fuel
  induction fuel with
  | zero =>
    intro st it mc tr b st1 tr1 h
    cases it with
    | none => exact hnone _ _ _ _ _ _ _ h
    | some cur =>
      simp only [scanLoop] at h
      cases h
  | succ fuel ih =>
    intro st it mc tr b st1 tr1 h
    cases it with
    | none => exact hnone _ _ _ _ _ _ _ h
    | some cur =>
      obtain ⟨Cur, l, hCur, hl, hcase⟩ :=
        scanLoop_succ_ok A TD CurLoop BECount BB fuel st cur mc tr _ h
      rcases hcase with ⟨_, hrec⟩ | ⟨_, _, hrec⟩ | ⟨_, st2, _, _, hrec⟩
      · exact ih _ _ _ _ _ _ _ hrec
      · obtain ⟨new, h1, h2, h3⟩ := ih _ _ _ _ _ _ _ hrec
        refine ⟨new ++ [(cur, false)], by rw [h1]; simp, ?_, ?_⟩
        · rw [h2]
          constructor
          · rintro (hm | ⟨s, hs⟩)
            · exact Or.inl hm
            · exact Or.inr ⟨s, List.mem_append_left _ hs⟩
          · rintro (hm | ⟨s, hs⟩)
            · exact Or.inl hm
            · rcases List.mem_append.mp hs with hs | hs
              · exact Or.inr ⟨s, hs⟩
              · rw [List.mem_singleton] at hs
                cases hs
        · intro hno
          exact h3 (fun s hs => hno s (List.mem_append_left _ hs))
      · obtain ⟨new, h1, h2, _⟩ := ih _ _ _ _ _ _ _ hrec
        refine ⟨new ++ [(cur, true)], by rw [h1]; simp, ?_, ?_⟩
        · constructor
          · intro _
            exact Or.inr ⟨cur, List.mem_append_right _ (List.mem_singleton.mpr rfl)⟩
          · intro _
            exact h2.mpr (Or.inl rfl)
        · intro hno
          exact absurd (List.mem_append_right _ (List.mem_singleton.mpr rfl)) (hno cur)

/-- The frame property of the scan: instructions that are never trivially dead
and that are not a store rewritten during the scan are untouched and stay in
their blocks. -/
theorem scanLoop_frame (keep : List (InstId × Instruction)) (hnd : NeverDead keep)
    (A : Analyses) (TD : TargetData) (CurLoop : Loop) (BECount : SCEV) (BB : BlockId) :
    ∀ (fuel : Nat) (st : State) (it : Option InstId) (mc : Bool) (tr : List (InstId × Bool))
      (b : Bool) (st1 : State) (tr1 : List (InstId × Bool)),
      scanLoop A TD CurLoop BECount BB fuel st it mc tr = .ok (b, st1, tr1) →
      Intact keep st →
      (∀ p ∈ keep, p.2.opcode ≠ .store false ∨ (p.1, true) ∉ tr1) →
      Intact keep st1 ∧ BlocksKeep keep st st1 := by
  have hnone : ∀ (fuel : Nat) (st : State) (mc : Bool) (tr : List (InstId × Bool))
      (b : Bool) (st1 : State) (tr1 : List (InstId × Bool)),
      scanLoop A TD CurLoop BECount BB fuel st none mc tr = .ok (b, st1, tr1) →
      Intact keep st → Intact keep st1 ∧ BlocksKeep keep st st1 := by
    intro fuel st mc tr b st1 tr1 h hint
    rw [scanLoop_none] at h
    simp only [Result.ok.injEq, Prod.mk.injEq] at h
    obtain ⟨_, h2, _⟩ := h
    subst h2
    exact ⟨hint, blocksKeep_refl _ _⟩
  intro fuel
  induction fuel with
  | zero =>
    intro st it mc tr b st1 tr1 h hint _
    cases it with
    | none => exact hnone _ _ _ _ _ _ _ h hint
    | some cur =>
      simp only [scanLoop] at h
      cases h
  | succ fuel ih =>
    intro st it mc tr b st1 tr1 h hint hcond
    cases it with
    | none => exact hnone _ _ _ _ _ _ _ h hint
    | some cur =>
      obtain ⟨Cur, l, hCur, hl, hcase⟩ :=
        scanLoop_succ_ok A TD CurLoop BECount BB fuel st cur mc tr _ h
      rcases hcase with ⟨_, hrec⟩ | ⟨_, _, hrec⟩ | ⟨hop, st2, hp, _, hrec⟩
      · exact ih _ _ _ _ _ _ _ hrec hint hcond
      · exact ih _ _ _ _ _ _ _ hrec hint hcond
      · obtain ⟨new, htr, _, _⟩ := scanLoop_trace A TD CurLoop BECount BB _ _ _ _ _ _ _ _ hrec
        have hne : ∀ p ∈ keep, p.1 ≠ cur := by
          intro p hp2 hpc
          rcases hcond p hp2 with hc | hc
          · have h1 := hint p hp2
            rw [hpc, hCur] at h1
            have h2 : Cur = p.2 := Option.some.inj h1
            rw [← h2] at hc
            exact hc hop
          · apply hc
            rw [htr, hpc]
            exact List.mem_append_right _ (List.mem_cons_self _ _)
        obtain ⟨hi2, hb2⟩ := processLoopStore_frame keep hnd A TD CurLoop st cur BECount true
          st2 hp hint hne
        obtain ⟨hi3, hb3⟩ := ih _ _ _ _ _ _ _ hrec hi2 hcond
        exact ⟨hi3, blocksKeep_trans hb2 hb3⟩

theorem freshIds_eraseAll (st : State) (E : List InstId) (h : FreshIds st) :
    FreshIds (st.eraseAll E) :=
  fun p hp => h p ((mem_insts_eraseAll st E p).mp hp).1

/-- A rewrite keeps the identifiers fresh and creates three new ones. -/
theorem freshIds_rewrite (A : Analyses) (TD : TargetData) (CurLoop : Loop)
    (st : State) (SI : InstId) (BECount : SCEV) (st1 : State) (hfresh : FreshIds st)
    (h : processLoopStore A TD CurLoop st SI BECount = .ok (true, st1)) :
    FreshIds st1 ∧ st1.nextId = st.nextId + 3 := by
  obtain ⟨I, StoredVal, StorePtr, start, bits, SplatValue, Preheader, T, E, np, _, _, _,
    _, _, _, hst, _, _, _, _⟩ := processLoopStore_rewrite A TD CurLoop st SI BECount st1 hfresh h
  rw [hst]
  exact ⟨freshIds_eraseAll _ E (freshIds_withFill TD st T I _ SplatValue start BECount hfresh),
    rfl⟩

/-- When the scan has rewritten a store, the final state holds a fill that the
initial state did not hold. -/
theorem scanLoop_changed (A : Analyses) (TD : TargetData) (CurLoop : Loop) (BECount : SCEV)
    (BB : BlockId) :
    ∀ (fuel : Nat) (st : State) (it : Option InstId) (mc : Bool) (tr : List (InstId × Bool))
      (b : Bool) (st1 : State) (tr1 : List (InstId × Bool)),
      scanLoop A TD CurLoop BECount BB fuel st it mc tr = .ok (b, st1, tr1) →
      FreshIds st → b = true →
      mc = true ∨ ∃ k J, st.getInst k = none ∧ st1.getInst k = some J ∧ J.opcode = .memset := by
  intro fuel
  induction fuel with
  | zero =>
    intro st it mc tr b st1 tr1 h _ hb
    cases it with
    | none =>
      rw [scanLoop_none] at h
      simp only [Result.ok.injEq, Prod.mk.injEq] at h
      exact Or.inl (h.1 ▸ hb)
    | some cur =>
      simp only [scanLoop] at h
      cases h
  | succ fuel ih =>
    intro st it mc tr b st1 tr1 h hfresh hb
    cases it with
    | none =>
      rw [scanLoop_none] at h
      simp only [Result.ok.injEq, Prod.mk.injEq] at h
      exact Or.inl (h.1 ▸ hb)
    | some cur =>
      obtain ⟨Cur, l, hCur, hl, hcase⟩ :=
        scanLoop_succ_ok A TD CurLoop BECount BB fuel st cur mc tr _ h
      rcases hcase with ⟨_, hrec⟩ | ⟨_, _, hrec⟩ | ⟨hop, st2, hp, _, hrec⟩
      · exact ih _ _ _ _ _ _ _ hrec hfresh hb
      · exact ih _ _ _ _ _ _ _ hrec hfresh hb
      · right
        obtain ⟨I, StoredVal, StorePtr, start, bits, SplatValue, _, _, _, _, _, hint⟩ :=
          processLoopStore_true_fill A TD CurLoop st cur BECount st2 hfresh hp
        have hfill := hint _ (List.mem_cons_of_mem _ (List.mem_cons_of_mem _
          (List.mem_cons_self _ _)))
        have hkeep : Intact [(st.nextId + 2, fillInst st I SplatValue)] st2 := by
          intro p hp2
          rw [List.mem_singleton] at hp2
          subst hp2
          exact hfill
        have hnd : NeverDead [(st.nextId + 2, fillInst st I SplatValue)] := by
          intro s _ p hp2
          rw [List.mem_singleton] at hp2
          subst hp2
          exact isInstructionTriviallyDead_of_sideEffects s _ _ rfl
        obtain ⟨hi3, _⟩ := scanLoop_frame _ hnd A TD CurLoop BECount BB _ _ _ _ _ _ _ _ hrec
          hkeep (by
            intro p hp2
            rw [List.mem_singleton] at hp2
            subst hp2
            exact Or.inl (by simp [fillInst]))
        refine ⟨st.nextId + 2, _, ?_, hi3 _ (List.mem_singleton.mpr rfl), rfl⟩
        exact lookup_eq_none_of_fresh st.insts st.nextId _ hfresh (Nat.le_add_right _ _)

/-! ## What runOnLoop returns -/

/-- A run of `runOnLoop` that returns has either stopped at one of the early
exits, or is a run of the scan loop on an admitted loop. -/
theorem runOnLoop_cases (fuel : Nat) (A : Analyses) (L : Loop) (st : State)
    (b : Bool) (st1 : State) (tr : List (InstId × Bool))
    (hrun : runOnLoop fuel A L st = .ok (b, st1, tr)) :
    (b = false ∧ st1 = st ∧ tr = []) ∨
    (∃ TD, A.TD = some TD ∧ L.blocks.length = 1 ∧
      A.SE.hasLoopInvariantBackedgeTakenCount L.id = true ∧
      A.SE.getBackedgeTakenCount L.id ≠ .couldNotCompute ∧
      scanLoop A TD L (A.SE.getBackedgeTakenCount L.id) L.header fuel st
        (st.blockBegin L.header) false [] = .ok (b, st1, tr)) := by
  unfold runOnLoop at hrun
  split at hrun
  · simp only [Result.ok.injEq, Prod.mk.injEq] at hrun
    exact Or.inl ⟨hrun.1.symm, hrun.2.1.symm, hrun.2.2.symm⟩
  · next h1 =>
    split at hrun
    · simp only [Result.ok.injEq, Prod.mk.injEq] at hrun
      exact Or.inl ⟨hrun.1.symm, hrun.2.1.symm, hrun.2.2.symm⟩
    · next h2 =>
      simp only at hrun
      split at hrun
      · simp only [Result.ok.injEq, Prod.mk.injEq] at hrun
        exact Or.inl ⟨hrun.1.symm, hrun.2.1.symm, hrun.2.2.symm⟩
      · next h3 =>
        split at hrun
        · simp only [Result.ok.injEq, Prod.mk.injEq] at hrun
          exact Or.inl ⟨hrun.1.symm, hrun.2.1.symm, hrun.2.2.symm⟩
        · next TD hTD =>
          refine Or.inr ⟨TD, hTD, ?_, ?_, h3, hrun⟩
          · by_contra hc
            exact h1 hc
          · simpa using h2

/-- C15: `runOnLoop` returns true if and only if a call of `processLoopStore`
made during the run returned true; it returns false if and only if the final
state is the initial state; and when it returns true the final state holds a
fill that the initial state did not hold. -/
theorem C15_true_iff_a_store_rewritten (fuel : Nat) (A : Analyses) (L : Loop) (st : State)
    (b : Bool) (st1 : State) (tr : List (InstId × Bool)) (hfresh : FreshIds st)
    (hrun : runOnLoop fuel A L st = .ok (b, st1, tr)) :
    (b = true ↔ ∃ s, (s, true) ∈ tr) ∧
    (b = false ↔ st1 = st) ∧
    (b = true → ∃ k J, st.getInst k = none ∧ st1.getInst k = some J ∧ J.opcode = .memset) := by
  rcases runOnLoop_cases fuel A L st b st1 tr hrun with ⟨h1, h2, h3⟩ | ⟨TD, _, _, _, _, hscan⟩
  · subst h1
    subst h2
    subst h3
    refine ⟨?_, ?_, ?_⟩
    · constructor
      · intro h
        cases h
      · rintro ⟨s, hs⟩
        cases hs
    · exact ⟨fun _ => rfl, fun _ => rfl⟩
    · intro h
      cases h
  · obtain ⟨new, hnew, hb, hsame⟩ := scanLoop_trace A TD L _ _ _ _ _ _ _ _ _ _ hscan
    rw [List.append_nil] at hnew
    subst hnew
    have hchg : b = true →
        ∃ k J, st.getInst k = none ∧ st1.getInst k = some J ∧ J.opcode = .memset := by
      intro hbt
      rcases scanLoop_changed A TD L _ _ _ _ _ _ _ _ _ _ hscan hfresh hbt with h | h
      · cases h
      · exact h
    refine ⟨?_, ?_, hchg⟩
    · rw [hb]
      simp
    · constructor
      · intro hbf
        apply hsame
        intro s hs
        have : b = true := hb.mpr (Or.inr ⟨s, hs⟩)
        rw [hbf] at this
        cases this
      · intro heq
        cases b with
        | false => rfl
        | true =>
          obtain ⟨k, J, hk0, hk1, _⟩ := hchg rfl
          rw [heq, hk0] at hk1
          cases hk1

theorem C15_true_iff_a_store_rewritten_witness :
    (true = true ↔ ∃ s, (s, true) ∈ [((3 : InstId), true)]) ∧
    (true = false ↔
      exRewritten 64 (.constInt 8 0xAA) (NumBytesS (exTD 64) exBECount 1) =
        exState false (.constInt 8 0xAA)) ∧
    (true = true → ∃ k J, (exState false (.constInt 8 0xAA)).getInst k = none ∧
      (exRewritten 64 (.constInt 8 0xAA) (NumBytesS (exTD 64) exBECount 1)).getInst k = some J ∧
      J.opcode = .memset) :=
  C15_true_iff_a_store_rewritten 100 (exA 64 1 exBECount) exLoop
    (exState false (.constInt 8 0xAA)) true
    (exRewritten 64 (.constInt 8 0xAA) (NumBytesS (exTD 64) exBECount 1)) [(3, true)]
    (freshIds_exState _ _) (by decide)

/-! ## The classifier conditions -/

/-- A store that `processLoopStore` declines fails a classifier condition. -/
theorem satisfiesClassifier_of_false (A : Analyses) (TD : TargetData) (CurLoop : Loop)
    (st : State) (SI : InstId) (BECount : SCEV) (st1 : State)
    (h : processLoopStore A TD CurLoop st SI BECount = .ok (false, st1)) :
    satisfiesClassifier A TD CurLoop st SI = false := by
  unfold processLoopStore at h
  unfold satisfiesClassifier
  split at h
  · cases h
  · next I hI =>
    try rw [hI]
    try simp only
    split at h
    · next StoredVal StorePtr hops =>
      try rw [hops]
      simp only at h
      try simp only
      split at h
      · next hbad =>
        have hbad' := (sizeCheck_iff _ _).mp hbad
        rcases hbad' with hb | hb | hb
        · simp [hb]
        · have : ¬ TD.getTypeSizeInBits (A.getType StoredVal) < 4294967296 := Nat.not_lt.mpr hb
          simp [this]
        · simp [hb]
      · next hok =>
        have hok' := (not_congr (sizeCheck_iff _ _)).mp hok
        have hlt : TD.getTypeSizeInBits (A.getType StoredVal) < 2 ^ 32 := by
          by_contra hc
          exact hok' (Or.inr (Or.inl (Nat.le_of_not_lt hc)))
        rw [storeSize_eq _ hlt] at h
        split at h
        · next start step extraOps L hev =>
          try rw [hev]
          try simp only
          split at h
          · next hL =>
            rcases hL with hL | hL
            · simp [hL]
            · simp [hL]
          · split at h
            · next bits Stride =>
              split at h
              · next hs =>
                simp [hs]
              · split at h
                · unfold processLoopStoreOfSplatValue at h
                  split at h
                  · cases h
                  · split at h
                    · simp only at h
                      split at h <;> cases h
                    · cases h
                · next hnone =>
                  simp [hnone]
            · simp
        · simp
    · cases h

/-- A store that `processLoopStore` rewrites satisfies the classifier conditions. -/
theorem satisfiesClassifier_of_true (A : Analyses) (TD : TargetData) (CurLoop : Loop)
    (st : State) (SI : InstId) (BECount : SCEV) (st1 : State)
    (h : processLoopStore A TD CurLoop st SI BECount = .ok (true, st1)) :
    satisfiesClassifier A TD CurLoop st SI = true := by
  obtain ⟨I, StoredVal, StorePtr, start, bits, SplatValue, Preheader, T, hI, hops, h8, hlt, heq,
    hev, hsplat, _, _, _⟩ := processLoopStore_true A TD CurLoop st SI BECount st1 h
  unfold satisfiesClassifier
  rw [hI]
  simp only [hops, hev, hsplat]
  have hlt' : TD.getTypeSizeInBits (A.getType StoredVal) < 4294967296 := hlt
  simp [h8, hlt', ← heq]

/-- The classifier conditions of a store depend on the state only through the
store itself. -/
theorem satisfiesClassifier_congr (A : Analyses) (TD : TargetData) (CurLoop : Loop)
    (st st1 : State) (SI : InstId) (h : st1.getInst SI = st.getInst SI) :
    satisfiesClassifier A TD CurLoop st1 SI = satisfiesClassifier A TD CurLoop st SI := by
  unfold satisfiesClassifier
  rw [h]

/-! ## The block scanned, across a rewrite -/

theorem succInList_append (cur : InstId) (pre post : List InstId) (h : cur ∉ pre) :
    succInList cur (pre ++ cur :: post) = post.head? := by
  induction pre with
  | nil => simp [succInList]
  | cons y ys ih =>
    have hy : y ≠ cur := fun hc => h (hc ▸ List.mem_cons_self _ _)
    have hys : cur ∉ ys := fun hc => h (List.mem_cons_of_mem _ hc)
    show succInList cur (y :: (ys ++ cur :: post)) = _
    rw [succInList, if_neg hy, ih hys]

theorem nodup_insertBeforeInList (x pos : InstId) (l : List InstId) (hnd : l.Nodup)
    (hx : x ∉ l) : (insertBeforeInList x pos l).Nodup := by
  by_cases hp : pos ∈ l
  · obtain ⟨a, b, hab, hna⟩ := split_at_first pos l hp
    rw [hab, insertBeforeInList_append x pos a b hna]
    have hperm : List.Perm (a ++ x :: pos :: b) (x :: (a ++ pos :: b)) := List.perm_middle
    rw [hperm.nodup_iff, ← hab]
    exact List.nodup_cons.mpr ⟨hx, hnd⟩
  · rw [insertBeforeInList_of_not_mem x pos l hp]
    exact hnd

theorem length_insertBeforeInList_le (x pos : InstId) (l : List InstId) :
    (insertBeforeInList x pos l).length ≤ l.length + 1 := by
  by_cases hp : pos ∈ l
  · obtain ⟨a, b, hab, hna⟩ := split_at_first pos l hp
    rw [hab, insertBeforeInList_append x pos a b hna]
    simp only [List.length_append, List.length_cons]
    omega
  · rw [insertBeforeInList_of_not_mem x pos l hp]
    exact Nat.le_succ _

theorem isSimpleStore_iff (st : State) (x : InstId) :
    isSimpleStore st x = true ↔ ∃ J, st.getInst x = some J ∧ J.opcode = .store false := by
  unfold isSimpleStore
  cases h : st.getInst x with
  | none => simp
  | some J => simp

/-- The block scanned after a rewrite: it is still without duplicates and below
`nextId`, it has grown by at most three instructions, and its non-volatile
stores are non-volatile stores of the block before, unchanged, the rewritten
store not among them. -/
theorem rewrite_block (A : Analyses) (TD : TargetData) (CurLoop : Loop)
    (st : State) (SI : InstId) (BECount : SCEV) (st1 : State) (hfresh : FreshIds st)
    (h : processLoopStore A TD CurLoop st SI BECount = .ok (true, st1))
    (BB : BlockId) (l : List InstId) (hl : st.blocks.lookup BB = some l) (hnd : l.Nodup)
    (hlt : ∀ x ∈ l, x < st.nextId) :
    ∃ l1, st1.blocks.lookup BB = some l1 ∧ l1.Nodup ∧ (∀ x ∈ l1, x < st1.nextId) ∧
      l1.length ≤ l.length + 3 ∧
      (∀ x ∈ l1, isSimpleStore st1 x = true →
        x ∈ l ∧ x ≠ SI ∧ st1.getInst x = st.getInst x) ∧
      ((∀ x ∈ l, (st.getInst x).isSome) → ∀ x ∈ l1, (st1.getInst x).isSome) := by
  obtain ⟨I, StoredVal, StorePtr, start, bits, SplatValue, Preheader, T, E, np, hI, hops, hev,
    hsplat, hpre, hT, hst, hndE, hperm, hEold, hpure⟩ :=
    processLoopStore_rewrite A TD CurLoop st SI BECount st1 hfresh h
  have hSIE : SI ∈ E := hperm.symm.subset (by simp)
  have hint := intact_withFill TD st T I (TD.getTypeSizeInBits (A.getType StoredVal) / 8)
    SplatValue start BECount hfresh
  have hn0 : st.nextId ∉ l := fun hc => Nat.lt_irrefl _ (hlt _ hc)
  have hmem1 : ∀ x ∈ insertBeforeInList st.nextId T l, x < st.nextId + 1 := by
    intro x hx
    rcases mem_of_insertBeforeInList _ _ _ _ hx with hx | hx
    · rw [hx]
      exact Nat.lt_succ_self _
    · exact Nat.lt_succ_of_lt (hlt x hx)
  have hmem2 : ∀ x ∈ insertBeforeInList (st.nextId + 1) T (insertBeforeInList st.nextId T l),
      x < st.nextId + 2 := by
    intro x hx
    rcases mem_of_insertBeforeInList _ _ _ _ hx with hx | hx
    · rw [hx]
      exact Nat.lt_succ_self _
    · exact Nat.lt_succ_of_lt (hmem1 x hx)
  have hmem3 : ∀ x ∈ insertBeforeInList (st.nextId + 2) T
      (insertBeforeInList (st.nextId + 1) T (insertBeforeInList st.nextId T l)),
      x < st.nextId + 3 := by
    intro x hx
    rcases mem_of_insertBeforeInList _ _ _ _ hx with hx | hx
    · rw [hx]
      exact Nat.lt_succ_self _
    · exact Nat.lt_succ_of_lt (hmem2 x hx)
  have hnd1 := nodup_insertBeforeInList st.nextId T l hnd hn0
  have hnd2 := nodup_insertBeforeInList (st.nextId + 1) T _ hnd1
    (fun hc => Nat.lt_irrefl _ (hmem1 _ hc))
  have hnd3 := nodup_insertBeforeInList (st.nextId + 2) T _ hnd2
    (fun hc => Nat.lt_irrefl _ (hmem2 _ hc))
  have hlen1 := length_insertBeforeInList_le st.nextId T l
  have hlen2 := length_insertBeforeInList_le (st.nextId + 1) T (insertBeforeInList st.nextId T l)
  have hlen3 := length_insertBeforeInList_le (st.nextId + 2) T
    (insertBeforeInList (st.nextId + 1) T (insertBeforeInList st.nextId T l))
  refine ⟨(insertBeforeInList (st.nextId + 2) T
      (insertBeforeInList (st.nextId + 1) T (insertBeforeInList st.nextId T l))).filter
      (fun j => decide (j ∉ E)), ?_, hnd3.filter _, ?_, ?_, ?_, ?_⟩
  · rw [hst, lookup_blocks_eraseAll, lookup_blocks_withFill, hl]
    rfl
  · intro x hx
    rw [hst]
    exact hmem3 x (List.mem_filter.mp hx).1
  · have := List.length_filter_le (fun j => decide (j ∉ E)) (insertBeforeInList (st.nextId + 2) T
      (insertBeforeInList (st.nextId + 1) T (insertBeforeInList st.nextId T l)))
    omega
  · intro x hx hstore
    obtain ⟨J, hJ, hop⟩ := (isSimpleStore_iff st1 x).mp hstore
    have hxE : x ∉ E := by
      intro hc
      rw [hst, getInst_eraseAll, if_pos hc] at hJ
      cases hJ
    have hJw : (withFill TD st T I (TD.getTypeSizeInBits (A.getType StoredVal) / 8) SplatValue
        start BECount).getInst x = some J := by
      rw [hst, getInst_eraseAll, if_neg hxE] at hJ
      exact hJ
    have hx0 : x ≠ st.nextId := by
      intro hc
      rw [hc, hint _ (List.mem_cons_self _ _)] at hJw
      have := Option.some.inj hJw
      rw [← this] at hop
      cases hop
    have hx1 : x ≠ st.nextId + 1 := by
      intro hc
      rw [hc, hint _ (List.mem_cons_of_mem _ (List.mem_cons_self _ _))] at hJw
      have := Option.some.inj hJw
      rw [← this] at hop
      cases hop
    have hx2 : x ≠ st.nextId + 2 := by
      intro hc
      rw [hc, hint _ (List.mem_cons_of_mem _ (List.mem_cons_of_mem _ (List.mem_cons_self _ _)))]
        at hJw
      have := Option.some.inj hJw
      rw [← this] at hop
      cases hop
    have hxlt : x < st.nextId := lt_of_getInst_withFill TD st T I _ SplatValue start BECount
      hfresh x (by rw [hJw]; rfl) hx0 hx1 hx2
    have hxl : x ∈ l := by
      have h3 := (List.mem_filter.mp hx).1
      rcases mem_of_insertBeforeInList _ _ _ _ h3 with h3 | h3
      · exact absurd h3 hx2
      · rcases mem_of_insertBeforeInList _ _ _ _ h3 with h3 | h3
        · exact absurd h3 hx1
        · rcases mem_of_insertBeforeInList _ _ _ _ h3 with h3 | h3
          · exact absurd h3 hx0
          · exact h3
    refine ⟨hxl, fun hc => hxE (hc ▸ hSIE), ?_⟩
    rw [hJ, ← hJw]
    exact getInst_withFill_old TD st T I _ SplatValue start BECount x hxlt
  · intro hlive x hx
    obtain ⟨h3, hxE⟩ := List.mem_filter.mp hx
    have hxE' : x ∉ E := by simpa using hxE
    rw [hst, getInst_eraseAll, if_neg hxE']
    rcases mem_of_insertBeforeInList _ _ _ _ h3 with h3 | h3
    · rw [h3, hint _ (List.mem_cons_of_mem _ (List.mem_cons_of_mem _ (List.mem_cons_self _ _)))]
      rfl
    · rcases mem_of_insertBeforeInList _ _ _ _ h3 with h3 | h3
      · rw [h3, hint _ (List.mem_cons_of_mem _ (List.mem_cons_self _ _))]
        rfl
      · rcases mem_of_insertBeforeInList _ _ _ _ h3 with h3 | h3
        · rw [h3, hint _ (List.mem_cons_self _ _)]
          rfl
        · exact isSome_getInst_withFill TD st T I _ SplatValue start BECount hfresh x
            (hlive x h3)

/-! ## The scan ends at a fixed point -/

/-- The invariant of the scan: the instructions of the block in front of the
iterator have been visited in the current state, so every non-volatile store
among them fails a classifier condition; at the end this holds for the block. -/
theorem scanLoop_fixed_point (A : Analyses) (TD : TargetData) (CurLoop : Loop)
    (BECount : SCEV) (BB : BlockId) :
    ∀ (fuel : Nat) (st : State) (pre post : List InstId) (mc : Bool)
      (tr : List (InstId × Bool)) (b : Bool) (st1 : State) (tr1 : List (InstId × Bool)),
      scanLoop A TD CurLoop BECount BB fuel st post.head? mc tr = .ok (b, st1, tr1) →
      FreshIds st → st.blocks.lookup BB = some (pre ++ post) → (pre ++ post).Nodup →
      (∀ x ∈ pre ++ post, x < st.nextId) →
      (∀ x ∈ pre, isSimpleStore st x = true → satisfiesClassifier A TD CurLoop st x = false) →
      ∃ l1, st1.blocks.lookup BB = some l1 ∧ l1.Nodup ∧ FreshIds st1 ∧
        ∀ x ∈ l1, isSimpleStore st1 x = true →
          satisfiesClassifier A TD CurLoop st1 x = false := by
  intro fuel
  induction fuel with
  | zero =>
    intro st pre post mc tr b st1 tr1 h hfresh hl hnd hlt hpre
    cases post with
    | nil =>
      rw [List.head?_nil, scanLoop_none] at h
      simp only [Result.ok.injEq, Prod.mk.injEq] at h
      obtain ⟨_, h2, _⟩ := h
      subst h2
      rw [List.append_nil] at hl hnd
      exact ⟨pre, hl, hnd, hfresh, hpre⟩
    | cons cur post1 =>
      simp only [List.head?_cons, scanLoop] at h
      cases h
  | succ fuel ih =>
    intro st pre post mc tr b st1 tr1 h hfresh hl hnd hlt hpre
    cases post with
    | nil =>
      rw [List.head?_nil, scanLoop_none] at h
      simp only [Result.ok.injEq, Prod.mk.injEq] at h
      obtain ⟨_, h2, _⟩ := h
      subst h2
      rw [List.append_nil] at hl hnd
      exact ⟨pre, hl, hnd, hfresh, hpre⟩
    | cons cur post1 =>
      rw [List.head?_cons] at h
      obtain ⟨Cur, l, hCur, hl2, hcase⟩ :=
        scanLoop_succ_ok A TD CurLoop BECount BB fuel st cur mc tr _ h
      rw [hl] at hl2
      have hll : pre ++ cur :: post1 = l := Option.some.inj hl2
      subst hll
      have hcp : cur ∉ pre := by
        intro hc
        have := List.nodup_append.mp hnd
        exact this.2.2 hc (List.mem_cons_self _ _)
      have hsucc : succInList cur (pre ++ cur :: post1) = post1.head? :=
        succInList_append cur pre post1 hcp
      have hshift : pre ++ cur :: post1 = (pre ++ [cur]) ++ post1 := by simp
      rcases hcase with ⟨hop, hrec⟩ | ⟨hop, hp, hrec⟩ | ⟨hop, st2, hp, _, hrec⟩
      · rw [hsucc] at hrec
        refine ih st (pre ++ [cur]) post1 _ _ _ _ _ hrec hfresh (by rw [← hshift]; exact hl)
          (by rw [← hshift]; exact hnd) (by rw [← hshift]; exact hlt) ?_
        intro x hx hs
        rcases List.mem_append.mp hx with hx | hx
        · exact hpre x hx hs
        · rw [List.mem_singleton] at hx
          subst hx
          obtain ⟨J, hJ, hJop⟩ := (isSimpleStore_iff st x).mp hs
          rw [hCur] at hJ
          have := Option.some.inj hJ
          rw [← this] at hJop
          exact absurd hJop hop
      · rw [hsucc] at hrec
        refine ih st (pre ++ [cur]) post1 _ _ _ _ _ hrec hfresh (by rw [← hshift]; exact hl)
          (by rw [← hshift]; exact hnd) (by rw [← hshift]; exact hlt) ?_
        intro x hx hs
        rcases List.mem_append.mp hx with hx | hx
        · exact hpre x hx hs
        · rw [List.mem_singleton] at hx
          subst hx
          exact satisfiesClassifier_of_false A TD CurLoop st x BECount st hp
      · obtain ⟨l2, hl2', hnd2, hlt2, _, _⟩ := rewrite_block A TD CurLoop st cur BECount st2
          hfresh hp BB _ hl hnd hlt
        have hbegin : st2.blockBegin BB = l2.head? := by
          unfold State.blockBegin
          rw [hl2']
        rw [hbegin] at hrec
        exact ih st2 [] l2 _ _ _ _ _ hrec
          (freshIds_rewrite A TD CurLoop st cur BECount st2 hfresh hp).1 hl2' hnd2 hlt2
          (fun x hx => absurd hx (List.not_mem_nil x))

/-- The run of `runOnLoop` on the program with two fillable stores: the scan
rewrites `%3`, restarts, rewrites `%8`, restarts, and reaches the block end. -/
theorem runOnLoop_exStateTwoFills :
    runOnLoop 100 (exATwo exBECount) exLoop exStateTwoFills
      = .ok (true, exStateTwoFillsRewritten, [(8, true), (3, true)]) := by
  decide

/-- A rewrite creates three new instructions and destroys old ones: an
identifier below `nextId` that was not live is not live afterwards. -/
theorem rewrite_dead (A : Analyses) (TD : TargetData) (CurLoop : Loop)
    (st : State) (SI : InstId) (BECount : SCEV) (st1 : State) (hfresh : FreshIds st)
    (h : processLoopStore A TD CurLoop st SI BECount = .ok (true, st1))
    (k : Nat) (hk : k < st.nextId) (hdead : st.getInst k = none) : st1.getInst k = none := by
  obtain ⟨I, StoredVal, StorePtr, start, bits, SplatValue, Preheader, T, E, np, _, _, _,
    _, _, _, hst, _, _, _, _⟩ := processLoopStore_rewrite A TD CurLoop st SI BECount st1 hfresh h
  rw [hst, getInst_eraseAll]
  split
  · rfl
  · rw [getInst_withFill_old TD st T I _ SplatValue start BECount k hk]
    exact hdead

/-- During the scan a destroyed instruction stays destroyed. -/
theorem scanLoop_dead (A : Analyses) (TD : TargetData) (CurLoop : Loop) (BECount : SCEV)
    (BB : BlockId) (k : Nat) :
    ∀ (fuel : Nat) (st : State) (it : Option InstId) (mc : Bool) (tr : List (InstId × Bool))
      (b : Bool) (st1 : State) (tr1 : List (InstId × Bool)),
      scanLoop A TD CurLoop BECount BB fuel st it mc tr = .ok (b, st1, tr1) →
      FreshIds st → k < st.nextId → st.getInst k = none → st1.getInst k = none := by
  intro fuel
  induction fuel with
  | zero =>
    intro st it mc tr b st1 tr1 h _ _ hdead
    cases it with
    | none =>
      rw [scanLoop_none] at h
      simp only [Result.ok.injEq, Prod.mk.injEq] at h
      rw [← h.2.1]
      exact hdead
    | some cur =>
      simp only [scanLoop] at h
      cases h
  | succ fuel ih =>
    intro st it mc tr b st1 tr1 h hfresh hk hdead
    cases it with
    | none =>
      rw [scanLoop_none] at h
      simp only [Result.ok.injEq, Prod.mk.injEq] at h
      rw [← h.2.1]
      exact hdead
    | some cur =>
      obtain ⟨Cur, l, hCur, hl, hcase⟩ :=
        scanLoop_succ_ok A TD CurLoop BECount BB fuel st cur mc tr _ h
      rcases hcase with ⟨_, hrec⟩ | ⟨_, _, hrec⟩ | ⟨hop, st2, hp, _, hrec⟩
      · exact ih _ _ _ _ _ _ _ hrec hfresh hk hdead
      · exact ih _ _ _ _ _ _ _ hrec hfresh hk hdead
      · obtain ⟨hf2, hn2⟩ := freshIds_rewrite A TD CurLoop st cur BECount st2 hfresh hp
        exact ih _ _ _ _ _ _ _ hrec hf2 (by rw [hn2]; exact Nat.lt_add_right 3 hk)
          (rewrite_dead A TD CurLoop st cur BECount st2 hfresh hp k hk hdead)

/-- Every store that the scan has rewritten is destroyed in the final state. -/
theorem scanLoop_rewritten_gone (A : Analyses) (TD : TargetData) (CurLoop : Loop)
    (BECount : SCEV) (BB : BlockId) :
    ∀ (fuel : Nat) (st : State) (it : Option InstId) (mc : Bool) (tr : List (InstId × Bool))
      (b : Bool) (st1 : State) (tr1 : List (InstId × Bool)),
      scanLoop A TD CurLoop BECount BB fuel st it mc tr = .ok (b, st1, tr1) →
      FreshIds st → ∀ s, (s, true) ∈ tr1 → (s, true) ∈ tr ∨ st1.getInst s = none := by
  intro fuel
  induction fuel with
  | zero =>
    intro st it mc tr b st1 tr1 h _ s hs
    cases it with
    | none =>
      rw [scanLoop_none] at h
      simp only [Result.ok.injEq, Prod.mk.injEq] at h
      rw [← h.2.2] at hs
      exact Or.inl hs
    | some cur =>
      simp only [scanLoop] at h
      cases h
  | succ fuel ih =>
    intro st it mc tr b st1 tr1 h hfresh s hs
    cases it with
    | none =>
      rw [scanLoop_none] at h
      simp only [Result.ok.injEq, Prod.mk.injEq] at h
      rw [← h.2.2] at hs
      exact Or.inl hs
    | some cur =>
      obtain ⟨Cur, l, hCur, hl, hcase⟩ :=
        scanLoop_succ_ok A TD CurLoop BECount BB fuel st cur mc tr _ h
      rcases hcase with ⟨_, hrec⟩ | ⟨_, _, hrec⟩ | ⟨hop, st2, hp, hgone, hrec⟩
      · exact ih _ _ _ _ _ _ _ hrec hfresh s hs
      · rcases ih _ _ _ _ _ _ _ hrec hfresh s hs with h1 | h1
        · rcases List.mem_cons.mp h1 with h2 | h2
          · cases h2
          · exact Or.inl h2
        · exact Or.inr h1
      · obtain ⟨hf2, hn2⟩ := freshIds_rewrite A TD CurLoop st cur BECount st2 hfresh hp
        rcases ih _ _ _ _ _ _ _ hrec hf2 s hs with h1 | h1
        · rcases List.mem_cons.mp h1 with h2 | h2
          · have hsc : s = cur := (Prod.mk.inj h2).1
            right
            rw [hsc]
            exact scanLoop_dead A TD CurLoop BECount BB cur _ _ _ _ _ _ _ _ hrec hf2
              (by rw [hn2]; exact Nat.lt_add_right 3 (lt_nextId_of_getInst st hfresh cur Cur hCur))
              hgone
          · exact Or.inl h2
        · exact Or.inr h1

theorem runOnLoop_admitted (fuel : Nat) (A : Analyses) (L : Loop) (st : State)
    (TD : TargetData) (hTD : A.TD = some TD) (h1 : L.blocks.length = 1)
    (h2 : A.SE.hasLoopInvariantBackedgeTakenCount L.id = true)
    (h3 : A.SE.getBackedgeTakenCount L.id ≠ .couldNotCompute) :
    runOnLoop fuel A L st =
      scanLoop A TD L (A.SE.getBackedgeTakenCount L.id) L.header fuel st
        (st.blockBegin L.header) false [] := by
  unfold runOnLoop
  simp [h1, h2, h3, hTD]

theorem freshIds_of_all (st : State)
    (h : st.insts.all (fun p => decide (p.1 < st.nextId)) = true) : FreshIds st := by
  intro p hp
  rw [List.all_eq_true] at h
  exact of_decide_eq_true (h p hp)

/-- C17: when `runOnLoop` returns on an admitted loop whose block is without
duplicates, no non-volatile store left in the block satisfies all classifier
conditions, and every non-volatile store of the block that satisfied them at the
start has been rewritten (it is in the trace with the answer true) and is
destroyed, wherever in the block it stood. -/
theorem C17_block_at_fixed_point (fuel : Nat) (A : Analyses) (L : Loop) (st : State)
    (b : Bool) (st1 : State) (tr : List (InstId × Bool)) (TD : TargetData)
    (l : List InstId)
    (hTD : A.TD = some TD) (h1 : L.blocks.length = 1)
    (h2 : A.SE.hasLoopInvariantBackedgeTakenCount L.id = true)
    (h3 : A.SE.getBackedgeTakenCount L.id ≠ .couldNotCompute)
    (hfresh : FreshIds st) (hl : st.blocks.lookup L.header = some l) (hnd : l.Nodup)
    (hlt : ∀ x ∈ l, x < st.nextId)
    (hrun : runOnLoop fuel A L st = .ok (b, st1, tr)) :
    ∃ l1, st1.blocks.lookup L.header = some l1 ∧
      (∀ x ∈ l1, ∀ J, st1.getInst x = some J → J.opcode = .store false →
        satisfiesClassifier A TD L st1 x = false) ∧
      (∀ x ∈ l, ∀ J, st.getInst x = some J → J.opcode = .store false →
        satisfiesClassifier A TD L st x = true →
        (x, true) ∈ tr ∧ st1.getInst x = none) := by
  rw [runOnLoop_admitted fuel A L st TD hTD h1 h2 h3] at hrun
  have hbegin : st.blockBegin L.header = l.head? := by
    unfold State.blockBegin
    rw [hl]
  have hrun2 := hrun
  rw [hbegin] at hrun2
  obtain ⟨l1, hl1, _, _, hfix⟩ := scanLoop_fixed_point A TD L _ L.header fuel st [] l false []
    b st1 tr hrun2 hfresh hl hnd hlt (fun x hx => absurd hx (List.not_mem_nil x))
  have hfix2 : ∀ x ∈ l1, ∀ J, st1.getInst x = some J → J.opcode = .store false →
      satisfiesClassifier A TD L st1 x = false :=
    fun x hx J hJ hop => hfix x hx ((isSimpleStore_iff st1 x).mpr ⟨J, hJ, hop⟩)
  refine ⟨l1, hl1, hfix2, ?_⟩
  intro x hx J hJ hop hsat
  have hin : (x, true) ∈ tr := by
    by_contra hnot
    have hndk : NeverDead [(x, J)] := by
      intro s _ p hp
      rw [List.mem_singleton] at hp
      subst hp
      exact isInstructionTriviallyDead_of_sideEffects s _ _ (by rw [hop]; rfl)
    have hkeep : Intact [(x, J)] st := by
      intro p hp
      rw [List.mem_singleton] at hp
      subst hp
      exact hJ
    obtain ⟨hi, hb⟩ := scanLoop_frame _ hndk A TD L _ L.header _ _ _ _ _ _ _ _ hrun hkeep (by
      intro p hp
      rw [List.mem_singleton] at hp
      subst hp
      exact Or.inr hnot)
    have hJ1 : st1.getInst x = some J := hi (x, J) (List.mem_singleton.mpr rfl)
    obtain ⟨l1', hl1', hk⟩ := hb L.header l hl
    rw [hl1] at hl1'
    have hll : l1 = l1' := Option.some.inj hl1'
    have hx1 : x ∈ l1 := hll ▸ hk (x, J) (List.mem_singleton.mpr rfl) hx
    have hf := hfix2 x hx1 J hJ1 hop
    rw [satisfiesClassifier_congr A TD L st st1 x (by rw [hJ1, hJ]), hsat] at hf
    cases hf
  refine ⟨hin, ?_⟩
  rcases scanLoop_rewritten_gone A TD L _ L.header _ _ _ _ _ _ _ _ hrun hfresh x hin with h | h
  · cases h
  · exact h

theorem C17_block_at_fixed_point_witness :
    ∃ l1, exStateTwoFillsRewritten.blocks.lookup exLoop.header = some l1 ∧
      (∀ x ∈ l1, ∀ J, exStateTwoFillsRewritten.getInst x = some J → J.opcode = .store false →
        satisfiesClassifier (exATwo exBECount) (exTD 64) exLoop exStateTwoFillsRewritten x
          = false) ∧
      (∀ x ∈ [1, 2, 3, 7, 8, 4, 5, 6], ∀ J, exStateTwoFills.getInst x = some J →
        J.opcode = .store false →
        satisfiesClassifier (exATwo exBECount) (exTD 64) exLoop exStateTwoFills x = true →
        (x, true) ∈ [((8 : InstId), true), (3, true)] ∧
          exStateTwoFillsRewritten.getInst x = none) :=
  C17_block_at_fixed_point 100 (exATwo exBECount) exLoop exStateTwoFills true
    exStateTwoFillsRewritten [(8, true), (3, true)] (exTD 64) [1, 2, 3, 7, 8, 4, 5, 6]
    rfl rfl rfl (by decide) (freshIds_of_all _ (by decide)) rfl (by decide) (by decide)
    (by decide)

/-! ## Well-formedness across a rewrite -/

theorem isStoreShape_eq_true (ops : List (Option Value)) (h : isStoreShape ops = true) :
    ∃ V P, ops = [some V, some P] := by
  unfold isStoreShape at h
  split at h
  · next V P => exact ⟨V, P, rfl⟩
  · cases h

/-- A rewrite of a store leaves the terminator of the preheader in place. -/
theorem rewrite_terminator (A : Analyses) (TD : TargetData) (CurLoop : Loop)
    (st : State) (SI : InstId) (BECount : SCEV) (st1 : State) (v : Bool)
    (hfresh : FreshIds st)
    (hstore : ∃ I, st.getInst SI = some I ∧ I.opcode = .store v)
    (h : processLoopStore A TD CurLoop st SI BECount = .ok (true, st1))
    (Preheader : BlockId) (T : InstId) (hpre : CurLoop.preheader = some Preheader)
    (hT : st.getTerminator Preheader = some T) :
    st1.getTerminator Preheader = some T := by
  obtain ⟨I, StoredVal, StorePtr, start, bits, SplatValue, Preheader', T', E, np, hI, hops, hev,
    hsplat, hpre', hT', hst, hnd, hperm, hEold, hpure⟩ :=
    processLoopStore_rewrite A TD CurLoop st SI BECount st1 hfresh h
  rw [hpre] at hpre'
  have hPP : Preheader = Preheader' := Option.some.inj hpre'
  subst hPP
  rw [hT] at hT'
  have hTT : T = T' := Option.some.inj hT'
  subst hTT
  obtain ⟨I0, hI0, hop0⟩ := hstore
  rw [hI] at hI0
  have hII := Option.some.inj hI0
  subst hII
  obtain ⟨a, b, JT, hl, hna, hlast, hJT, hopT, hlw⟩ :=
    preheader_withFill TD st T I (TD.getTypeSizeInBits (A.getType StoredVal) / 8) SplatValue
      start BECount hfresh Preheader hT
  have hTE : T ∉ E := by
    intro hc
    rcases List.mem_append.mp (hperm.subset hc) with hx | hx
    · obtain ⟨J, hJ, hp, _⟩ := hpure T hx
      rw [hJT] at hJ
      have := Option.some.inj hJ
      rw [← this] at hp
      exact hp.2 hopT
    · rw [List.mem_singleton] at hx
      rw [hx, hI] at hJT
      have := Option.some.inj hJT
      rw [← this, hop0] at hopT
      cases hopT
  have hn0 : st.nextId ∉ E := fun hc => Nat.lt_irrefl _ (hEold _ hc)
  have hn1 : st.nextId + 1 ∉ E := fun hc => absurd (hEold _ hc) (by simp)
  have hn2 : st.nextId + 2 ∉ E := fun hc => absurd (hEold _ hc) (by simp)
  have hblock : st1.blocks.lookup Preheader =
      some (a.filter (fun j => decide (j ∉ E)) ++
        st.nextId :: (st.nextId + 1) :: (st.nextId + 2) :: T ::
          b.filter (fun j => decide (j ∉ E))) := by
    rw [hst, lookup_blocks_eraseAll, hlw]
    simp only [Option.map_some', Option.some.injEq, List.filter_append]
    rw [List.filter_cons_of_pos (by simpa using hn0), List.filter_cons_of_pos (by simpa using hn1),
      List.filter_cons_of_pos (by simpa using hn2), List.filter_cons_of_pos (by simpa using hTE)]
  unfold State.getTerminator
  rw [hblock]
  simp only
  have hl2 : (a.filter (fun j => decide (j ∉ E)) ++
      st.nextId :: (st.nextId + 1) :: (st.nextId + 2) :: T ::
        b.filter (fun j => decide (j ∉ E))).getLast? = some T := by
    have e : a.filter (fun j => decide (j ∉ E)) ++
        st.nextId :: (st.nextId + 1) :: (st.nextId + 2) :: T ::
          b.filter (fun j => decide (j ∉ E)) =
        (a.filter (fun j => decide (j ∉ E)) ++ [st.nextId, st.nextId + 1]) ++
          (st.nextId + 2) :: T :: b.filter (fun j => decide (j ∉ E)) := by simp
    rw [e, getLast?_append_cons_cons]
    have := getLast?_filter (fun j => decide (j ∉ E)) T (T :: b) hlast (by simpa using hTE)
    rw [List.filter_cons_of_pos (by simpa using hTE)] at this
    exact this
  rw [hl2]
  simp only
  rw [hst, getInst_eraseAll, if_neg hTE, getInst_withFill_old TD st T I _ SplatValue start
    BECount T (lt_nextId_of_getInst st hfresh T JT hJT), hJT]
  simp only [hopT, if_true]

/-- The splat value of a store without a use, on a graph with proper operands,
is not the store and, when it is an instruction, is live. -/
theorem splat_proper (A : Analyses) (st : State) (SI : InstId) (I : Instruction)
    (StoredVal StorePtr SplatValue : Value) (hI : st.getInst SI = some I)
    (hops : I.operands = [some StoredVal, some StorePtr]) (hlive : OperandsLive st)
    (huse : st.use_empty (.inst SI) = true)
    (hcls : ∀ V S, A.isBytewiseValue V = some S → S = V ∨ ∀ j, S ≠ Value.inst j)
    (hsplat : A.isBytewiseValue StoredVal = some SplatValue) :
    (∀ j, SplatValue = .inst j → (st.getInst j).isSome ∧ j ≠ SI) ∧
    (SplatValue = StoredVal ∨ ∀ j, SplatValue ≠ Value.inst j) := by
  refine ⟨?_, hcls StoredVal SplatValue hsplat⟩
  intro j hj
  rcases hcls StoredVal SplatValue hsplat with h1 | h1
  · have hmem : some StoredVal ∈ I.operands := by rw [hops]; exact List.mem_cons_self _ _
    obtain ⟨V, hV, hVj⟩ := hlive (SI, I) (mem_of_lookup_eq_some st.insts SI I hI) _ hmem
    have hVS : StoredVal = V := Option.some.inj hV
    have hj' : StoredVal = .inst j := h1 ▸ hj
    refine ⟨hVj j (hVS ▸ hj'), ?_⟩
    intro hc
    have := use_empty_eq_false st SI I (.inst SI) hI (by rw [← hc, ← hj']; exact hmem)
    rw [this] at huse
    cases huse
  · exact absurd hj (h1 j)

/-- A rewrite keeps the graph well-formed for the scan; the block grows by at
most three instructions and loses a non-volatile store. -/
theorem scanWF_rewrite (A : Analyses) (TD : TargetData) (CurLoop : Loop)
    (st : State) (SI : InstId) (BECount : SCEV) (st1 : State) (BB : BlockId)
    (l : List InstId) (Cur : Instruction) (hwf : ScanWF A CurLoop st BB l)
    (hCur : st.getInst SI = some Cur) (hop : Cur.opcode = .store false)
    (h : processLoopStore A TD CurLoop st SI BECount = .ok (true, st1)) :
    ∃ l1, ScanWF A CurLoop st1 BB l1 ∧ l1.length ≤ l.length + 3 ∧
      (SI ∈ l →
        (l1.filter (isSimpleStore st1)).length < (l.filter (isSimpleStore st)).length) := by
  obtain ⟨hfresh, hlive, hl, hnd, hlv, hstores, ⟨P0, T0, hP0, hT0⟩, hcls⟩ := hwf
  have hlt : ∀ x ∈ l, x < st.nextId := fun x hx => by
    obtain ⟨J, hJ⟩ := Option.isSome_iff_exists.mp (hlv x hx)
    exact lt_nextId_of_getInst st hfresh x J hJ
  obtain ⟨l1, hl1, hnd1, hlt1, hlen, hold, hlive1⟩ :=
    rewrite_block A TD CurLoop st SI BECount st1 hfresh h BB l hl hnd hlt
  obtain ⟨I, StoredVal, StorePtr, start, bits, SplatValue, Preheader, T, E, np, hI, hops, hev,
    hsplat, hpre, hT, hst, hndE, hperm, hEold, hpure⟩ :=
    processLoopStore_rewrite A TD CurLoop st SI BECount st1 hfresh h
  rw [hCur] at hI
  have hII := Option.some.inj hI
  subst hII
  have hCurmem := mem_of_lookup_eq_some st.insts SI Cur hCur
  obtain ⟨huseSI, _⟩ := hstores (SI, Cur) hCurmem hop
  obtain ⟨hS, hS2⟩ := splat_proper A st SI Cur StoredVal StorePtr SplatValue hCur hops hlive
    huseSI hcls hsplat
  obtain ⟨hlivew, husew, _⟩ := cascadeInv_withFill TD st T Cur
    (TD.getTypeSizeInBits (A.getType StoredVal) / 8) SplatValue start BECount SI hfresh hCur
    hlive huseSI hS
  have huseSIw := (husew SI (List.mem_singleton.mpr rfl)).2
  have hEuse : ∀ j ∈ E, st1.use_empty (.inst j) = true := by
    intro j hj
    rcases List.mem_append.mp (hperm.subset hj) with hx | hx
    · obtain ⟨_, _, _, hu⟩ := hpure j hx
      exact hu
    · rw [List.mem_singleton] at hx
      rw [hx, hst]
      exact use_empty_eraseAll _ E _ huseSIw
  have hmem1 : ∀ p, p ∈ st1.insts →
      p ∈ (withFill TD st T Cur (TD.getTypeSizeInBits (A.getType StoredVal) / 8) SplatValue
        start BECount).insts ∧ p.1 ∉ E := by
    intro p hp
    rw [hst] at hp
    exact (mem_insts_eraseAll _ E p).mp hp
  have hlive1' : OperandsLive st1 := by
    intro p hp o ho
    obtain ⟨hpw, hpE⟩ := hmem1 p hp
    obtain ⟨V, hV, hj⟩ := hlivew p hpw o ho
    refine ⟨V, hV, ?_⟩
    intro j hVj
    have hjE : j ∉ E := by
      intro hc
      have h1 := hEuse j hc
      have h2 := use_empty_false_of_mem st1 p (.inst j) hp (by rw [← hVj, ← hV]; exact ho)
      rw [h1] at h2
      cases h2
    rw [hst, getInst_eraseAll, if_neg hjE]
    exact hj j hVj
  have hstores1 : ∀ p ∈ st1.insts, p.2.opcode = .store false →
      st1.use_empty (.inst p.1) = true ∧ isStoreShape p.2.operands = true := by
    intro p hp hpop
    obtain ⟨hpw, hpE⟩ := hmem1 p hp
    rw [insts_withFill] at hpw
    rcases List.mem_append.mp hpw with hps | hpf
    · obtain ⟨hu, hsh⟩ := hstores p hps hpop
      refine ⟨?_, hsh⟩
      rw [hst]
      apply use_empty_eraseAll
      unfold State.use_empty
      rw [insts_withFill, List.all_append, Bool.and_eq_true]
      refine ⟨hu, ?_⟩
      have hplt : p.1 < st.nextId := hfresh p hps
      have hne0 : st.nextId ≠ p.1 := Nat.ne_of_gt hplt
      have hne1 : st.nextId + 1 ≠ p.1 := Nat.ne_of_gt (Nat.lt_add_right 1 hplt)
      have hS' : SplatValue ≠ Value.inst p.1 := by
        intro hc
        rcases hS2 with h1 | h1
        · have := use_empty_false_of_mem st (SI, Cur) (.inst p.1) hCurmem
            (by rw [hops, ← hc, h1]; exact List.mem_cons_self _ _)
          rw [hu] at this
          cases this
        · exact h1 _ hc
      simp [fillInsts, baseInst, lengthInst, fillInst, hne0, hne1, hS']
    · simp only [fillInsts, List.mem_cons, List.mem_singleton, List.not_mem_nil, or_false]
        at hpf
      rcases hpf with hpf | hpf | hpf <;> subst hpf <;>
        exact absurd hpop (by simp [baseInst, lengthInst, fillInst])
  refine ⟨l1, ⟨(freshIds_rewrite A TD CurLoop st SI BECount st1 hfresh h).1, hlive1', hl1, hnd1,
    hlive1 hlv, hstores1, ⟨Preheader, T, hpre,
      rewrite_terminator A TD CurLoop st SI BECount st1 false hfresh ⟨Cur, hCur, hop⟩ h
        Preheader T hpre hT⟩, hcls⟩, hlen, ?_⟩
  intro hSIl
  have hsub : ∀ x ∈ l1.filter (isSimpleStore st1),
      x ∈ (l.filter (isSimpleStore st)).erase SI := by
    intro x hx
    obtain ⟨hx1, hxs⟩ := List.mem_filter.mp hx
    obtain ⟨hxl, hxne, hxeq⟩ := hold x hx1 hxs
    have hxs0 : isSimpleStore st x = true := by
      unfold isSimpleStore at hxs ⊢
      rw [← hxeq]
      exact hxs
    exact (List.mem_erase_of_ne hxne).mpr (List.mem_filter.mpr ⟨hxl, hxs0⟩)
  have hle := (List.subperm_of_subset (hnd1.filter _) hsub).length_le
  have hSImem : SI ∈ l.filter (isSimpleStore st) :=
    List.mem_filter.mpr ⟨hSIl, (isSimpleStore_iff st SI).mpr ⟨Cur, hCur, hop⟩⟩
  rw [List.length_erase_of_mem hSImem] at hle
  have hpos : 0 < (l.filter (isSimpleStore st)).length := List.length_pos_of_mem hSImem
  omega

/-! ## The scan terminates -/

/-- On a well-formed graph the scan returns whenever the fuel covers the rest of
the current pass and, for each non-volatile store of the block, one more pass
over a block that has grown by three instructions; and it restarts at most as
many times as the block has non-volatile stores. -/
theorem scanLoop_total (A : Analyses) (TD : TargetData) (CurLoop : Loop) (BECount : SCEV)
    (BB : BlockId) :
    ∀ (fuel : Nat) (st : State) (pre post : List InstId) (mc : Bool)
      (tr : List (InstId × Bool)) (s Lmax : Nat),
      ScanWF A CurLoop st BB (pre ++ post) → (pre ++ post).length ≤ Lmax →
      ((pre ++ post).filter (isSimpleStore st)).length ≤ s →
      post.length + scanFuel s Lmax ≤ fuel →
      ∃ b st1 new, scanLoop A TD CurLoop BECount BB fuel st post.head? mc tr
          = .ok (b, st1, new ++ tr) ∧
        (new.filter (fun e => e.2)).length ≤ s := by
  intro fuel
  induction fuel with
  | zero =>
    intro st pre post mc tr s Lmax _ _ _ hfuel
    cases post with
    | nil => exact ⟨mc, st, [], scanLoop_none .., Nat.zero_le _⟩
    | cons cur post1 =>
      simp only [List.length_cons] at hfuel
      omega
  | succ fuel ih =>
    intro st pre post mc tr s Lmax hwf hLmax hs hfuel
    cases post with
    | nil => exact ⟨mc, st, [], scanLoop_none .., Nat.zero_le _⟩
    | cons cur post1 =>
      have hwf0 := hwf
      obtain ⟨hfresh, hlive, hl, hnd, hlv, hstores, ⟨P0, T0, hP0, hT0⟩, hcls⟩ := hwf
      have hcurl : cur ∈ pre ++ cur :: post1 :=
        List.mem_append_right _ (List.mem_cons_self _ _)
      obtain ⟨Cur, hCur⟩ := Option.isSome_iff_exists.mp (hlv cur hcurl)
      have hcp : cur ∉ pre := by
        intro hc
        have := List.nodup_append.mp hnd
        exact this.2.2 hc (List.mem_cons_self _ _)
      have hsucc : succInList cur (pre ++ cur :: post1) = post1.head? :=
        succInList_append cur pre post1 hcp
      have hshift : pre ++ cur :: post1 = (pre ++ [cur]) ++ post1 := by simp
      simp only [List.length_cons] at hfuel
      rw [List.head?_cons]
      by_cases hop : Cur.opcode = .store false
      · obtain ⟨huse, hshape⟩ := hstores (cur, Cur) (mem_of_lookup_eq_some st.insts cur Cur hCur)
          hop
        obtain ⟨StoredVal, StorePtr, hops⟩ := isStoreShape_eq_true _ hshape
        obtain ⟨r, st2, hp⟩ := processLoopStore_total A TD CurLoop st cur BECount Cur StoredVal
          StorePtr P0 T0 hfresh hCur hops hlive huse hP0 hT0 (hcls StoredVal)
        cases r with
        | false =>
          have hst := processLoopStore_false A TD CurLoop st cur BECount st2 hp
          subst hst
          rw [scanLoop_reject A TD CurLoop BECount BB fuel _ cur mc tr Cur _ hCur hl hop hp,
            hsucc]
          obtain ⟨b, st1, new, hrun, hcount⟩ := ih st2 (pre ++ [cur]) post1 mc
            ((cur, false) :: tr) s Lmax (by rw [← hshift]; exact hwf0)
            (by rw [← hshift]; exact hLmax) (by rw [← hshift]; exact hs) (by omega)
          refine ⟨b, st1, new ++ [(cur, false)], ?_, ?_⟩
          · rw [hrun]
            simp
          · rw [List.filter_append]
            simpa using hcount
        | true =>
          rw [scanLoop_rewrite A TD CurLoop BECount BB fuel st cur mc tr Cur _ st2 hCur hl hop hp]
          obtain ⟨l1, hwf1, hlen1, hdec⟩ := scanWF_rewrite A TD CurLoop st cur BECount st2 BB _
            Cur hwf0 hCur hop hp
          have hdec' := hdec hcurl
          have hbegin : st2.blockBegin BB = l1.head? := by
            unfold State.blockBegin
            rw [hwf1.2.2.1]
          rw [hbegin]
          cases s with
          | zero => omega
          | succ s' =>
            simp only [scanFuel] at hfuel
            obtain ⟨b, st1, new, hrun, hcount⟩ := ih st2 [] l1 true ((cur, true) :: tr) s'
              (Lmax + 3) hwf1 (by simp only [List.nil_append]; omega)
              (by simp only [List.nil_append]; omega) (by omega)
            refine ⟨b, st1, new ++ [(cur, true)], ?_, ?_⟩
            · rw [hrun]
              simp
            · rw [List.filter_append]
              simp only [List.length_append]
              have : ([(cur, true)].filter (fun e : InstId × Bool => e.2)).length = 1 := rfl
              omega
      · rw [scanLoop_skip A TD CurLoop BECount BB fuel st cur mc tr Cur _ hCur hl hop, hsucc]
        exact ih st (pre ++ [cur]) post1 mc tr s Lmax (by rw [← hshift]; exact hwf0)
          (by rw [← hshift]; exact hLmax) (by rw [← hshift]; exact hs) (by omega)

theorem isBytewiseValue_not_inst (V S : Value) (h : isBytewiseValue V = some S) :
    S = V ∨ ∀ j, S ≠ Value.inst j := by
  right
  intro j hj
  unfold isBytewiseValue at h
  split at h
  · split at h
    · rw [hj] at h
      cases h
    · cases h
  · cases h

theorem scanWF_exStateTwoFills :
    ScanWF (exATwo exBECount) exLoop exStateTwoFills exLoop.header [1, 2, 3, 7, 8, 4, 5, 6] :=
  ⟨freshIds_of_all _ (by decide), operandsLive_of_B _ (by decide), rfl, by decide, by decide,
    by decide, ⟨0, 0, rfl, by decide⟩, isBytewiseValue_not_inst⟩

/-- C19: on an admitted loop whose graph is well-formed, `runOnLoop` returns for
every fuel from `|l| + scanFuel s |l|` on, `l` being the block and `s` the number
of its non-volatile stores: a pass that rewrites nothing ends at the block end
within `|l|` steps, and each restart follows the destruction of a store of the
block, so the calls that returned true, one per restart, are at most `s`, and
every store they were made on is destroyed in the final state. -/
theorem C19_scan_terminates (fuel : Nat) (A : Analyses) (L : Loop) (st : State)
    (TD : TargetData) (l : List InstId)
    (hTD : A.TD = some TD) (h1 : L.blocks.length = 1)
    (h2 : A.SE.hasLoopInvariantBackedgeTakenCount L.id = true)
    (h3 : A.SE.getBackedgeTakenCount L.id ≠ .couldNotCompute)
    (hwf : ScanWF A L st L.header l)
    (hfuel : l.length + scanFuel (l.filter (isSimpleStore st)).length l.length ≤ fuel) :
    ∃ b st1 tr, runOnLoop fuel A L st = .ok (b, st1, tr) ∧
      (tr.filter (fun e => e.2)).length ≤ (l.filter (isSimpleStore st)).length ∧
      (∀ s, (s, true) ∈ tr → st1.getInst s = none) := by
  rw [runOnLoop_admitted fuel A L st TD hTD h1 h2 h3]
  have hbegin : st.blockBegin L.header = l.head? := by
    unfold State.blockBegin
    rw [hwf.2.2.1]
  rw [hbegin]
  obtain ⟨b, st1, new, hrun, hcount⟩ := scanLoop_total A TD L (A.SE.getBackedgeTakenCount L.id)
    L.header fuel st [] l false [] _ l.length hwf (le_refl _) (le_refl _) hfuel
  rw [List.append_nil] at hrun
  refine ⟨b, st1, new, hrun, hcount, ?_⟩
  intro s hs
  rcases scanLoop_rewritten_gone A TD L _ L.header _ _ _ _ _ _ _ _ hrun hwf.1 s hs with h | h
  · cases h
  · exact h

theorem C19_scan_terminates_witness :
    ∃ b st1 tr, runOnLoop 100 (exATwo exBECount) exLoop exStateTwoFills = .ok (b, st1, tr) ∧
      (tr.filter (fun e => e.2)).length ≤
        ([1, 2, 3, 7, 8, 4, 5, 6].filter (isSimpleStore exStateTwoFills)).length ∧
      (∀ s, (s, true) ∈ tr → st1.getInst s = none) :=
  C19_scan_terminates 100 (exATwo exBECount) exLoop exStateTwoFills (exTD 64)
    [1, 2, 3, 7, 8, 4, 5, 6] rfl rfl rfl (by decide) scanWF_exStateTwoFills (by decide)

end LoopIdiomRecognize
